import Mathlib

/-!
Verification development for the TextMate bundle converter (`src/package-converter.js`)
and for `waitForTagToBeAvailable` (`src/publish.js`)

The development is a shallow embedding of `PackageConverter`:

* JavaScript strings are Lean strings; the regular-expression substitutions of
  `convertSnippets` work on the list of characters of the snippet body.  None of the
  character classes used by the three expressions separates the two halves of a
  surrogate pair (`[^}]` accepts both, the others accept neither), so matching on
  code points and matching on UTF-16 code units agree.
* A regular expression of the source is a sequence of items (`Item`): single characters
  of a class and greedy repetitions of a class.  `run` lists the matches of such a
  sequence in the order in which a back-tracking matcher tries them, and `replaceAll` is
  the loop of a global `replace`.
* JavaScript objects used as dictionaries are association lists in insertion order
  (`Obj`).  Reading a property is `Obj.get`, assigning one is `Obj.set`.  Properties
  inherited from the prototype and the enumeration order of integer-like property names
  are outside the model; the statements below read properties by name.
* The records read from the files are typed: a property that the converter reads as a
  string is an optional string.
* The mutable locals of a loop body become an explicit state that is threaded through
  the iterations.
* Library functions that are not part of the repository (`path.extname`,
  `path.basename`, `path.join`, `path.resolve`, `ScopeSelector.toCssSelector`,
  `JSON.stringify`, `toLowerCase`) are parameters, collected in `Env`.
* What the converter reads (the file system under the bundle and the parsers) is a
  parameter too, `Bundle`; what it does to the destination is the list of its calls of
  the serializer and of `normalizeFilenames`, in order, together with the error that
  ends the run if one is thrown (`Outcome`).
-/

namespace PackageConverter

/-! ## Regular-expression substitution -/

/-- The class `[A-Z_]`. -/
def isUpperOrUnderscore (c : Char) : Bool :=
  (65 ≤ c.toNat && c.toNat ≤ 90) || c == '_'

/-- The class `\d` (without the unicode flag: ASCII digits only). -/
def isDigit (c : Char) : Bool :=
  48 ≤ c.toNat && c.toNat ≤ 57

/-- The class `\s` of ECMAScript: white space and line terminators. -/
def isSpace (c : Char) : Bool :=
  let n := c.toNat
  n == 9 || n == 10 || n == 11 || n == 12 || n == 13 || n == 32 || n == 160 ||
  n == 5760 || (8192 ≤ n && n ≤ 8202) || n == 8232 || n == 8233 || n == 8239 ||
  n == 8287 || n == 12288 || n == 65279

/-- The class `[^}]`. -/
def isNotCloseBrace (c : Char) : Bool :=
  c != '}'

/-- Match the literal text `lit` at the start of `s`; the result is what follows it. -/
def expect : List Char → List Char → Option (List Char)
  | [], s => some s
  | _ :: _, [] => none
  | c :: cs, d :: ds => if c = d then expect cs ds else none

/-- An item of an expression without alternatives: one character of a class, or a greedy
repetition `*` of a class.  `captured` tells whether the item stands inside capture
group 1. -/
inductive Item where
  | one (p : Char → Bool) (captured : Bool)
  | star (p : Char → Bool) (captured : Bool)

/-- A literal character outside the capture group. -/
def lit (c : Char) : Item := Item.one (fun d => d == c) false

/-- The ways to split `s` into a run of characters of the class `p` and the rest, the
longest run first: the order in which a greedy repetition tries them. -/
def splits (p : Char → Bool) : List Char → List (List Char × List Char)
  | [] => [([], [])]
  | c :: s =>
    if p c then (splits p s).map (fun x => (c :: x.1, x.2)) ++ [([], c :: s)]
    else [([], c :: s)]

/-- Put the text `t` taken by an item in front of the capture of the match `x` of the
items behind it, when the item stands inside the capture group. -/
def withCapture (k : Bool) (t : List Char) (x : List Char × List Char) :
    List Char × List Char :=
  ((if k then t else []) ++ x.1, x.2)

/-- All matches of a sequence of items at the start of `s`, in the order in which a
back-tracking matcher finds them.  A match is the text of capture group 1 and the input
that follows the match. -/
def run : List Item → List Char → List (List Char × List Char)
  | [], s => [([], s)]
  | Item.one _ _ :: _, [] => []
  | Item.one p k :: r, c :: s => if p c then (run r s).map (withCapture k [c]) else []
  | Item.star p k :: r, s =>
    (splits p s).flatMap (fun sp => (run r sp.2).map (withCapture k sp.1))

/-- The match that the matcher reports: the first one it finds. -/
def firstMatch (e : List Item) (s : List Char) : Option (List Char × List Char) :=
  (run e s).head?

/-- The expression `/\$\{TM_[A-Z_]+:([^}]+)}/`; `x+` is `x` followed by `x*`. -/
def defaultExpression : List Item :=
  [lit '$', lit '{', lit 'T', lit 'M', lit '_',
   Item.one isUpperOrUnderscore false, Item.star isUpperOrUnderscore false, lit ':',
   Item.one isNotCloseBrace true, Item.star isNotCloseBrace true, lit '}']

/-- The expression `/\$\{(\d)+:\s*\$\{TM_[^}]+\s*\}\s*\}/`.  Its group is not marked as
captured: the replacement of the second substitution does not refer to it. -/
def nestedExpression : List Item :=
  [lit '$', lit '{', Item.one isDigit false, Item.star isDigit false, lit ':',
   Item.star isSpace false, lit '$', lit '{', lit 'T', lit 'M', lit '_',
   Item.one isNotCloseBrace false, Item.star isNotCloseBrace false,
   Item.star isSpace false, lit '}', Item.star isSpace false, lit '}']

/-- The expression `/\\\$/`. -/
def escapedDollarExpression : List Item :=
  [lit '\\', lit '$']

/-- The first match of `defaultExpression` computed without back-tracking (see
`firstMatch_defaultExpression`): the text of capture group 1 and the input that follows
the match.  Both repetitions are followed by a literal that lies outside the repeated
class (`:` after `[A-Z_]+`, `}` after `[^}]+`), so the longest run is the only
candidate. -/
def matchDefault (s : List Char) : Option (List Char × List Char) :=
  match expect ['$', '{', 'T', 'M', '_'] s with
  | none => none
  | some r0 =>
    if r0.takeWhile isUpperOrUnderscore = [] then none else
    match expect [':'] (r0.dropWhile isUpperOrUnderscore) with
    | none => none
    | some r1 =>
      if r1.takeWhile isNotCloseBrace = [] then none else
      match expect ['}'] (r1.dropWhile isNotCloseBrace) with
      | none => none
      | some r2 => some (r1.takeWhile isNotCloseBrace, r2)

/-- The end of the first match of `nestedExpression` computed without back-tracking
(see `firstMatch_nestedExpression`).  Every repetition is followed by a literal outside
its class, except `[^}]+\s*\}`: there the `\}` can only be the first `}` after `TM_`,
whatever part of the run before it is given to `\s*`, so the longest run for `[^}]+`
succeeds whenever any split does. -/
def matchNested (s : List Char) : Option (List Char) :=
  match expect ['$', '{'] s with
  | none => none
  | some r0 =>
    if r0.takeWhile isDigit = [] then none else
    match expect [':'] (r0.dropWhile isDigit) with
    | none => none
    | some r1 =>
      match expect ['$', '{', 'T', 'M', '_'] (r1.dropWhile isSpace) with
      | none => none
      | some r2 =>
        if r2.takeWhile isNotCloseBrace = [] then none else
        match expect ['}'] (r2.dropWhile isNotCloseBrace) with
        | none => none
        | some r3 => expect ['}'] (r3.dropWhile isSpace)

/-- The end of the first match of `escapedDollarExpression` (see
`firstMatch_escapedDollarExpression`). -/
def matchEscapedDollar (s : List Char) : Option (List Char) :=
  expect ['\\', '$'] s

/-- The loop of `String.prototype.replace` for a global expression whose matches are
never empty.  `m` tries the expression at the start of its argument and yields the
replacement text together with the input after the match.  `skip` counts the
characters that still belong to the previous match (the distance to `lastIndex`);
a character outside every match is copied. -/
def replaceLoop (m : List Char → Option (List Char × List Char)) :
    Nat → List Char → List Char
  | _, [] => []
  | skip + 1, _ :: cs => replaceLoop m skip cs
  | 0, c :: cs =>
    match m (c :: cs) with
    | some (replacement, rest) => replacement ++ replaceLoop m (cs.length - rest.length) cs
    | none => c :: replaceLoop m 0 cs

/-- Global replacement: `s.replace(/.../g, ...)`. -/
def replaceAll (m : List Char → Option (List Char × List Char)) (s : List Char) : List Char :=
  replaceLoop m 0 s

/-- First substitution: `content.replace(/\$\{TM_[A-Z_]+:([^}]+)}/g, '$1')`.
The replacement pattern `$1` stands for capture group 1. -/
def replaceDefault (s : List Char) : List Char :=
  replaceAll (firstMatch defaultExpression) s

/-- Second substitution: `content.replace(/\$\{(\d)+:\s*\$\{TM_[^}]+\s*\}\s*\}/g, '$$1')`.
In a replacement pattern `$$` stands for one dollar sign, and the `1` after it is an
ordinary character: the replacement text is the two characters `$1`. -/
def replaceNested (s : List Char) : List Char :=
  replaceAll (fun t => (firstMatch nestedExpression t).map (fun x => (['$', '1'], x.2))) s

/-- Third substitution: `content.replace(/\\\$/g, '$')`. -/
def replaceEscapedDollar (s : List Char) : List Char :=
  replaceAll (fun t => (firstMatch escapedDollarExpression t).map (fun x => (['$'], x.2))) s

/-- The three substitutions of `convertSnippets`, in the order of the source. -/
def rewriteChars (s : List Char) : List Char :=
  replaceEscapedDollar (replaceNested (replaceDefault s))

/-- The snippet body rewrite of `convertSnippets` on strings. -/
def rewrite (content : String) : String :=
  String.mk (rewriteChars content.data)

/-! ## What the rewrite is expected to do, in the words of the specification -/

/-- Replace every occurrence of backslash-dollar, found from left to right without
overlap, by a dollar sign, and keep every other character. -/
def unescapeDollars : List Char → List Char
  | [] => []
  | [c] => [c]
  | c :: d :: rest =>
    if c = '\\' ∧ d = '$' then '$' :: unescapeDollars rest
    else c :: unescapeDollars (d :: rest)

/-- The text `${V:D}` of a placeholder with variable name `v` and default text `d`. -/
def placeholder (v d : List Char) : List Char :=
  ['$', '{'] ++ v ++ [':'] ++ d ++ ['}']

/-- A reserved variable name in the sense of the first substitution: `TM_` followed by
one or more characters of `[A-Z_]`. -/
def isReservedName (v : List Char) : Bool :=
  match expect ['T', 'M', '_'] v with
  | some w => !w.isEmpty && w.all isUpperOrUnderscore
  | none => false

/-- Text without dollar sign and without backslash. -/
def isPlainText (t : List Char) : Bool :=
  t.all (fun c => c != '$' && c != '\\')

/-- A default text: not empty, and free of `}`, `$` and backslash. -/
def isPlainDefault (d : List Char) : Bool :=
  !d.isEmpty && d.all (fun c => c != '}' && c != '$' && c != '\\')

/-- A placeholder followed by the plain text that separates it from the next one. -/
structure Segment where
  name : List Char
  default : List Char
  text : List Char

/-- A segment whose placeholder has a reserved name and a plain default text. -/
def Segment.wellFormed (g : Segment) : Bool :=
  isReservedName g.name && isPlainDefault g.default && isPlainText g.text

/-- A body made of placeholders separated by text. -/
def renderSegments : List Segment → List Char
  | [] => []
  | g :: gs => placeholder g.name g.default ++ g.text ++ renderSegments gs

/-- The same body with every placeholder replaced by its default text. -/
def renderDefaults : List Segment → List Char
  | [] => []
  | g :: gs => g.default ++ g.text ++ renderDefaults gs

/-! ## Values, objects and errors -/

/-- A value read from a property list, a JSON file or a CSON file. -/
inductive Val where
  | null
  | bool (b : Bool)
  | num (n : Int)
  | str (s : String)
  | arr (items : List Val)
  | obj (fields : List (String × Val))

/-- A JavaScript object used as a dictionary: its own properties in insertion order. -/
abbrev Obj (α : Type) := List (String × α)

/-- Read a property: `o[k]`, `none` standing for `undefined`. -/
def Obj.get {α : Type} : Obj α → String → Option α
  | [], _ => none
  | (k0, v0) :: rest, k => if k0 = k then some v0 else Obj.get rest k

/-- Assign a property: `o[k] = v`.  An existing property keeps its place, a new one is
added behind the others. -/
def Obj.set {α : Type} : Obj α → String → α → Obj α
  | [], k, v => [(k, v)]
  | (k0, v0) :: rest, k, v =>
    if k0 = k then (k, v) :: rest else (k0, v0) :: Obj.set rest k v

/-- `_.extend(destination, source)`: every property of `source` is assigned to
`destination`, which is returned. -/
def extend {α : Type} (destination source : Obj α) : Obj α :=
  source.foldl (fun acc kv => Obj.set acc kv.1 kv.2) destination

/-- `_.compactObject(object)`: the properties whose value is neither `null` nor
`undefined`. -/
def compactObject (object : List (String × Option Val)) : Obj Val :=
  object.filterMap (fun kv =>
    match kv.2 with
    | none => none
    | some Val.null => none
    | some v => some (kv.1, v))

/-- An error object: the properties read by the converter. -/
structure JsError where
  fileName : Option String
  message : String

/-- The library functions the converter calls. -/
structure Env where
  /-- `path.extname`. -/
  extname : String → String
  /-- `path.basename(path, ext)`. -/
  basename : String → String → String
  /-- `new ScopeSelector(scope).toCssSelector()`, which may throw. -/
  toCssSelector : String → Except JsError String
  /-- `JSON.stringify` on a string. -/
  jsonStringify : String → String
  /-- `String.prototype.toLowerCase`. -/
  toLowerCase : String → String
  /-- `path.join` of two segments. -/
  join : String → String → String
  /-- `path.resolve` of one path. -/
  resolve : String → String

/-- JavaScript truthiness of a string property that may be absent. -/
def truthy : Option String → Bool
  | none => false
  | some s => s != ""

/-- The `catch` block around the translation: the message is extended and the error
thrown again. An absent `fileName` is printed as `undefined` by the template. -/
def annotate (env : Env) (scope : String) (e : JsError) : JsError :=
  { e with
    message := "In file " ++ e.fileName.getD "undefined" ++ " at " ++
      env.jsonStringify scope ++ ": " ++ e.message }

/-- The `try` block: `new ScopeSelector(scope).toCssSelector()`. -/
def translateScope (env : Env) (scope : String) : Except JsError String :=
  match env.toCssSelector scope with
  | .ok selector => .ok selector
  | .error e => .error (annotate env scope e)

/-! ## `convertSnippets` -/

/-- The properties of a snippet record that `convertSnippets` reads. -/
structure Snippet where
  scope : Option String := none
  name : Option String := none
  content : Option String := none
  tabTrigger : Option String := none
  deriving DecidableEq

/-- An entry of the snippets group.  The field `trigger` is the property that the
source calls prefix. -/
structure SnippetEntry where
  trigger : String
  body : String
  deriving DecidableEq

/-- The variables of `convertSnippets` that live across the iterations of its loop.
`selector` is declared with `var` inside the loop body, so it is a variable of the
function and keeps its value from one iteration to the next. -/
structure SnippetState where
  snippetsBySelector : Obj (Obj SnippetEntry)
  selector : Option String

/-- The name of the entry: the `name` property, or else
`path.basename(child, path.extname(child))`. -/
def snippetName (env : Env) (child : String) (snippet : Snippet) : String :=
  match snippet.name with
  | some name => name
  | none => env.basename child (env.extname child)

/-- The last two statements of the loop body:
`if (snippetsBySelector[selector] == null) { snippetsBySelector[selector] = {}; }` and
`snippetsBySelector[selector][name] = entry`. -/
def insertSnippet (group : Obj (Obj SnippetEntry)) (selector name : String)
    (entry : SnippetEntry) : Obj (Obj SnippetEntry) :=
  let group1 := if (Obj.get group selector).isNone then Obj.set group selector [] else group
  Obj.set group1 selector (Obj.set ((Obj.get group1 selector).getD []) name entry)

/-- One iteration of the loop of `convertSnippets` for the directory entry `child`,
where `file` is the result of `readFileSync` (`none` for `undefined`). -/
def snippetStep (env : Env) (st : SnippetState) (child : String) (file : Option Snippet) :
    Except JsError SnippetState :=
  let snippet := file.getD {}
  if !truthy snippet.tabTrigger || !truthy snippet.content then .ok st
  else
    let content := rewrite (snippet.content.getD "")
    let name := snippetName env child snippet
    let translated : Except JsError (Option String) :=
      if truthy snippet.scope then
        match translateScope env (snippet.scope.getD "") with
        | .ok selector => .ok (some selector)
        | .error e => .error e
      else .ok st.selector
    match translated with
    | .error e => .error e
    | .ok assigned =>
      let selector := assigned.getD "*"
      .ok { snippetsBySelector :=
              insertSnippet st.snippetsBySelector selector name
                ⟨snippet.tabTrigger.getD "", content⟩,
            selector := some selector }

/-- The loop of `convertSnippets` over the directory listing. -/
def snippetLoop (env : Env) :
    SnippetState → List (String × Option Snippet) → Except JsError SnippetState
  | st, [] => .ok st
  | st, (child, file) :: rest =>
    match snippetStep env st child file with
    | .ok st1 => snippetLoop env st1 rest
    | .error e => .error e

/-- The object `snippetsBySelector` that `convertSnippets` hands to `writeFileSync`,
for a snippets directory given as its listing with the record read from each file. -/
def snippetsBySelector (env : Env) (files : List (String × Option Snippet)) :
    Except JsError (Obj (Obj SnippetEntry)) :=
  match snippetLoop env ⟨[], none⟩ files with
  | .ok st => .ok st.snippetsBySelector
  | .error e => .error e

/-! ## `convertSettings` and `convertPreferences` -/

/-- An element of `settings.shellVariables`. -/
structure ShellVariable where
  name : String
  value : Option Val

/-- The properties of a `settings` object that `convertSettings` reads. -/
structure Settings where
  shellVariables : Option (List ShellVariable) := none
  increaseIndentPattern : Option Val := none
  decreaseIndentPattern : Option Val := none
  foldingStopMarker : Option Val := none
  completions : Option Val := none
  /-- Every other property of the object; `convertSettings` reads none of them. -/
  others : Obj Val := []

/-- The loop `for (let {name, value} of ...) { shellVariables[name] = value; }`. -/
def shellVariablesObject (vars : List ShellVariable) : Obj (Option Val) :=
  vars.foldl (fun acc v => Obj.set acc v.name v.value) []

/-- `_.valueForKeyPath(settings, 'shellVariables.' + name)` after the loop above:
`undefined` when `shellVariables` is absent or the variable is `null` or `undefined`. -/
def shellVariable (settings : Settings) (name : String) : Option Val :=
  match settings.shellVariables with
  | none => none
  | some vars =>
    match Obj.get (shellVariablesObject vars) name with
    | some (some Val.null) => none
    | some (some v) => some v
    | _ => none

/-- The object `editorProperties` of `convertSettings`. -/
def editorProperties (settings : Settings) : Obj Val :=
  compactObject
    [("commentStart", shellVariable settings "TM_COMMENT_START"),
     ("commentEnd", shellVariable settings "TM_COMMENT_END"),
     ("increaseIndentPattern", settings.increaseIndentPattern),
     ("decreaseIndentPattern", settings.decreaseIndentPattern),
     ("foldEndPattern", settings.foldingStopMarker),
     ("completions", settings.completions)]

/-- The result of `convertSettings`: `{editor: editorProperties}` unless
`editorProperties` is empty, in which case nothing is returned. -/
def convertSettings (settings : Settings) : Option (Obj (Obj Val)) :=
  if (editorProperties settings).isEmpty then none
  else some [("editor", editorProperties settings)]

/-- The properties of a preferences record that `convertPreferences` reads. -/
structure Preference where
  scope : Option String := none
  settings : Option Settings := none

/-- The body of `for (let key in properties)` for one key of `properties`. -/
def mergeProperty (group : Obj (Obj (Obj Val))) (selector key : String) (value : Obj Val) :
    Obj (Obj (Obj Val)) :=
  let group1 := if (Obj.get group selector).isNone then Obj.set group selector [] else group
  let stored := (Obj.get group1 selector).getD []
  match Obj.get stored key with
  | some existing => Obj.set group1 selector (Obj.set stored key (extend value existing))
  | none => Obj.set group1 selector (Obj.set stored key value)

/-- The loop `for (let key in properties)`. -/
def mergeProperties (group : Obj (Obj (Obj Val))) (selector : String)
    (properties : Obj (Obj Val)) : Obj (Obj (Obj Val)) :=
  properties.foldl (fun g kv => mergeProperty g selector kv.1 kv.2) group

/-- One iteration of the loop of `convertPreferences`. -/
def preferenceStep (env : Env) (group : Obj (Obj (Obj Val))) (file : Option Preference) :
    Except JsError (Obj (Obj (Obj Val))) :=
  let record := file.getD {}
  if !truthy record.scope then .ok group
  else
    match record.settings with
    | none => .ok group
    | some settings =>
      match convertSettings settings with
      | none => .ok group
      | some properties =>
        match translateScope env (record.scope.getD "") with
        | .error e => .error e
        | .ok selector => .ok (mergeProperties group selector properties)

/-- The loop of `convertPreferences` over the directory listing. -/
def preferenceLoop (env : Env) :
    Obj (Obj (Obj Val)) → List (String × Option Preference) →
      Except JsError (Obj (Obj (Obj Val)))
  | group, [] => .ok group
  | group, (_, file) :: rest =>
    match preferenceStep env group file with
    | .ok group1 => preferenceLoop env group1 rest
    | .error e => .error e

/-- The object `preferencesBySelector` that `convertPreferences` hands to
`writeFileSync`, for a preferences directory given as its listing with the record read
from each file. -/
def preferencesBySelector (env : Env) (files : List (String × Option Preference)) :
    Except JsError (Obj (Obj (Obj Val))) :=
  preferenceLoop env [] files

/-! ## Reading the groups -/

/-- The entry `group[selector][name]` of a group, `none` when it does not exist. -/
def entryAt {α : Type} (group : Obj (Obj α)) (selector name : String) : Option α :=
  match Obj.get group selector with
  | some properties => Obj.get properties name
  | none => none

/-- The scope of the record translates to `selector`. -/
def translatesTo (env : Env) (scope : Option String) (selector : String) : Bool :=
  truthy scope &&
    match env.toCssSelector (scope.getD "") with
    | .ok s => s == selector
    | .error _ => false

/-- The entry made from a snippet record: `{prefix: tabTrigger, body: rewrite(content)}`. -/
def snippetEntry (snippet : Snippet) : SnippetEntry :=
  ⟨snippet.tabTrigger.getD "", rewrite (snippet.content.getD "")⟩

/-- The last file of the listing whose scope translates to `selector` and whose display
name is `name`. -/
def lastSnippetFor (env : Env) (files : List (String × Option Snippet))
    (selector name : String) : Option (String × Option Snippet) :=
  files.reverse.find? (fun f =>
    translatesTo env (f.2.getD {}).scope selector && snippetName env f.1 (f.2.getD {}) == name)

/-- A snippet record that the loop skips: `tabTrigger` or `content` is missing or empty. -/
def skipped (file : Option Snippet) : Bool :=
  !truthy (file.getD {}).tabTrigger || !truthy (file.getD {}).content

/-- A value that is neither `null` nor `undefined`, as tested by `value?`. -/
def present : Option Val → Option Val
  | some Val.null => none
  | v => v

/-- The property `group[selector].editor[key]` of a preferences group. -/
def editorValue (group : Obj (Obj (Obj Val))) (selector key : String) : Option Val :=
  match entryAt group selector "editor" with
  | some editor => Obj.get editor key
  | none => none

/-- The projected settings of a preferences file: the recognized keys of its `settings`,
nothing when the record has no `settings`. -/
def projectedSettings (file : Option Preference) : Obj Val :=
  match (file.getD {}).settings with
  | some settings => editorProperties settings
  | none => []

/-- The preferences file reaches the translation of its scope: it has a scope, it has
settings, and the projection of its settings is not empty. -/
def contributes (file : Option Preference) : Bool :=
  truthy (file.getD {}).scope &&
    match (file.getD {}).settings with
    | some settings => (convertSettings settings).isSome
    | none => false

/-- The files of the listing whose scope translates to `selector`, in listing order. -/
def preferenceFilesFor (env : Env) (files : List (String × Option Preference))
    (selector : String) : List (String × Option Preference) :=
  files.filter (fun f => translatesTo env (f.2.getD {}).scope selector)

/-- The value of `key` in the first file, among those whose scope translates to
`selector`, whose projected settings contain `key`. -/
def firstValueFor (env : Env) (files : List (String × Option Preference))
    (selector key : String) : Option Val :=
  (preferenceFilesFor env files selector).findSome?
    (fun f => Obj.get (projectedSettings f.2) key)

/-- Every object stored in the group has pairwise different property names (as every
JavaScript object has). -/
def EditorsNodup (group : Obj (Obj (Obj Val))) : Prop :=
  ∀ s key editor, entryAt group s key = some editor → (editor.map Prod.fst).Nodup

/-! ## `filterObject` and `writeFileSync` -/

/-- Remove a property: `delete object[key]`. -/
def Obj.delete {α : Type} (object : Obj α) (key : String) : Obj α :=
  object.filter (fun kv => kv.1 != key)

/-- The object after `filterObject`: `delete object.uuid` and
`delete object.keyEquivalent`. -/
def filterObject {α : Type} (object : Obj α) : Obj α :=
  Obj.delete (Obj.delete object "uuid") "keyEquivalent"

/-- The call of `CSON.writeFileSync` that `writeFileSync(filePath, object)` makes, if it
makes one: the path and the object handed to the serializer.  An absent `object`
(`none`) is replaced by the empty object. -/
def serializerCall {α : Type} (filePath : String) (object : Option (Obj α)) :
    Option (String × Obj α) :=
  if (filterObject (object.getD [])).length > 0 then
    some (filePath, filterObject (object.getD []))
  else none

/-- The effect of `writeFileSync` on the files kept by the serializer: `disk` gives, for
each path written so far, the object last serialized there. -/
def writeFileSync {α : Type} (disk : Obj (Obj α)) (filePath : String)
    (object : Option (Obj α)) : Obj (Obj α) :=
  match serializerCall filePath object with
  | some (target, filtered) => Obj.set disk target filtered
  | none => disk

/-! ## Reading the settings -/

/-- The names of the properties that `convertSettings` may put into `editorProperties`. -/
def recognizedKeys : List String :=
  ["commentStart", "commentEnd", "increaseIndentPattern", "decreaseIndentPattern",
   "foldEndPattern", "completions"]

/-- The value `settings.shellVariables[name]` in the mapping made from the sequence of
pairs; `none` when there is no `shellVariables` or no such name. -/
def normalizedShellVariable (settings : Settings) (name : String) : Option Val :=
  match settings.shellVariables with
  | none => none
  | some vars => (Obj.get (shellVariablesObject vars) name).join

/-! ## `normalizeFilenames` -/

/-- The class `[|?*<>:"\\\/]` of the characters that are not allowed in a file name. -/
def isForbidden (c : Char) : Bool :=
  c == '|' || c == '?' || c == '*' || c == '<' || c == '>' || c == ':' ||
    c == Char.ofNat 34 || c == '\\' || c == '/'

/-- The class `[\s-]`. -/
def isSpaceOrHyphen (c : Char) : Bool :=
  isSpace c || c == '-'

/-- The expression `/[|?*<>:"\\\/]+/`. -/
def forbiddenExpression : List Item :=
  [Item.one isForbidden false, Item.star isForbidden false]

/-- The expression `/[\s-]+/`. -/
def spaceOrHyphenExpression : List Item :=
  [Item.one isSpaceOrHyphen false, Item.star isSpaceOrHyphen false]

/-- The global replacement `name.replace(expression, '-')`. -/
def replaceByHyphen (e : List Item) (s : List Char) : List Char :=
  replaceAll (fun t => (firstMatch e t).map (fun x => (['-'], x.2))) s

/-- The first replacement: `child.replace(/[|?*<>:"\\\/]+/g, '-')`. -/
def replaceForbidden (child : String) : String :=
  String.mk (replaceByHyphen forbiddenExpression child.data)

/-- The second replacement: `convertedFileName.replace(/[\s-]+/g, '-')`. -/
def collapseSpaces (name : String) : String :=
  String.mk (replaceByHyphen spaceOrHyphenExpression name.data)

/-- The directories of a case-sensitive file system: the path of each directory with
the names of its entries, in the order of `readdirSync`. -/
abbrev FileSystem := Obj (List String)

/-- The entries of a directory: `fs.readdirSync(directoryPath)`, and no entry when the
path is not a directory. -/
def entriesOf (fs : FileSystem) (directoryPath : String) : List String :=
  (Obj.get fs directoryPath).getD []

/-- The condition of the `while` loop for the candidate `name`:
`fs.existsSync(convertedPath) || fs.existsSync(convertedPath.toLowerCase())` with
`convertedPath = path.join(directoryPath, name)`.  The lower-cased path is the
lower-cased name in the directory at the lower-cased directory path. -/
def nameTaken (env : Env) (fs : FileSystem) (directoryPath name : String) : Bool :=
  (entriesOf fs directoryPath).contains name ||
    (entriesOf fs (env.toLowerCase directoryPath)).contains (env.toLowerCase name)

/-- The body of the `while` loop: the candidate that follows `name`,
`basename(name, extension) + '-' + suffix + extension`. -/
def nextName (env : Env) (name : String) (suffix : Nat) : String :=
  env.basename name (env.extname name) ++ "-" ++ toString suffix ++ env.extname name

/-- The `while` loop, run for at most `fuel` tests of its condition: the first
candidate that is not taken, `none` when the loop has not ended by then. -/
def freeName (env : Env) (fs : FileSystem) (directoryPath : String) :
    Nat → String → Nat → Option String
  | 0, _, _ => none
  | fuel + 1, name, suffix =>
    if nameTaken env fs directoryPath name then
      freeName env fs directoryPath fuel (nextName env name suffix) (suffix + 1)
    else some name

/-- The length of the longest name in the directory and in the directory at the
lower-cased path. -/
def longestName (env : Env) (fs : FileSystem) (directoryPath : String) : Nat :=
  ((entriesOf fs directoryPath ++ entriesOf fs (env.toLowerCase directoryPath)).map
    String.length).foldr max 0

/-- The entries of a directory after `fs.renameSync` of the entry `old` to the name
`new`: an entry that has the name `new` is replaced, the renamed entry keeps its
place. -/
def renameEntry (entries : List String) (old new : String) : List String :=
  if old = new then entries
  else (entries.filter (fun n => n != new)).map (fun n => if n = old then new else n)

/-- `fs.renameSync(childPath, convertedPath)` for two names of the directory; `none`
when there is no entry `old` (the call throws). -/
def renameSync (fs : FileSystem) (directoryPath old new : String) : Option FileSystem :=
  if (entriesOf fs directoryPath).contains old then
    some (Obj.set fs directoryPath (renameEntry (entriesOf fs directoryPath) old new))
  else none

/-- The name that the loop body computes before the `while` loop:
both replacements applied to `child`. -/
def sanitizedName (child : String) : String :=
  collapseSpaces (replaceForbidden child)

/-- One iteration of the loop of `normalizeFilenames` for the entry `child`.  The
`while` loop is given one test more than the longest name has characters, plus one:
every candidate is longer than the one before it, so this is enough whenever the loop
ends at all. `none` stands for a call that does not return. -/
def normalizeStep (env : Env) (fs : FileSystem) (directoryPath child : String) :
    Option FileSystem :=
  if child = replaceForbidden child then some fs
  else
    match freeName env fs directoryPath (longestName env fs directoryPath + 2)
        (sanitizedName child) 1 with
    | none => none
    | some name => renameSync fs directoryPath child name

/-- The loop of `normalizeFilenames` over the listing read at its start. -/
def normalizeLoop (env : Env) (directoryPath : String) :
    FileSystem → List String → Option FileSystem
  | fs, [] => some fs
  | fs, child :: rest =>
    match normalizeStep env fs directoryPath child with
    | some fs1 => normalizeLoop env directoryPath fs1 rest
    | none => none

/-- The file system after `normalizeFilenames(directoryPath)`. -/
def normalizeFilenames (env : Env) (fs : FileSystem) (directoryPath : String) :
    Option FileSystem :=
  match Obj.get fs directoryPath with
  | none => some fs
  | some children => normalizeLoop env directoryPath fs children

/-! ## What `normalizeFilenames` is expected to do, in the words of the specification -/

/-- Replace each run of characters of the class `p` by one hyphen; `inRun` tells that
the character before was of the class. -/
def collapseAux (p : Char → Bool) : Bool → List Char → List Char
  | _, [] => []
  | inRun, c :: cs =>
    if p c then (if inRun then collapseAux p true cs else '-' :: collapseAux p true cs)
    else c :: collapseAux p false cs

/-- Replace each run of characters of the class `p` by one hyphen. -/
def collapseRuns (p : Char → Bool) (s : List Char) : List Char :=
  collapseAux p false s

/-- The name contains none of the characters `| ? * < > : " \ /`. -/
def hasNoForbidden (name : String) : Bool :=
  name.data.all (fun c => !isForbidden c)

/-! ## The bundle and the effects on the destination

The converter reads the bundle through `fs`, `plist` and `CSON`, and it changes the
destination in two ways only: by `CSON.writeFileSync` and by the renames of
`normalizeFilenames`.  A run is described by the list of these effects in the order in
which they happen and by the error that ends it, if one is thrown.  The serializer and
the renames are taken not to throw, and nothing that is written is read again by the
same run. -/

/-- A value returned by a parser, seen through the properties that each converter
reads from it. -/
structure Parsed where
  /-- The properties read by `convertSnippets`. -/
  snippet : Snippet := {}
  /-- The properties read by `convertPreferences`. -/
  preference : Preference := {}
  /-- Its own enumerable properties, which `writeFileSync` filters and serializes. -/
  properties : Obj Val := []

/-- The value of `JSON.parse` on the text of `package.json`, seen through the property
that `copyDirectories` reads from it. -/
structure PackageJson where
  packageName : Option String := none

/-- What the converter reads from: the file system and the parsers.  A parser may throw;
`none` stands for a result that is `null` or `undefined`. -/
structure Bundle where
  /-- `fs.isDirectorySync`. -/
  isDirectorySync : String → Bool
  /-- `fs.isFileSync`. -/
  isFileSync : String → Bool
  /-- `fs.readdirSync`. -/
  readdirSync : String → List String
  /-- `plist.parseFileSync`. -/
  parseFileSync : String → Except JsError (Option Parsed)
  /-- `CSON.readFileSync`. -/
  csonReadFileSync : String → Except JsError (Option Parsed)
  /-- `fs.readFileSync`. -/
  readFileSync : String → Except JsError String
  /-- `JSON.parse`. -/
  jsonParse : String → Except JsError (Option PackageJson)

/-- An object handed to `CSON.writeFileSync`. -/
inductive Serialized where
  | snippets (group : Obj (Obj SnippetEntry))
  | settings (group : Obj (Obj (Obj Val)))
  | grammar (record : Obj Val)

/-- An effect on the destination. -/
inductive Action where
  /-- The call `CSON.writeFileSync(filePath, object)`. -/
  | write (filePath : String) (object : Serialized)
  /-- The call `this.normalizeFilenames(directoryPath)`. -/
  | normalize (directoryPath : String)

/-- A run of a method: the effects it had on the destination, and the error it threw,
if it threw one. -/
structure Outcome where
  actions : List Action
  error : Option JsError

/-- Two statements in sequence: the second runs if the first did not throw. -/
def Outcome.andThen (first next : Outcome) : Outcome :=
  match first.error with
  | some _ => first
  | none => ⟨first.actions ++ next.actions, next.error⟩

/-- The value of `this.plistExtensions`. -/
def plistExtensions : List String :=
  [".plist", ".tmCommand", ".tmLanguage", ".tmMacro", ".tmPreferences", ".tmSnippet"]

/-- The method `readFileSync`. -/
def readFileSync (env : Env) (bundle : Bundle) (filePath : String) :
    Except JsError (Option Parsed) :=
  if plistExtensions.contains (env.extname filePath) then bundle.parseFileSync filePath
  else if [".json", ".cson"].contains (env.extname filePath) then
    bundle.csonReadFileSync filePath
  else .ok none

/-- The effects of `this.writeFileSync(filePath, object)`: the call of the serializer,
if it is made. -/
def writeActions {α : Type} (wrap : Obj α → Serialized) (filePath : String)
    (object : Option (Obj α)) : List Action :=
  match serializerCall filePath object with
  | some (target, filtered) => [Action.write target (wrap filtered)]
  | none => []

/-- The name of the file that `convertFile` writes for `sourcePath`. -/
def destinationName (env : Env) (sourcePath : String) : String :=
  env.toLowerCase (env.basename sourcePath (env.extname sourcePath) ++ ".cson")

/-- The method `convertFile`. -/
def convertFile (env : Env) (bundle : Bundle) (sourcePath destinationDir : String) :
    Outcome :=
  let destinationPath := env.join destinationDir (destinationName env sourcePath)
  let contents : Except JsError (Option Parsed) :=
    if plistExtensions.contains (env.extname sourcePath) then
      bundle.parseFileSync sourcePath
    else if [".json", ".cson"].contains (env.extname sourcePath) then
      bundle.csonReadFileSync sourcePath
    else .ok none
  match contents with
  | .error e => ⟨[], some e⟩
  | .ok parsed =>
    ⟨writeActions Serialized.grammar destinationPath (parsed.map Parsed.properties), none⟩

/-- The source directory of a category: `path.join(source, lower)` if that is a
directory, else `path.join(source, upper)` if that is one. -/
def sourceDirectory (env : Env) (bundle : Bundle) (source lower upper : String) :
    Option String :=
  if bundle.isDirectorySync (env.join source lower) then some (env.join source lower)
  else if bundle.isDirectorySync (env.join source upper) then some (env.join source upper)
  else none

/-! ## The three converters and `copyDirectories` -/

/-- The loop of `convertSnippets`: each file is read, then handled by the loop body. -/
def convertSnippetsLoop (env : Env) (bundle : Bundle) (sourceSnippets : String) :
    SnippetState → List String → Except JsError SnippetState
  | st, [] => .ok st
  | st, child :: rest =>
    match readFileSync env bundle (env.join sourceSnippets child) with
    | .error e => .error e
    | .ok file =>
      match snippetStep env st child (file.map Parsed.snippet) with
      | .error e => .error e
      | .ok st1 => convertSnippetsLoop env bundle sourceSnippets st1 rest

/-- The method `convertSnippets`, for the converter whose `destinationPath` is given. -/
def convertSnippets (env : Env) (bundle : Bundle) (destinationPath packageName source : String) :
    Outcome :=
  match sourceDirectory env bundle source "snippets" "Snippets" with
  | none => ⟨[], none⟩
  | some sourceSnippets =>
    let destination := env.join destinationPath "snippets"
    match convertSnippetsLoop env bundle sourceSnippets ⟨[], none⟩
        (bundle.readdirSync sourceSnippets) with
    | .error e => ⟨[], some e⟩
    | .ok st =>
      ⟨writeActions Serialized.snippets (env.join destination (packageName ++ ".cson"))
          (some st.snippetsBySelector) ++ [Action.normalize destination], none⟩

/-- The loop of `convertPreferences`. -/
def convertPreferencesLoop (env : Env) (bundle : Bundle) (sourcePreferences : String) :
    Obj (Obj (Obj Val)) → List String → Except JsError (Obj (Obj (Obj Val)))
  | group, [] => .ok group
  | group, child :: rest =>
    match readFileSync env bundle (env.join sourcePreferences child) with
    | .error e => .error e
    | .ok file =>
      match preferenceStep env group (file.map Parsed.preference) with
      | .error e => .error e
      | .ok group1 => convertPreferencesLoop env bundle sourcePreferences group1 rest

/-- The method `convertPreferences`. -/
def convertPreferences (env : Env) (bundle : Bundle)
    (destinationPath packageName source : String) : Outcome :=
  match sourceDirectory env bundle source "preferences" "Preferences" with
  | none => ⟨[], none⟩
  | some sourcePreferences =>
    let destination := env.join destinationPath "settings"
    match convertPreferencesLoop env bundle sourcePreferences []
        (bundle.readdirSync sourcePreferences) with
    | .error e => ⟨[], some e⟩
    | .ok group =>
      ⟨writeActions Serialized.settings (env.join destination (packageName ++ ".cson"))
          (some group) ++ [Action.normalize destination], none⟩

/-- The loop of `convertGrammars`: every entry that is a file goes through
`convertFile`. -/
def convertGrammarsLoop (env : Env) (bundle : Bundle) (sourceSyntaxes destination : String) :
    List String → Outcome
  | [] => ⟨[], none⟩
  | child :: rest =>
    if bundle.isFileSync (env.join sourceSyntaxes child) then
      (convertFile env bundle (env.join sourceSyntaxes child) destination).andThen
        (convertGrammarsLoop env bundle sourceSyntaxes destination rest)
    else convertGrammarsLoop env bundle sourceSyntaxes destination rest

/-- The method `convertGrammars`. -/
def convertGrammars (env : Env) (bundle : Bundle) (destinationPath source : String) :
    Outcome :=
  match sourceDirectory env bundle source "syntaxes" "Syntaxes" with
  | none => ⟨[], none⟩
  | some sourceSyntaxes =>
    let destination := env.join destinationPath "grammars"
    (convertGrammarsLoop env bundle sourceSyntaxes destination
        (bundle.readdirSync sourceSyntaxes)).andThen
      ⟨[Action.normalize destination], none⟩

/-- The value of the `try` block of `copyDirectories`:
`JSON.parse(fs.readFileSync(path.join(sourcePath, 'package.json')))?.packageName`. -/
def readPackageName (env : Env) (bundle : Bundle) (sourcePath : String) :
    Except JsError (Option String) :=
  match bundle.readFileSync (env.join sourcePath "package.json") with
  | .error e => .error e
  | .ok text =>
    match bundle.jsonParse text with
    | .error e => .error e
    | .ok parsed => .ok (parsed.bind PackageJson.packageName)

/-- The variable `packageName` of `copyDirectories` when the converters are called: an
error of the `try` block is caught and leaves it `undefined`, and a value that is `null`
or `undefined` is replaced by `path.basename(this.destinationPath)`. -/
def packageNameOf (env : Env) (bundle : Bundle) (destinationPath sourcePath : String) :
    String :=
  match readPackageName env bundle sourcePath with
  | .ok (some packageName) => packageName
  | _ => env.basename destinationPath ""

/-- The method `copyDirectories` up to the call of the callback, for the converter whose
`destinationPath` is given; when it does not throw, the callback is called next. -/
def copyDirectories (env : Env) (bundle : Bundle) (destinationPath sourcePath : String) :
    Outcome :=
  let source := env.resolve sourcePath
  let packageName := packageNameOf env bundle destinationPath source
  (convertSnippets env bundle destinationPath packageName source).andThen
    ((convertPreferences env bundle destinationPath packageName source).andThen
      (convertGrammars env bundle destinationPath source))

/-- The constructor: the field `destinationPath` of the converter. -/
def resolvedDestination (env : Env) (destinationPath : String) : String :=
  env.resolve destinationPath

/-! ## What the converters are expected to do, in the words of the specification -/

/-- The object has a key other than `uuid` and `keyEquivalent`. -/
def hasNonOpaqueKey {α : Type} (object : Obj α) : Bool :=
  object.any (fun kv => kv.1 != "uuid" && kv.1 != "keyEquivalent")

/-- The record of an entry of the syntaxes directory that yields an output file: the
entry is a regular file, a record is read from it, and the record has a key that is not
opaque. -/
def grammarRecord (env : Env) (bundle : Bundle) (sourceSyntaxes child : String) :
    Option (Obj Val) :=
  if bundle.isFileSync (env.join sourceSyntaxes child) then
    match readFileSync env bundle (env.join sourceSyntaxes child) with
    | .ok (some parsed) =>
      if hasNonOpaqueKey parsed.properties then some parsed.properties else none
    | _ => none
  else none

/-- The stem of the source file, lower-cased, followed by `.cson`. -/
def grammarFileName (env : Env) (sourcePath : String) : String :=
  env.toLowerCase (env.basename sourcePath (env.extname sourcePath)) ++ ".cson"

/-- The write expected for an entry of the syntaxes directory: none unless the entry
yields an output file, and then its record without the top-level keys `uuid` and
`keyEquivalent`, written to `grammars/<stem>.cson`. -/
def expectedGrammarWrites (env : Env) (bundle : Bundle)
    (sourceSyntaxes destination child : String) : List Action :=
  match grammarRecord env bundle sourceSyntaxes child with
  | some record =>
    [Action.write (env.join destination (grammarFileName env (env.join sourceSyntaxes child)))
      (Serialized.grammar (filterObject record))]
  | none => []

/-- The paths written by a list of effects, in order. -/
def writtenPaths : List Action → List String
  | [] => []
  | Action.write filePath _ :: rest => filePath :: writtenPaths rest
  | Action.normalize _ :: rest => writtenPaths rest

/-! ## `waitForTagToBeAvailable` (`src/publish.js`)

The requests are answered one after the other; `responses i` is what the callback of
`request.get` receives for the request number `i`, counted from zero.  The delay of one
second between two requests is not part of the model. -/

/-- What the callback of `request.get` reads from its arguments: `response.statusCode`,
absent when there is no response, and the `name` of each element of `tags`, absent when
the element has none; `tags` itself is absent when the body is `null` or `undefined`. -/
structure TagsResponse where
  statusCode : Option Nat := none
  tags : Option (List (Option String)) := none

/-- The test of the callback of `request.get`: the status is 200 and an element of
`tags` has the name `tag`. -/
def listsTag (tag : String) (response : TagsResponse) : Bool :=
  response.statusCode == some 200 && (response.tags.getD []).contains (some tag)

/-- A run of `waitForTagToBeAvailable`: the number of calls of `request.get`, and the
arguments of each call of `callback`. -/
structure WaitRun where
  requests : Nat
  callbacks : List (List Val)

/-- The function `requestTags`, called when `issued` requests have been made and the
variable `retryCount` has the given value; `fuel` bounds the number of requests that
are followed. -/
def requestTags (tag : String) (responses : Nat → TagsResponse) :
    Nat → Int → Nat → Option WaitRun
  | 0, _, _ => none
  | fuel + 1, retryCount, issued =>
    if listsTag tag (responses issued) then some ⟨issued + 1, [[]]⟩
    else if retryCount - 1 ≤ 0 then some ⟨issued + 1, [[]]⟩
    else requestTags tag responses fuel (retryCount - 1) (issued + 1)

/-- The method `waitForTagToBeAvailable`: `retryCount` starts at 5. -/
def waitForTagToBeAvailable (tag : String) (responses : Nat → TagsResponse) (fuel : Nat) :
    Option WaitRun :=
  requestTags tag responses fuel 5 0

/-! ## The candidates of the collision loop, in the words of the claims -/

/-- The successive candidates of the `while` loop that starts with `name`: each is
obtained from the one before by putting `-<suffix>` before its extension, the suffix
being the number of the step. -/
def candidate (env : Env) (name : String) : Nat → String
  | 0 => name
  | k + 1 => nextName env (candidate env name k) (k + 1)

/-- The existing paths that the tests of the `while` loop can meet: the entries of the
directory and the entries of the directory with the lower-cased path, each path counted
once. -/
def existingPaths (env : Env) (fs : FileSystem) (directoryPath : String) :
    List (String × String) :=
  ((entriesOf fs directoryPath).map (fun name => (directoryPath, name)) ++
    (entriesOf fs (env.toLowerCase directoryPath)).map
      (fun name => (env.toLowerCase directoryPath, name))).dedup

/-- The existing path that a taken candidate meets: the candidate itself in the
directory if it is there, else its lower-cased form in the lower-cased directory. -/
def takenBy (env : Env) (fs : FileSystem) (directoryPath name : String) : String × String :=
  if (entriesOf fs directoryPath).contains name then (directoryPath, name)
  else (env.toLowerCase directoryPath, env.toLowerCase name)

/-! ## Sample inputs -/

/-- The body backslash, backslash, dollar sign. -/
def doublyEscapedDollar : String := "\\\\$"

/-- A snippets directory of two files: the first has a scope, the second has none. -/
def carriedSelectorFiles : List (String × Option Snippet) :=
  [("first.tmSnippet",
      some { scope := some "source.x", tabTrigger := some "t", content := some "c" }),
   ("second.tmSnippet", some { tabTrigger := some "u", content := some "d" })]

/-- A snippets directory of three files named `a`, `b` and `c`: only `b` has a scope. -/
def mixedScopeFiles : List (String × Option Snippet) :=
  [("1.plist", some { name := some "a", tabTrigger := some "t", content := some "x" }),
   ("2.plist",
      some { scope := some "source.y", name := some "b", tabTrigger := some "u",
             content := some "y" }),
   ("3.plist", some { name := some "c", tabTrigger := some "v", content := some "z" })]

/-- A Ruby snippet without `name` property. -/
def rubyFile : String × Option Snippet :=
  ("def.tmSnippet",
    some { scope := some "source.rb", tabTrigger := some "def", content := some "old" })

/-- A Python snippet with a `name` property. -/
def pythonFile : String × Option Snippet :=
  ("if.tmSnippet",
    some { scope := some "source.py", name := some "If", tabTrigger := some "if",
           content := some "if \\$1:" })

/-- A snippets directory in which every record has a scope, a trigger and a body; the
first and the last file have the same scope and the same display name. -/
def scopedFiles : List (String × Option Snippet) :=
  [rubyFile, pythonFile,
   ("other.plist",
      some { scope := some "source.rb", name := some "def", tabTrigger := some "d",
             content := some "new" })]

/-- Shell variables in which `TM_COMMENT_START` occurs twice. -/
def duplicateShellVariables : List ShellVariable :=
  [⟨"TM_COMMENT_START", some (Val.str "#")⟩, ⟨"TM_COMMENT_START", some (Val.str "//")⟩]

/-- The preferences directory of the specification: file A sets `commentStart` to `#`
for the scope `source.x`, file B sets `commentStart` to `//` and `commentEnd` to `*/`
for the same scope. -/
def commentFiles : List (String × Option Preference) :=
  [("A.tmPreferences",
      some { scope := some "source.x",
             settings := some
               { shellVariables := some [⟨"TM_COMMENT_START", some (Val.str "#")⟩] } }),
   ("B.tmPreferences",
      some { scope := some "source.x",
             settings := some
               { shellVariables := some
                   [⟨"TM_COMMENT_START", some (Val.str "//")⟩,
                    ⟨"TM_COMMENT_END", some (Val.str "*/")⟩] } })]

/-- The last segment of a path: what follows its last slash. -/
def lastSegment (p : String) : List Char :=
  (p.data.reverse.takeWhile (fun c => c != '/')).reverse

/-- The extension of a file name in the examples: what follows its last dot. -/
def extnameOf (child : List Char) : String :=
  if child.contains '.' then
    String.mk ('.' :: (child.reverse.takeWhile (fun c => c != '.')).reverse)
  else ""

/-- The file name of the examples without the extension `ext`. -/
def basenameOf (child : List Char) (ext : String) : String :=
  if ext != "" ∧ ext.data.isSuffixOf child then
    String.mk (child.take (child.length - ext.data.length))
  else String.mk child

/-- An environment for the examples.  The translation puts a dot in front of the scope,
as the matcher does for a scope made of one dotted name; the extension is what follows
the last dot of the last segment of the path, which is what Node gives for the file
names of the examples; lower case is the lower case of the letters `A` to `Z`; paths are
joined by a slash, and the paths of the examples are absolute, so that resolving them
changes nothing. -/
def sampleEnv : Env where
  extname := fun p => extnameOf (lastSegment p)
  basename := fun p ext => basenameOf (lastSegment p) ext
  toCssSelector := fun scope => .ok ("." ++ scope)
  jsonStringify := fun scope => "\"" ++ scope ++ "\""
  toLowerCase := fun s => String.mk (s.data.map Char.toLower)
  join := fun directoryPath child => directoryPath ++ "/" ++ child
  resolve := fun p => p

/-- A preferences directory of two files with the same scope that both set only
`commentStart`. -/
def repeatedCommentFiles : List (String × Option Preference) :=
  [("A.tmPreferences",
      some { scope := some "source.x",
             settings := some
               { shellVariables := some [⟨"TM_COMMENT_START", some (Val.str "#")⟩] } }),
   ("B.tmPreferences",
      some { scope := some "source.x",
             settings := some
               { shellVariables := some [⟨"TM_COMMENT_START", some (Val.str "//")⟩] } })]

/-- The characters that the first expression of `normalizeFilenames` replaces. -/
def forbiddenCharacters : List Char :=
  ['|', '?', '*', '<', '>', ':', Char.ofNat 34, '\\', '/']

/-- A directory with `a.cson` and `a*.cson`. -/
def collidingDirectory : FileSystem := [("/pkg/snippets", ["a.cson", "a*.cson"])]

/-- A directory with the single entry `Foo:Bar.cson`. -/
def colonDirectory : FileSystem := [("/pkg/grammars", ["Foo:Bar.cson"])]

/-- A directory whose entry has a run of two spaces and no forbidden character. -/
def spacedDirectory : FileSystem := [("/pkg/snippets", ["my  file.cson"])]

/-- A directory whose entry has a colon between two spaces. -/
def spacedColonDirectory : FileSystem := [("/pkg/snippets", ["my : file.cson"])]

/-- A directory with an entry `A-B.cson` and an entry that is sanitized to `a-b.cson`. -/
def caseDirectory : FileSystem := [("/out/grammars", ["A-B.cson", "a:b.cson"])]

/-- A directory in which `x-y.cson` and `x-y-1.cson` are taken. -/
def suffixDirectory : FileSystem :=
  [("/out/snippets", ["x-y.cson", "x-y-1.cson", "x:y.cson"])]

/-- A bundle for the examples, given by its directories with their listings, by its
files with what their parser returns, by the text of the files read as text, and by
what `JSON.parse` returns on a text. -/
def bundleOf (directories : Obj (List String))
    (files : Obj (Except JsError (Option Parsed))) (texts : Obj String)
    (json : Obj (Option PackageJson)) : Bundle where
  isDirectorySync := fun p => (Obj.get directories p).isSome
  isFileSync := fun p => (Obj.get files p).isSome
  readdirSync := fun p => (Obj.get directories p).getD []
  parseFileSync := fun p =>
    (Obj.get files p).getD (.error ⟨none, "ENOENT: no such file or directory"⟩)
  csonReadFileSync := fun p =>
    (Obj.get files p).getD (.error ⟨none, "ENOENT: no such file or directory"⟩)
  readFileSync := fun p =>
    match Obj.get texts p with
    | some text => .ok text
    | none => .error ⟨none, "ENOENT: no such file or directory"⟩
  jsonParse := fun text =>
    match Obj.get json text with
    | some value => .ok value
    | none => .error ⟨none, "Unexpected token in JSON"⟩

/-- A grammar record with a `uuid`. -/
def rubyGrammar : Parsed :=
  { properties := [("name", Val.str "Ruby"), ("uuid", Val.str "E00B62AC"),
                   ("scopeName", Val.str "source.ruby")] }

/-- A bundle whose syntaxes directory holds a grammar, a sub-directory, a file with an
extension that is not recognized, and a record that has only a `uuid`. -/
def grammarBundle : Bundle :=
  bundleOf
    [("/bundle/Syntaxes", ["Ruby.tmLanguage", "Legacy", "notes.txt", "Empty.plist"]),
     ("/bundle/Syntaxes/Legacy", ["Old.tmLanguage"])]
    [("/bundle/Syntaxes/Ruby.tmLanguage", .ok (some rubyGrammar)),
     ("/bundle/Syntaxes/notes.txt", .error ⟨none, "not a property list"⟩),
     ("/bundle/Syntaxes/Empty.plist",
        .ok (some { properties := [("uuid", Val.str "0A1B2C3D")] })),
     ("/bundle/Syntaxes/Legacy/Old.tmLanguage", .ok (some rubyGrammar))]
    [] []

/-- A bundle whose syntaxes directory holds two grammars with the same stem up to
letter case. -/
def sameStemBundle : Bundle :=
  bundleOf
    [("/bundle/Syntaxes", ["Ruby.tmLanguage", "ruby.json"])]
    [("/bundle/Syntaxes/Ruby.tmLanguage", .ok (some rubyGrammar)),
     ("/bundle/Syntaxes/ruby.json",
        .ok (some { properties := [("name", Val.str "Ruby on Rails")] }))]
    [] []

/-- A bundle whose syntaxes directory holds two grammars with different stems. -/
def twoGrammarsBundle : Bundle :=
  bundleOf
    [("/bundle/syntaxes", ["Ruby.tmLanguage", "Rails.json"])]
    [("/bundle/syntaxes/Ruby.tmLanguage", .ok (some rubyGrammar)),
     ("/bundle/syntaxes/Rails.json",
        .ok (some { properties := [("name", Val.str "Ruby on Rails")] }))]
    [] []

/-- The sample environment with a matcher that rejects the scope `(source.rb`, whose
parenthesis is never closed; the error it throws has no `fileName` property. -/
def strictEnv : Env :=
  { sampleEnv with
    toCssSelector := fun scope =>
      if scope = "(source.rb" then
        .error ⟨none, "Expected a closing parenthesis but end of input found."⟩
      else .ok ("." ++ scope) }

/-- A bundle with a snippet file and a preferences file whose scope is `(source.rb`. -/
def badScopeBundle : Bundle :=
  bundleOf
    [("/bundle/snippets", ["bad.tmSnippet"]), ("/bundle/preferences", ["bad.tmPreferences"])]
    [("/bundle/snippets/bad.tmSnippet",
        .ok (some { snippet := { scope := some "(source.rb", tabTrigger := some "def",
                                 content := some "def" } })),
     ("/bundle/preferences/bad.tmPreferences",
        .ok (some { preference :=
          { scope := some "(source.rb",
            settings := some { increaseIndentPattern := some (Val.str "do") } } }))]
    [] []

/-- The text `part` occurs in `text`. -/
def containsText (text part : String) : Bool :=
  text.data.tails.any (fun rest => part.data.isPrefixOf rest)

/-- A bundle whose second snippet file cannot be parsed and whose second preferences
file has a scope that the matcher of `strictEnv` rejects. -/
def brokenBundle : Bundle :=
  bundleOf
    [("/bundle/snippets", ["a.tmSnippet", "b.tmSnippet", "c.tmSnippet"]),
     ("/bundle/preferences", ["a.tmPreferences", "b.tmPreferences"])]
    [("/bundle/snippets/a.tmSnippet",
        .ok (some { snippet := { scope := some "source.rb", tabTrigger := some "def",
                                 content := some "def" } })),
     ("/bundle/snippets/b.tmSnippet", .error ⟨none, "Unexpected end of file"⟩),
     ("/bundle/snippets/c.tmSnippet",
        .ok (some { snippet := { scope := some "source.rb", tabTrigger := some "end",
                                 content := some "end" } })),
     ("/bundle/preferences/a.tmPreferences",
        .ok (some { preference :=
          { scope := some "source.rb",
            settings := some { increaseIndentPattern := some (Val.str "do") } } })),
     ("/bundle/preferences/b.tmPreferences",
        .ok (some { preference :=
          { scope := some "(source.rb",
            settings := some { decreaseIndentPattern := some (Val.str "end") } } }))]
    [] []

/-- A bundle whose second grammar cannot be parsed. -/
def brokenGrammarsBundle : Bundle :=
  bundleOf
    [("/bundle/syntaxes", ["Ruby.tmLanguage", "Bad.tmLanguage", "Rails.json"])]
    [("/bundle/syntaxes/Ruby.tmLanguage", .ok (some rubyGrammar)),
     ("/bundle/syntaxes/Bad.tmLanguage", .error ⟨none, "Unexpected end of file"⟩),
     ("/bundle/syntaxes/Rails.json",
        .ok (some { properties := [("name", Val.str "Ruby on Rails")] }))]
    [] []

/-- The bundle of the end-to-end example: one snippet file, no preferences, no syntaxes,
no `package.json`. -/
def snippetBundle : Bundle :=
  bundleOf
    [("/bundle/Snippets", ["def.tmSnippet"])]
    [("/bundle/Snippets/def.tmSnippet",
        .ok (some { snippet := { scope := some "source.rb", tabTrigger := some "def",
                                 content := some "def $\x7b1:name\x7d\\nend" } }))]
    [] []

/-- The bundle of the end-to-end example with a `package.json` that names the package. -/
def namedBundle : Bundle :=
  bundleOf
    [("/bundle/Snippets", ["def.tmSnippet"])]
    [("/bundle/Snippets/def.tmSnippet",
        .ok (some { snippet := { scope := some "source.rb", tabTrigger := some "def",
                                 content := some "def $\x7b1:name\x7d\\nend" } }))]
    [("/bundle/package.json", "\x7b\"packageName\": \"ruby-snippets\"\x7d")]
    [("\x7b\"packageName\": \"ruby-snippets\"\x7d", some { packageName := some "ruby-snippets" })]

/-- The bundle of the end-to-end example with a `package.json` that cannot be parsed. -/
def malformedBundle : Bundle :=
  bundleOf
    [("/bundle/Snippets", ["def.tmSnippet"])]
    [("/bundle/Snippets/def.tmSnippet",
        .ok (some { snippet := { scope := some "source.rb", tabTrigger := some "def",
                                 content := some "def $\x7b1:name\x7d\\nend" } }))]
    [("/bundle/package.json", "\x7b\"packageName\": ")]
    []

/-- Responses in which the tag `v1.0.1` is listed from the third request on; the first
request fails and the second is answered with status 404. -/
def lateTagResponses : Nat → TagsResponse
  | 0 => {}
  | 1 => { statusCode := some 404, tags := some [] }
  | _ => { statusCode := some 200, tags := some [some "v1.0.0", some "v1.0.1"] }

/-- The parts of a scope text between its commas and vertical bars. -/
def alternatives : List Char → List (List Char)
  | [] => [[]]
  | c :: rest =>
    if c == ',' || c == '|' then [] :: alternatives rest
    else
      match alternatives rest with
      | [] => [[c]]
      | part :: parts => (c :: part) :: parts

/-- A part of a scope text without the blanks around it. -/
def trimBlanks (part : List Char) : List Char :=
  ((part.dropWhile (fun c => c == ' ')).reverse.dropWhile (fun c => c == ' ')).reverse

/-- The selector of a scope text that lists dotted names separated by commas or by
vertical bars: a dot in front of every name, the names separated by a comma and a
blank. -/
def alternationSelector (scope : String) : String :=
  String.mk (List.intercalate [',', ' ']
    ((alternatives scope.data).map (fun part => '.' :: trimBlanks part)))

/-- The sample environment with a matcher that reads the comma and the vertical bar
alike, as an alternation, and skips the blanks around a name; on a scope made of one
dotted name it is the matcher of `sampleEnv`.  Different scope texts can have one
selector. -/
def alternationEnv : Env :=
  { sampleEnv with toCssSelector := fun scope => .ok (alternationSelector scope) }

/-- A snippets directory of two files whose scopes list the same two names, one with a
comma and one with a vertical bar. -/
def alternationFiles : List (String × Option Snippet) :=
  [("either.tmSnippet",
      some { scope := some "source.ruby, source.python", name := some "a",
             tabTrigger := some "t", content := some "x" }),
   ("or.tmSnippet",
      some { scope := some "source.ruby | source.python", name := some "b",
             tabTrigger := some "u", content := some "y" })]

/-! ## Lemmas on the substitution loop -/

theorem expect_eq_some {lit s r : List Char} : expect lit s = some r ↔ s = lit ++ r := by
  induction lit generalizing s with
  | nil => simp [expect, eq_comm]
  | cons c cs ih =>
    cases s with
    | nil => simp [expect]
    | cons d ds =>
      simp only [expect]
      split_ifs with h
      · subst h
        simp [ih]
      · simp only [List.cons_append, List.cons.injEq, false_iff, not_and]
        intro h1
        exact absurd h1.symm h

theorem expect_append (lit r : List Char) : expect lit (lit ++ r) = some r :=
  expect_eq_some.mpr rfl

theorem expect_cons_ne {c d : Char} {cs ds : List Char} (h : c ≠ d) :
    expect (c :: cs) (d :: ds) = none := by
  simp [expect, h]

theorem replaceLoop_skip (m : List Char → Option (List Char × List Char))
    (pre s : List Char) : replaceLoop m pre.length (pre ++ s) = replaceLoop m 0 s := by
  induction pre with
  | nil => rfl
  | cons c cs ih => simpa [replaceLoop] using ih

theorem replaceAll_nil (m : List Char → Option (List Char × List Char)) :
    replaceAll m [] = [] := rfl

theorem replaceAll_cons_none {m : List Char → Option (List Char × List Char)}
    {c : Char} {cs : List Char} (h : m (c :: cs) = none) :
    replaceAll m (c :: cs) = c :: replaceAll m cs := by
  simp [replaceAll, replaceLoop, h]

theorem replaceAll_cons_some {m : List Char → Option (List Char × List Char)}
    {c : Char} {cs replacement rest : List Char}
    (h : m (c :: cs) = some (replacement, rest)) (hs : rest <:+ cs) :
    replaceAll m (c :: cs) = replacement ++ replaceAll m rest := by
  obtain ⟨pre, rfl⟩ := hs
  simp only [replaceAll, replaceLoop, h]
  have hlen : (pre ++ rest).length - rest.length = pre.length := by simp
  rw [hlen, replaceLoop_skip]

theorem replaceAll_of_suffixes {m : List Char → Option (List Char × List Char)}
    {s : List Char} (h : ∀ t, t <:+ s → m t = none) : replaceAll m s = s := by
  induction s with
  | nil => rfl
  | cons c cs ih =>
    rw [replaceAll_cons_none (h _ (List.suffix_refl _)),
      ih (fun t ht => h t (ht.trans (List.suffix_cons c cs)))]

theorem replaceAll_append_of_heads {m : List Char → Option (List Char × List Char)}
    {t : List Char} (h : ∀ c ∈ t, ∀ cs, m (c :: cs) = none) (s : List Char) :
    replaceAll m (t ++ s) = t ++ replaceAll m s := by
  induction t with
  | nil => rfl
  | cons c cs ih =>
    rw [List.cons_append, replaceAll_cons_none (h c (List.mem_cons_self _ _) _),
      ih (fun d hd => h d (List.mem_cons_of_mem _ hd))]
    rfl

theorem replaceAll_of_heads {m : List Char → Option (List Char × List Char)}
    {t : List Char} (h : ∀ c ∈ t, ∀ cs, m (c :: cs) = none) : replaceAll m t = t := by
  have := replaceAll_append_of_heads h []
  simpa [replaceAll_nil] using this

theorem takeWhile_append_stop {p : Char → Bool} {w : List Char} (hw : ∀ c ∈ w, p c = true)
    {a : Char} (ha : p a = false) (x : List Char) :
    (w ++ a :: x).takeWhile p = w ∧ (w ++ a :: x).dropWhile p = a :: x := by
  induction w with
  | nil => simp [List.takeWhile, List.dropWhile, ha]
  | cons c cs ih =>
    have hc := hw c (List.mem_cons_self _ _)
    have := ih (fun d hd => hw d (List.mem_cons_of_mem _ hd))
    simp [List.takeWhile, List.dropWhile, hc, this.1, this.2]

/-! ## The back-tracking matcher on the three expressions -/

theorem map_withCapture_false (t : List Char) (l : List (List Char × List Char)) :
    l.map (withCapture false t) = l := by
  have : withCapture false t = id := by
    funext x
    simp [withCapture]
  rw [this, List.map_id]

theorem withCapture_cons (k : Bool) (c : Char) (t : List Char) :
    withCapture k (c :: t) = withCapture k [c] ∘ withCapture k t := by
  funext x
  cases k <;> simp [withCapture]

theorem run_lit (c : Char) (r : List Item) (s : List Char) :
    run (lit c :: r) s = match expect [c] s with
      | some s1 => run r s1
      | none => [] := by
  cases s with
  | nil => rfl
  | cons d s =>
    by_cases h : d = c
    · subst h
      simp only [lit, run, expect, beq_self_eq_true, if_true, map_withCapture_false]
    · have h2 : ¬ c = d := fun e => h e.symm
      simp only [lit, run, expect, beq_iff_eq, h, h2, if_false]

theorem run_lit_cons_ne {c d : Char} (h : d ≠ c) (r : List Item) (u : List Char) :
    run (lit c :: r) (d :: u) = [] := by
  simp only [lit, run, beq_iff_eq, h, if_false]

theorem run_lits (cs : List Char) (r : List Item) (s : List Char) :
    run (cs.map lit ++ r) s = match expect cs s with
      | some s1 => run r s1
      | none => [] := by
  induction cs generalizing s with
  | nil => rfl
  | cons c cs ih =>
    rw [List.map_cons, List.cons_append, run_lit]
    cases s with
    | nil => rfl
    | cons d s =>
      by_cases h : c = d
      · subst h
        simp only [expect, if_true, ih]
      · simp only [expect, h, if_false]

/-- A greedy repetition in front of items that cannot start with a character of its
class takes the longest run: every shorter one fails at the next item. -/
theorem run_star_of_fail (p : Char → Bool) (k : Bool) (r : List Item)
    (hfail : ∀ c u, p c = true → run r (c :: u) = []) (s : List Char) :
    run (Item.star p k :: r) s
      = (run r (s.dropWhile p)).map (withCapture k (s.takeWhile p)) := by
  induction s with
  | nil =>
    simp only [run, splits, List.flatMap_cons, List.flatMap_nil, List.append_nil,
      List.takeWhile_nil, List.dropWhile_nil]
  | cons c s ih =>
    by_cases hc : p c = true
    · have hstep : run (Item.star p k :: r) (c :: s)
          = (run (Item.star p k :: r) s).map (withCapture k [c]) := by
        simp only [run, splits, hc, if_true, List.flatMap_append, List.flatMap_map,
          List.flatMap_singleton, hfail c s hc, List.map_nil, List.append_nil,
          List.map_flatMap]
        congr 1
        funext a
        rw [withCapture_cons, List.map_map]
      rw [hstep, ih, List.map_map, ← withCapture_cons, List.takeWhile_cons,
        List.dropWhile_cons, if_pos hc, if_pos hc]
    · have hc2 : p c = false := by simpa using hc
      simp only [run, splits, hc2, List.flatMap_cons, List.flatMap_nil, List.append_nil,
        List.takeWhile_cons, List.dropWhile_cons, Bool.false_eq_true, if_false]

/-- The repetition `+` in front of items that cannot start with a character of its
class. -/
theorem run_plus_of_fail (p : Char → Bool) (k : Bool) (r : List Item)
    (hfail : ∀ c u, p c = true → run r (c :: u) = []) (s : List Char) :
    run (Item.one p k :: Item.star p k :: r) s
      = if s.takeWhile p = [] then []
        else (run r (s.dropWhile p)).map (withCapture k (s.takeWhile p)) := by
  cases s with
  | nil => rfl
  | cons c s =>
    by_cases hc : p c = true
    · have h1 : List.takeWhile p (c :: s) = c :: List.takeWhile p s := by
        rw [List.takeWhile_cons, if_pos hc]
      have h2 : List.dropWhile p (c :: s) = List.dropWhile p s := by
        rw [List.dropWhile_cons, if_pos hc]
      rw [h1, h2, if_neg (List.cons_ne_nil _ _), withCapture_cons, ← List.map_map,
        ← run_star_of_fail p k r hfail]
      simp only [run, hc, if_true]
    · have hc2 : p c = false := by simpa using hc
      have h1 : List.takeWhile p (c :: s) = [] := by
        rw [List.takeWhile_cons, hc2]
        rfl
      rw [h1, if_pos rfl]
      simp only [run, hc2]
      rfl

/-- The first expression: the first match of the back-tracking matcher is the match
computed by `matchDefault`. -/
theorem firstMatch_defaultExpression (s : List Char) :
    firstMatch defaultExpression s = matchDefault s := by
  have hU : ∀ c u, isUpperOrUnderscore c = true →
      run [lit ':', Item.one isNotCloseBrace true, Item.star isNotCloseBrace true, lit '}']
        (c :: u) = [] := by
    intro c u hc
    apply run_lit_cons_ne
    rintro rfl
    exact absurd hc (by decide)
  have hN : ∀ c u, isNotCloseBrace c = true → run [lit '}'] (c :: u) = [] := by
    intro c u hc
    apply run_lit_cons_ne
    rintro rfl
    exact absurd hc (by decide)
  have e : defaultExpression = ['$', '{', 'T', 'M', '_'].map lit ++
      (Item.one isUpperOrUnderscore false :: Item.star isUpperOrUnderscore false ::
        [lit ':', Item.one isNotCloseBrace true, Item.star isNotCloseBrace true, lit '}']) :=
    rfl
  rw [firstMatch, matchDefault, e, run_lits]
  cases expect ['$', '{', 'T', 'M', '_'] s with
  | none => rfl
  | some r0 =>
    simp only []
    rw [run_plus_of_fail _ _ _ hU]
    by_cases h1 : List.takeWhile isUpperOrUnderscore r0 = []
    · rw [if_pos h1, if_pos h1]
      rfl
    · rw [if_neg h1, if_neg h1, map_withCapture_false, run_lit]
      cases expect [':'] (List.dropWhile isUpperOrUnderscore r0) with
      | none => rfl
      | some r1 =>
        simp only []
        rw [run_plus_of_fail _ _ _ hN]
        by_cases h2 : List.takeWhile isNotCloseBrace r1 = []
        · rw [if_pos h2, if_pos h2]
          rfl
        · rw [if_neg h2, if_neg h2, run_lit]
          cases expect ['}'] (List.dropWhile isNotCloseBrace r1) with
          | none => rfl
          | some r2 => simp [run, withCapture]

/-- The third expression. -/
theorem firstMatch_escapedDollarExpression (s : List Char) :
    (firstMatch escapedDollarExpression s).map Prod.snd = matchEscapedDollar s := by
  have e : escapedDollarExpression = ['\\', '$'].map lit ++ [] := rfl
  rw [firstMatch, matchEscapedDollar, e, run_lits]
  cases expect ['\\', '$'] s with
  | none => rfl
  | some r => rfl

/-- The end `\s*\}\s*\}` of the second expression. -/
theorem run_tail (u : List Char) :
    run [Item.star isSpace false, lit '}', Item.star isSpace false, lit '}'] u
      = match expect ['}'] (u.dropWhile isSpace) with
        | some t =>
          (match expect ['}'] (t.dropWhile isSpace) with
            | some t1 => [([], t1)]
            | none => [])
        | none => [] := by
  have h1 : ∀ c u, isSpace c = true →
      run [lit '}', Item.star isSpace false, lit '}'] (c :: u) = [] := by
    intro c u hc
    apply run_lit_cons_ne
    rintro rfl
    exact absurd hc (by decide)
  have h2 : ∀ c u, isSpace c = true → run [lit '}'] (c :: u) = [] := by
    intro c u hc
    apply run_lit_cons_ne
    rintro rfl
    exact absurd hc (by decide)
  rw [run_star_of_fail _ _ _ h1, map_withCapture_false, run_lit]
  cases expect ['}'] (List.dropWhile isSpace u) with
  | none => rfl
  | some t =>
    simp only []
    rw [run_star_of_fail _ _ _ h2, map_withCapture_false, run_lit]
    cases expect ['}'] (List.dropWhile isSpace t) with
    | none => rfl
    | some t1 => rfl

theorem run_tail_cons_space {c : Char} (hc : isSpace c = true) (u : List Char) :
    run [Item.star isSpace false, lit '}', Item.star isSpace false, lit '}'] (c :: u)
      = run [Item.star isSpace false, lit '}', Item.star isSpace false, lit '}'] u := by
  rw [run_tail, run_tail, List.dropWhile_cons, if_pos hc]

theorem run_tail_cons_other {c : Char} (hc : isSpace c = false) (hb : c ≠ '}')
    (u : List Char) :
    run [Item.star isSpace false, lit '}', Item.star isSpace false, lit '}'] (c :: u)
      = [] := by
  rw [run_tail, List.dropWhile_cons, hc]
  simp only [Bool.false_eq_true, if_false, expect_cons_ne (Ne.symm hb)]

/-- Behind a character that is not `}` the end of the second expression either fails or
matches as it does behind the whole run of such characters. -/
theorem run_tail_dropWhile (v : List Char) :
    run [Item.star isSpace false, lit '}', Item.star isSpace false, lit '}'] v = [] ∨
      run [Item.star isSpace false, lit '}', Item.star isSpace false, lit '}'] v
        = run [Item.star isSpace false, lit '}', Item.star isSpace false, lit '}']
            (v.dropWhile isNotCloseBrace) := by
  induction v with
  | nil => right; rfl
  | cons c v ih =>
    by_cases hn : isNotCloseBrace c = true
    · have hb : c ≠ '}' := by simpa [isNotCloseBrace] using hn
      rw [List.dropWhile_cons, if_pos hn]
      by_cases hs : isSpace c = true
      · rw [run_tail_cons_space hs]
        exact ih
      · left
        exact run_tail_cons_other (by simpa using hs) hb v
    · right
      rw [List.dropWhile_cons, if_neg hn]

/-- The repetition `[^}]*` in front of `\s*\}\s*\}`: the first match is the one with
the longest run. -/
theorem head_run_star_tail (v : List Char) :
    (run (Item.star isNotCloseBrace false ::
        [Item.star isSpace false, lit '}', Item.star isSpace false, lit '}']) v).head?
      = (run [Item.star isSpace false, lit '}', Item.star isSpace false, lit '}']
          (v.dropWhile isNotCloseBrace)).head? := by
  induction v with
  | nil =>
    simp only [run, splits, List.flatMap_cons, List.flatMap_nil, List.append_nil,
      List.dropWhile_nil, map_withCapture_false]
  | cons c v ih =>
    by_cases hn : isNotCloseBrace c = true
    · have hstep : run (Item.star isNotCloseBrace false ::
            [Item.star isSpace false, lit '}', Item.star isSpace false, lit '}']) (c :: v)
          = run (Item.star isNotCloseBrace false ::
              [Item.star isSpace false, lit '}', Item.star isSpace false, lit '}']) v
            ++ run [Item.star isSpace false, lit '}', Item.star isSpace false, lit '}']
              (c :: v) := by
        simp only [run, splits, hn, if_true, List.flatMap_append, List.flatMap_map,
          List.flatMap_singleton, map_withCapture_false]
      rw [hstep, List.head?_append, ih, List.dropWhile_cons, if_pos hn]
      rcases run_tail_dropWhile (c :: v) with h | h
      · rw [h]
        simp
      · rw [h, List.dropWhile_cons, if_pos hn]
        simp
    · have hn2 : isNotCloseBrace c = false := by simpa using hn
      simp only [run, splits, hn2, List.flatMap_cons, List.flatMap_nil, List.append_nil,
        List.dropWhile_cons, Bool.false_eq_true, if_false, map_withCapture_false]

theorem dropWhile_isSpace_dropWhile (v : List Char) :
    (v.dropWhile isNotCloseBrace).dropWhile isSpace = v.dropWhile isNotCloseBrace := by
  induction v with
  | nil => rfl
  | cons c v ih =>
    by_cases hn : isNotCloseBrace c = true
    · rw [List.dropWhile_cons, if_pos hn, ih]
    · have hc : c = '}' := by simpa [isNotCloseBrace] using hn
      subst hc
      rw [List.dropWhile_cons, if_neg hn, List.dropWhile_cons, if_neg (by decide)]

/-- The second expression: the first match of the back-tracking matcher ends where the
match computed by `matchNested` ends. -/
theorem firstMatch_nestedExpression (s : List Char) :
    (firstMatch nestedExpression s).map Prod.snd = matchNested s := by
  have hD : ∀ c u, isDigit c = true →
      run (lit ':' :: Item.star isSpace false :: (['$', '{', 'T', 'M', '_'].map lit ++
        (Item.one isNotCloseBrace false :: Item.star isNotCloseBrace false ::
          [Item.star isSpace false, lit '}', Item.star isSpace false, lit '}'])))
        (c :: u) = [] := by
    intro c u hc
    apply run_lit_cons_ne
    rintro rfl
    exact absurd hc (by decide)
  have hS : ∀ c u, isSpace c = true →
      run (['$', '{', 'T', 'M', '_'].map lit ++
        (Item.one isNotCloseBrace false :: Item.star isNotCloseBrace false ::
          [Item.star isSpace false, lit '}', Item.star isSpace false, lit '}']))
        (c :: u) = [] := by
    intro c u hc
    apply run_lit_cons_ne
    rintro rfl
    exact absurd hc (by decide)
  have e : nestedExpression = ['$', '{'].map lit ++
      (Item.one isDigit false :: Item.star isDigit false ::
        (lit ':' :: Item.star isSpace false :: (['$', '{', 'T', 'M', '_'].map lit ++
          (Item.one isNotCloseBrace false :: Item.star isNotCloseBrace false ::
            [Item.star isSpace false, lit '}', Item.star isSpace false, lit '}'])))) :=
    rfl
  rw [firstMatch, matchNested, e, run_lits]
  cases expect ['$', '{'] s with
  | none => rfl
  | some r0 =>
    simp only []
    rw [run_plus_of_fail _ _ _ hD]
    by_cases h1 : List.takeWhile isDigit r0 = []
    · rw [if_pos h1, if_pos h1]
      rfl
    · rw [if_neg h1, if_neg h1, map_withCapture_false, run_lit]
      cases expect [':'] (List.dropWhile isDigit r0) with
      | none => rfl
      | some r1 =>
        simp only []
        rw [run_star_of_fail _ _ _ hS, map_withCapture_false, run_lits]
        cases expect ['$', '{', 'T', 'M', '_'] (List.dropWhile isSpace r1) with
        | none => rfl
        | some r2 =>
          simp only []
          cases r2 with
          | nil => rfl
          | cons c r2 =>
            by_cases hn : isNotCloseBrace c = true
            · have ht : List.takeWhile isNotCloseBrace (c :: r2) ≠ [] := by
                rw [List.takeWhile_cons, if_pos hn]
                exact List.cons_ne_nil _ _
              have hstep : run (Item.one isNotCloseBrace false ::
                    Item.star isNotCloseBrace false ::
                      [Item.star isSpace false, lit '}', Item.star isSpace false, lit '}'])
                    (c :: r2)
                  = run (Item.star isNotCloseBrace false ::
                      [Item.star isSpace false, lit '}', Item.star isSpace false, lit '}'])
                    r2 := by
                simp only [run, hn, if_true, map_withCapture_false]
              rw [if_neg ht, hstep, head_run_star_tail, run_tail,
                dropWhile_isSpace_dropWhile, List.dropWhile_cons, if_pos hn]
              cases expect ['}'] (List.dropWhile isNotCloseBrace r2) with
              | none => rfl
              | some r3 =>
                simp only []
                cases expect ['}'] (List.dropWhile isSpace r3) with
                | none => rfl
                | some r4 => rfl
            · have hn2 : isNotCloseBrace c = false := by simpa using hn
              have ht : List.takeWhile isNotCloseBrace (c :: r2) = [] := by
                rw [List.takeWhile_cons, hn2]
                rfl
              rw [if_pos ht]
              simp only [run, hn2, Bool.false_eq_true, if_false]
              rfl

theorem replaceDefault_eq (s : List Char) :
    replaceDefault s = replaceAll matchDefault s := by
  have h : firstMatch defaultExpression = matchDefault :=
    funext firstMatch_defaultExpression
  rw [replaceDefault, h]

theorem replaceNested_eq (s : List Char) :
    replaceNested s
      = replaceAll (fun t => (matchNested t).map (fun rest => (['$', '1'], rest))) s := by
  have h : (fun t => (firstMatch nestedExpression t).map (fun x => (['$', '1'], x.2)))
      = fun t => (matchNested t).map (fun rest => (['$', '1'], rest)) := by
    funext t
    rw [← firstMatch_nestedExpression, Option.map_map]
    rfl
  rw [replaceNested, h]

theorem replaceEscapedDollar_det (s : List Char) :
    replaceEscapedDollar s
      = replaceAll (fun t => (matchEscapedDollar t).map (fun rest => (['$'], rest))) s := by
  have h : (fun t => (firstMatch escapedDollarExpression t).map (fun x => (['$'], x.2)))
      = fun t => (matchEscapedDollar t).map (fun rest => (['$'], rest)) := by
    funext t
    rw [← firstMatch_escapedDollarExpression, Option.map_map]
    rfl
  rw [replaceEscapedDollar, h]

/-! ## Lemmas on the three expressions -/

theorem matchDefault_cons_ne {c : Char} (h : c ≠ '$') (cs : List Char) :
    matchDefault (c :: cs) = none := by
  simp [matchDefault, expect_cons_ne (Ne.symm h)]

theorem matchNested_cons_ne {c : Char} (h : c ≠ '$') (cs : List Char) :
    matchNested (c :: cs) = none := by
  simp [matchNested, expect_cons_ne (Ne.symm h)]

theorem matchEscapedDollar_cons_ne {c : Char} (h : c ≠ '\\') (cs : List Char) :
    matchEscapedDollar (c :: cs) = none := by
  simp [matchEscapedDollar, expect_cons_ne (Ne.symm h)]

/-- A match of the first expression starts with `${TM_`. -/
theorem matchDefault_starts {s : List Char} {x : List Char × List Char}
    (h : matchDefault s = some x) : ['$', '{', 'T', 'M', '_'] <+: s := by
  unfold matchDefault at h
  cases h0 : expect ['$', '{', 'T', 'M', '_'] s with
  | none => simp [h0] at h
  | some r0 => exact ⟨r0, (expect_eq_some.mp h0).symm⟩

/-- A match of the second expression contains `${TM_`. -/
theorem matchNested_contains {s r : List Char}
    (h : matchNested s = some r) : ['$', '{', 'T', 'M', '_'] <:+: s := by
  unfold matchNested at h
  cases h0 : expect ['$', '{'] s with
  | none => simp [h0] at h
  | some r0 =>
    simp only [h0] at h
    split_ifs at h
    cases h1 : expect [':'] (r0.dropWhile isDigit) with
    | none => simp [h1] at h
    | some r1 =>
      simp only [h1] at h
      cases h2 : expect ['$', '{', 'T', 'M', '_'] (r1.dropWhile isSpace) with
      | none => simp [h2] at h
      | some r2 =>
        have e0 := expect_eq_some.mp h0
        have e1 := expect_eq_some.mp h1
        have e2 := expect_eq_some.mp h2
        have s2 : ['$', '{', 'T', 'M', '_'] <:+: r1.dropWhile isSpace := ⟨[], r2, by simp [e2]⟩
        have s1 : ['$', '{', 'T', 'M', '_'] <:+: r1 :=
          s2.trans (List.dropWhile_suffix _).isInfix
        have s0 : ['$', '{', 'T', 'M', '_'] <:+: r0.dropWhile isDigit := by
          rw [e1]; exact s1.trans (List.suffix_append _ _).isInfix
        have s00 : ['$', '{', 'T', 'M', '_'] <:+: r0 :=
          s0.trans (List.dropWhile_suffix _).isInfix
        rw [e0]; exact s00.trans (List.suffix_append _ _).isInfix

/-- The first expression matches a whole well-formed placeholder and captures its
default text. -/
theorem matchDefault_placeholder {w d : List Char} (hw : w ≠ [])
    (hwc : ∀ c ∈ w, isUpperOrUnderscore c = true) (hd : d ≠ [])
    (hdc : ∀ c ∈ d, isNotCloseBrace c = true) (rest : List Char) :
    matchDefault ('$' :: '{' :: 'T' :: 'M' :: '_' :: (w ++ ':' :: (d ++ '}' :: rest)))
      = some (d, rest) := by
  have e0 : expect ['$', '{', 'T', 'M', '_']
      ('$' :: '{' :: 'T' :: 'M' :: '_' :: (w ++ ':' :: (d ++ '}' :: rest)))
      = some (w ++ ':' :: (d ++ '}' :: rest)) := expect_eq_some.mpr rfl
  have t1 := takeWhile_append_stop hwc (a := ':') (by decide) (d ++ '}' :: rest)
  have t2 := takeWhile_append_stop hdc (a := '}') (by decide) rest
  have e1 : expect [':'] (':' :: (d ++ '}' :: rest)) = some (d ++ '}' :: rest) :=
    expect_eq_some.mpr rfl
  have e2 : expect ['}'] ('}' :: rest) = some rest := expect_eq_some.mpr rfl
  simp only [matchDefault, e0, t1.1, t1.2, e1, t2.1, t2.2, e2, if_neg hw, if_neg hd]

theorem replaceAll_matchEscapedDollar (s : List Char) :
    replaceAll (fun t => (matchEscapedDollar t).map (fun r => (['$'], r))) s
      = unescapeDollars s := by
  induction s using unescapeDollars.induct with
  | case1 => rfl
  | case2 c =>
    have : matchEscapedDollar [c] = none := by
      simp only [matchEscapedDollar, expect]
      split_ifs <;> rfl
    simp [replaceAll_cons_none, this, replaceAll_nil, unescapeDollars]
  | case3 c d rest h ih =>
    obtain ⟨rfl, rfl⟩ := h
    have hm : (fun t => (matchEscapedDollar t).map (fun r => (['$'], r))) ('\\' :: '$' :: rest)
        = some (['$'], rest) := by
      simp [matchEscapedDollar, expect]
    have := replaceAll_cons_some (m := fun t => (matchEscapedDollar t).map (fun r => (['$'], r)))
      hm (List.suffix_cons _ _)
    rw [this, ih]
    simp [unescapeDollars]
  | case4 c d rest h ih =>
    have hm : (fun t => (matchEscapedDollar t).map (fun r => (['$'], r))) (c :: d :: rest)
        = none := by
      simp only [matchEscapedDollar, expect, Option.map_eq_none']
      split_ifs with h1 h2
      · exact absurd ⟨h1.symm, h2.symm⟩ h
      · rfl
      · rfl
    rw [replaceAll_cons_none (m := fun t => (matchEscapedDollar t).map (fun r => (['$'], r))) hm,
      ih]
    simp [unescapeDollars, h]

/-- The third substitution is the left-to-right removal of the escaping backslashes. -/
theorem replaceEscapedDollar_eq (s : List Char) :
    replaceEscapedDollar s = unescapeDollars s := by
  rw [replaceEscapedDollar_det, replaceAll_matchEscapedDollar]

/-! ## Lemmas on the removal of escaping backslashes -/

theorem prefix_of_prefix_unescapeDollars {q r : List Char} (hq : '$' ∉ q)
    (h : q <+: unescapeDollars r) : q <+: r := by
  induction r using unescapeDollars.induct generalizing q with
  | case1 => simpa [unescapeDollars] using h
  | case2 c => simpa [unescapeDollars] using h
  | case3 c d rest hcd ih =>
    obtain ⟨rfl, rfl⟩ := hcd
    cases q with
    | nil => exact List.nil_prefix
    | cons a q =>
      simp only [unescapeDollars, and_self, if_true, List.cons_prefix_cons] at h
      exact absurd (h.1 ▸ List.mem_cons_self _ _) hq
  | case4 c d rest hcd ih =>
    cases q with
    | nil => exact List.nil_prefix
    | cons a q =>
      simp only [unescapeDollars, hcd, if_false, List.cons_prefix_cons] at h
      exact List.cons_prefix_cons.mpr
        ⟨h.1, ih (fun hm => hq (List.mem_cons_of_mem _ hm)) h.2⟩

/-- Removing escaping backslashes creates no `${TM_`. -/
theorem reserved_infix_of_unescapeDollars {s : List Char}
    (h : ['$', '{', 'T', 'M', '_'] <:+: unescapeDollars s) :
    ['$', '{', 'T', 'M', '_'] <:+: s := by
  induction s using unescapeDollars.induct with
  | case1 => simp [unescapeDollars] at h
  | case2 c => simpa [unescapeDollars] using h
  | case3 c d rest hcd ih =>
    obtain ⟨rfl, rfl⟩ := hcd
    simp only [unescapeDollars, and_self, if_true] at h
    rcases List.infix_cons_iff.mp h with hp | hi
    · have h1 := (List.cons_prefix_cons.mp hp).2
      have h2 : ['{', 'T', 'M', '_'] <+: rest :=
        prefix_of_prefix_unescapeDollars (by decide) h1
      have h3 : ['$', '{', 'T', 'M', '_'] <+: '$' :: rest :=
        List.cons_prefix_cons.mpr ⟨rfl, h2⟩
      exact h3.isInfix.trans (List.suffix_cons _ _).isInfix
    · exact (ih hi).trans (List.suffix_cons _ _).isInfix |>.trans
        (List.suffix_cons _ _).isInfix
  | case4 c d rest hcd ih =>
    simp only [unescapeDollars, hcd, if_false] at h
    rcases List.infix_cons_iff.mp h with hp | hi
    · have h1 := List.cons_prefix_cons.mp hp
      have h2 : ['{', 'T', 'M', '_'] <+: d :: rest :=
        prefix_of_prefix_unescapeDollars (by decide) h1.2
      exact (List.cons_prefix_cons.mpr ⟨h1.1, h2⟩ :
        ['$', '{', 'T', 'M', '_'] <+: c :: d :: rest).isInfix
    · exact (ih hi).trans (List.suffix_cons _ _).isInfix

theorem dollar_prefix_unescapeDollars {r : List Char} (h : ['$'] <+: unescapeDollars r) :
    ['$'] <+: r ∨ ['\\', '$'] <+: r := by
  cases r with
  | nil => simp [unescapeDollars] at h
  | cons c r =>
    cases r with
    | nil => left; simpa [unescapeDollars] using h
    | cons d rest =>
      by_cases hcd : c = '\\' ∧ d = '$'
      · obtain ⟨rfl, rfl⟩ := hcd
        right
        exact ⟨rest, rfl⟩
      · simp only [unescapeDollars, hcd, if_false, List.cons_prefix_cons] at h
        left
        exact List.cons_prefix_cons.mpr ⟨h.1, List.nil_prefix⟩

/-- An escaped dollar sign is left after the removal only where the input had a
backslash in front of an escaped dollar sign. -/
theorem escaped_infix_of_unescapeDollars {s : List Char}
    (h : ['\\', '$'] <:+: unescapeDollars s) : ['\\', '\\', '$'] <:+: s := by
  induction s using unescapeDollars.induct with
  | case1 => simp [unescapeDollars] at h
  | case2 c =>
    simp only [unescapeDollars] at h
    have := h.length_le
    simp at this
  | case3 c d rest hcd ih =>
    obtain ⟨rfl, rfl⟩ := hcd
    simp only [unescapeDollars, and_self, if_true] at h
    rcases List.infix_cons_iff.mp h with hp | hi
    · have h1 := (List.cons_prefix_cons.mp hp).1
      exact absurd h1 (by decide)
    · exact (ih hi).trans (List.suffix_cons _ _).isInfix |>.trans
        (List.suffix_cons _ _).isInfix
  | case4 c d rest hcd ih =>
    simp only [unescapeDollars, hcd, if_false] at h
    rcases List.infix_cons_iff.mp h with hp | hi
    · have h1 := List.cons_prefix_cons.mp hp
      have hc : c = '\\' := h1.1.symm
      subst hc
      have hd : d ≠ '$' := fun hd => hcd ⟨rfl, hd⟩
      rcases dollar_prefix_unescapeDollars h1.2 with h2 | h2
      · exact absurd (List.cons_prefix_cons.mp h2).1.symm hd
      · exact (List.cons_prefix_cons.mpr ⟨rfl, h2⟩ :
          ['\\', '\\', '$'] <+: '\\' :: d :: rest).isInfix
    · exact (ih hi).trans (List.suffix_cons _ _).isInfix

theorem unescapeDollars_of_no_escape {t : List Char} (h : ¬ (['\\', '$'] <:+: t)) :
    unescapeDollars t = t := by
  induction t using unescapeDollars.induct with
  | case1 => rfl
  | case2 c => rfl
  | case3 c d rest hcd ih =>
    obtain ⟨rfl, rfl⟩ := hcd
    exact absurd (⟨[], rest, rfl⟩ : ['\\', '$'] <:+: '\\' :: '$' :: rest) h
  | case4 c d rest hcd ih =>
    simp only [unescapeDollars, hcd, if_false]
    rw [ih (fun hi => h (hi.trans (List.suffix_cons _ _).isInfix))]

/-- Without `${TM_` the first two substitutions find nothing, and the rewrite is the
removal of the escaping backslashes. -/
theorem rewriteChars_of_no_reserved {s : List Char}
    (h : ¬ (['$', '{', 'T', 'M', '_'] <:+: s)) : rewriteChars s = unescapeDollars s := by
  have h1 : replaceDefault s = s := by
    rw [replaceDefault_eq]
    apply replaceAll_of_suffixes
    intro t ht
    cases hm : matchDefault t with
    | none => rfl
    | some x => exact absurd ((matchDefault_starts hm).isInfix.trans ht.isInfix) h
  have h2 : replaceNested s = s := by
    rw [replaceNested_eq]
    apply replaceAll_of_suffixes
    intro t ht
    cases hm : matchNested t with
    | none => rfl
    | some x => exact absurd ((matchNested_contains hm).trans ht.isInfix) h
  rw [rewriteChars, h1, h2, replaceEscapedDollar_eq]

/-! ## Lemmas on bodies made of placeholders -/

theorem isReservedName_iff {v : List Char} (h : isReservedName v = true) :
    ∃ w, v = 'T' :: 'M' :: '_' :: w ∧ w ≠ [] ∧ ∀ c ∈ w, isUpperOrUnderscore c = true := by
  unfold isReservedName at h
  cases h0 : expect ['T', 'M', '_'] v with
  | none => simp [h0] at h
  | some w =>
    simp only [h0, Bool.and_eq_true, Bool.not_eq_true', List.isEmpty_eq_false,
      List.all_eq_true] at h
    exact ⟨w, expect_eq_some.mp h0, h.1, h.2⟩

theorem isPlainDefault_iff {d : List Char} (h : isPlainDefault d = true) :
    d ≠ [] ∧ ∀ c ∈ d, c ≠ '}' ∧ c ≠ '$' ∧ c ≠ '\\' := by
  unfold isPlainDefault at h
  simp only [Bool.and_eq_true, Bool.not_eq_true', List.isEmpty_eq_false, List.all_eq_true,
    bne_iff_ne, ne_eq] at h
  exact ⟨h.1, fun c hc => ⟨(h.2 c hc).1.1, (h.2 c hc).1.2, (h.2 c hc).2⟩⟩

theorem isPlainText_iff {t : List Char} (h : isPlainText t = true) :
    ∀ c ∈ t, c ≠ '$' ∧ c ≠ '\\' := by
  unfold isPlainText at h
  simpa only [List.all_eq_true, Bool.and_eq_true, bne_iff_ne, ne_eq] using h

theorem plain_renderDefaults {segs : List Segment}
    (hs : ∀ g ∈ segs, g.wellFormed = true) :
    ∀ c ∈ renderDefaults segs, c ≠ '$' ∧ c ≠ '\\' := by
  induction segs with
  | nil => intro c hc; simp [renderDefaults] at hc
  | cons g gs ih =>
    intro c hc
    have hg := hs g (List.mem_cons_self _ _)
    simp only [Segment.wellFormed, Bool.and_eq_true] at hg
    simp only [renderDefaults, List.mem_append] at hc
    rcases hc with (hc | hc) | hc
    · exact ⟨((isPlainDefault_iff hg.1.2).2 c hc).2.1, ((isPlainDefault_iff hg.1.2).2 c hc).2.2⟩
    · exact isPlainText_iff hg.2 c hc
    · exact ih (fun g' hg' => hs g' (List.mem_cons_of_mem _ hg')) c hc

/-- The first substitution replaces a well-formed placeholder at the start of the body
by its default text and goes on behind it. -/
theorem replaceDefault_placeholder {v d : List Char} (hv : isReservedName v = true)
    (hd : isPlainDefault d = true) (rest : List Char) :
    replaceDefault (placeholder v d ++ rest) = d ++ replaceDefault rest := by
  obtain ⟨w, rfl, hw, hwc⟩ := isReservedName_iff hv
  obtain ⟨hd0, hdc⟩ := isPlainDefault_iff hd
  have hdc2 : ∀ c ∈ d, isNotCloseBrace c = true := fun c hc => by
    simpa [isNotCloseBrace] using (hdc c hc).1
  have e : placeholder ('T' :: 'M' :: '_' :: w) d ++ rest
      = '$' :: '{' :: 'T' :: 'M' :: '_' :: (w ++ ':' :: (d ++ '}' :: rest)) := by
    simp [placeholder]
  rw [e, replaceDefault_eq, replaceDefault_eq]
  exact replaceAll_cons_some (matchDefault_placeholder hw hwc hd0 hdc2 rest)
    ⟨'{' :: 'T' :: 'M' :: '_' :: (w ++ ':' :: (d ++ ['}'])), by simp⟩

theorem replaceDefault_segments {segs : List Segment}
    (hs : ∀ g ∈ segs, g.wellFormed = true) :
    replaceDefault (renderSegments segs) = renderDefaults segs := by
  induction segs with
  | nil => rfl
  | cons g gs ih =>
    have hg := hs g (List.mem_cons_self _ _)
    simp only [Segment.wellFormed, Bool.and_eq_true] at hg
    have ht : ∀ c ∈ g.text, ∀ cs, matchDefault (c :: cs) = none :=
      fun c hc cs => matchDefault_cons_ne (isPlainText_iff hg.2 c hc).1 cs
    rw [renderSegments, List.append_assoc, replaceDefault_placeholder hg.1.1 hg.1.2,
      replaceDefault_eq, replaceAll_append_of_heads ht, ← replaceDefault_eq,
      ih (fun g' hg' => hs g' (List.mem_cons_of_mem _ hg')), renderDefaults,
      List.append_assoc]

/-- On text without dollar sign and backslash the last two substitutions find nothing. -/
theorem replaceEscapedDollar_replaceNested_plain {t : List Char}
    (h : ∀ c ∈ t, c ≠ '$' ∧ c ≠ '\\') : replaceEscapedDollar (replaceNested t) = t := by
  have h1 : replaceNested t = t := by
    rw [replaceNested_eq]
    apply replaceAll_of_heads
    intro c hc cs
    simp [matchNested_cons_ne (h c hc).1]
  have h2 : replaceEscapedDollar t = t := by
    rw [replaceEscapedDollar_det]
    apply replaceAll_of_heads
    intro c hc cs
    simp [matchEscapedDollar_cons_ne (h c hc).2]
  rw [h1, h2]

theorem rewriteChars_segments {t0 : List Char} {segs : List Segment}
    (h0 : isPlainText t0 = true) (hs : ∀ g ∈ segs, g.wellFormed = true) :
    rewriteChars (t0 ++ renderSegments segs) = t0 ++ renderDefaults segs := by
  have ht : ∀ c ∈ t0, ∀ cs, matchDefault (c :: cs) = none :=
    fun c hc cs => matchDefault_cons_ne (isPlainText_iff h0 c hc).1 cs
  have h1 : replaceDefault (t0 ++ renderSegments segs) = t0 ++ renderDefaults segs := by
    rw [replaceDefault_eq, replaceAll_append_of_heads ht, ← replaceDefault_eq,
      replaceDefault_segments hs]
  rw [rewriteChars, h1]
  apply replaceEscapedDollar_replaceNested_plain
  intro c hc
  rcases List.mem_append.mp hc with hc | hc
  · exact isPlainText_iff h0 c hc
  · exact plain_renderDefaults hs c hc

/-! ## Lemmas on objects -/

theorem Obj.get_set {α : Type} (o : Obj α) (k k1 : String) (v : α) :
    Obj.get (Obj.set o k v) k1 = if k = k1 then some v else Obj.get o k1 := by
  induction o with
  | nil => simp [Obj.set, Obj.get]
  | cons kv rest ih =>
    obtain ⟨k0, v0⟩ := kv
    by_cases h0 : k0 = k
    · subst h0
      by_cases h1 : k0 = k1 <;> simp [Obj.set, Obj.get, h1]
    · by_cases h1 : k0 = k1
      · subst h1
        simp [Obj.set, Obj.get, h0, Ne.symm h0]
      · simp [Obj.set, Obj.get, h0, h1, ih]

theorem Obj.set_ne_nil {α : Type} (o : Obj α) (k : String) (v : α) : Obj.set o k v ≠ [] := by
  cases o with
  | nil => simp [Obj.set]
  | cons kv rest =>
    obtain ⟨k0, v0⟩ := kv
    simp only [Obj.set]
    split_ifs <;> simp

theorem get_insertSnippet (group : Obj (Obj SnippetEntry)) (selector name : String)
    (entry : SnippetEntry) (s : String) :
    Obj.get (insertSnippet group selector name entry) s
      = if selector = s then
          some (Obj.set ((Obj.get group selector).getD []) name entry)
        else Obj.get group s := by
  unfold insertSnippet
  cases hg : Obj.get group selector with
  | none => by_cases h : selector = s <;> simp [Obj.get_set, h]
  | some m =>
    by_cases h : selector = s
    · subst h
      simp [Obj.get_set, hg]
    · simp [Obj.get_set, hg, h]

theorem entryAt_insertSnippet (group : Obj (Obj SnippetEntry)) (selector name : String)
    (entry : SnippetEntry) (s n : String) :
    entryAt (insertSnippet group selector name entry) s n
      = if selector = s ∧ name = n then some entry else entryAt group s n := by
  unfold entryAt
  rw [get_insertSnippet]
  by_cases h : selector = s
  · subst h
    by_cases hn : name = n
    · simp [Obj.get_set, hn]
    · cases hg : Obj.get group selector <;> simp [Obj.get_set, hn, Obj.get]
  · simp [h]

/-! ## Lemmas on the loop of `convertSnippets` -/

theorem snippetStep_skipped (env : Env) (st : SnippetState) (child : String)
    {file : Option Snippet} (h : skipped file = true) :
    snippetStep env st child file = .ok st := by
  unfold skipped at h
  simp only [snippetStep, h, if_true]

theorem snippetStep_scoped (env : Env) (st : SnippetState) (child : String)
    {file : Option Snippet} {selector : String} (h : skipped file = false)
    (hs : truthy (file.getD {}).scope = true)
    (ht : env.toCssSelector ((file.getD {}).scope.getD "") = .ok selector) :
    snippetStep env st child file
      = .ok ⟨insertSnippet st.snippetsBySelector selector
          (snippetName env child (file.getD {})) (snippetEntry (file.getD {})),
          some selector⟩ := by
  unfold skipped at h
  simp [snippetStep, h, hs, translateScope, ht, snippetEntry]

theorem snippetStep_unscoped (env : Env) (st : SnippetState) (child : String)
    {file : Option Snippet} (h : skipped file = false)
    (hs : truthy (file.getD {}).scope = false) :
    snippetStep env st child file
      = .ok ⟨insertSnippet st.snippetsBySelector (st.selector.getD "*")
          (snippetName env child (file.getD {})) (snippetEntry (file.getD {})),
          some (st.selector.getD "*")⟩ := by
  unfold skipped at h
  simp [snippetStep, h, hs, snippetEntry]

theorem snippetLoop_append (env : Env) (st : SnippetState)
    (pre post : List (String × Option Snippet)) :
    snippetLoop env st (pre ++ post)
      = match snippetLoop env st pre with
        | .ok st1 => snippetLoop env st1 post
        | .error e => .error e := by
  induction pre generalizing st with
  | nil => rfl
  | cons f rest ih =>
    obtain ⟨child, file⟩ := f
    simp only [List.cons_append, snippetLoop]
    cases snippetStep env st child file with
    | ok st1 => exact ih st1
    | error e => rfl

/-- A step that succeeds either leaves the group alone or inserts one entry. -/
theorem snippetStep_ok (env : Env) (st st1 : SnippetState) (child : String)
    (file : Option Snippet) (h : snippetStep env st child file = .ok st1) :
    st1 = st ∨ ∃ selector name entry,
      st1.snippetsBySelector = insertSnippet st.snippetsBySelector selector name entry := by
  by_cases hk : skipped file = true
  · rw [snippetStep_skipped env st child hk] at h
    left
    injection h with h
    exact h.symm
  · right
    have hk : skipped file = false := by simpa using hk
    by_cases hs : truthy (file.getD {}).scope = true
    · cases ht : env.toCssSelector ((file.getD {}).scope.getD "") with
      | ok selector =>
        rw [snippetStep_scoped env st child hk hs ht] at h
        injection h with h
        exact ⟨_, _, _, by rw [← h]⟩
      | error e =>
        unfold skipped at hk
        simp [snippetStep, hk, hs, translateScope, ht] at h
    · have hs : truthy (file.getD {}).scope = false := by simpa using hs
      rw [snippetStep_unscoped env st child hk hs] at h
      injection h with h
      exact ⟨_, _, _, by rw [← h]⟩

/-- Entries are never removed: a name stored under a selector stays there. -/
theorem snippetLoop_keeps (env : Env) (files : List (String × Option Snippet))
    (st st1 : SnippetState) (h : snippetLoop env st files = .ok st1) (s n : String)
    (hn : (entryAt st.snippetsBySelector s n).isSome = true) :
    (entryAt st1.snippetsBySelector s n).isSome = true := by
  induction files generalizing st with
  | nil =>
    simp only [snippetLoop] at h
    injection h with h
    rw [← h]
    exact hn
  | cons f rest ih =>
    obtain ⟨child, file⟩ := f
    simp only [snippetLoop] at h
    cases hstep : snippetStep env st child file with
    | error e => simp [hstep] at h
    | ok st2 =>
      simp only [hstep] at h
      apply ih st2 h
      rcases snippetStep_ok env st st2 child file hstep with h2 | ⟨selector, name, entry, h2⟩
      · rw [h2]
        exact hn
      · rw [h2, entryAt_insertSnippet]
        split_ifs
        · rfl
        · exact hn

/-- The loop on a directory in which every record has a scope, a trigger and a body, and
every scope translates. -/
theorem snippetLoop_scoped (env : Env) (files : List (String × Option Snippet))
    (hrec : ∀ f ∈ files, skipped f.2 = false ∧ truthy (f.2.getD {}).scope = true)
    (htr : ∀ f ∈ files, ∃ selector,
      env.toCssSelector ((f.2.getD {}).scope.getD "") = .ok selector)
    (st : SnippetState) :
    ∃ st1, snippetLoop env st files = .ok st1 ∧
      (∀ s n, entryAt st1.snippetsBySelector s n =
        match lastSnippetFor env files s n with
        | some f => some (snippetEntry (f.2.getD {}))
        | none => entryAt st.snippetsBySelector s n) ∧
      ((∀ s m, Obj.get st.snippetsBySelector s = some m → m ≠ []) →
        ∀ s m, Obj.get st1.snippetsBySelector s = some m → m ≠ []) := by
  induction files generalizing st with
  | nil =>
    exact ⟨st, rfl, fun s n => by simp [lastSnippetFor], fun h => h⟩
  | cons f rest ih =>
    obtain ⟨hk, hs⟩ := hrec f (List.mem_cons_self _ _)
    obtain ⟨selector, ht⟩ := htr f (List.mem_cons_self _ _)
    obtain ⟨child, file⟩ := f
    have hstep := snippetStep_scoped env st child hk hs ht
    obtain ⟨st1, hloop, hentry, hne⟩ :=
      ih (fun g hg => hrec g (List.mem_cons_of_mem _ hg))
        (fun g hg => htr g (List.mem_cons_of_mem _ hg))
        ⟨insertSnippet st.snippetsBySelector selector
          (snippetName env child (file.getD {})) (snippetEntry (file.getD {})),
          some selector⟩
    refine ⟨st1, ?_, ?_, ?_⟩
    · simp only [snippetLoop, hstep, hloop]
    · intro s n
      rw [hentry s n]
      have hp : translatesTo env (file.getD {}).scope s = (selector == s) := by
        simp only [translatesTo] at hs ⊢
        simp [hs, ht]
      simp only [lastSnippetFor, List.reverse_cons, List.find?_append, List.find?_singleton,
        hp]
      cases hfind : List.find? (fun f => translatesTo env (f.2.getD {}).scope s &&
          snippetName env f.1 (f.2.getD {}) == n) rest.reverse with
      | some g => simp
      | none =>
        simp only [Option.none_or, entryAt_insertSnippet]
        by_cases h1 : selector = s
        · by_cases h2 : snippetName env child (file.getD {}) = n
          · simp [h1, h2]
          · simp [h1, h2]
        · simp [h1]
    · intro h0
      apply hne
      intro s m hm
      rw [get_insertSnippet] at hm
      split_ifs at hm with h1
      · injection hm with hm
        rw [← hm]
        exact Obj.set_ne_nil _ _ _
      · exact h0 s m hm

theorem translatesTo_iff {env : Env} {scope : Option String} {selector : String}
    (h : translatesTo env scope selector = true) :
    truthy scope = true ∧ env.toCssSelector (scope.getD "") = .ok selector := by
  unfold translatesTo at h
  rw [Bool.and_eq_true] at h
  refine ⟨h.1, ?_⟩
  cases ht : env.toCssSelector (scope.getD "") with
  | ok s =>
    have h2 := h.2
    simp only [ht, beq_iff_eq] at h2
    rw [h2]
  | error e =>
    have h2 := h.2
    simp [ht] at h2

/-- A step succeeds when the scope of the record, if it is used, translates. -/
theorem snippetStep_total (env : Env) (st : SnippetState) (child : String)
    (file : Option Snippet)
    (htr : skipped file = false → truthy (file.getD {}).scope = true →
      ∃ selector, env.toCssSelector ((file.getD {}).scope.getD "") = .ok selector) :
    ∃ st1, snippetStep env st child file = .ok st1 := by
  by_cases hk : skipped file = true
  · exact ⟨st, snippetStep_skipped env st child hk⟩
  · have hk : skipped file = false := by simpa using hk
    by_cases hs : truthy (file.getD {}).scope = true
    · obtain ⟨selector, ht⟩ := htr hk hs
      exact ⟨_, snippetStep_scoped env st child hk hs ht⟩
    · have hs : truthy (file.getD {}).scope = false := by simpa using hs
      exact ⟨_, snippetStep_unscoped env st child hk hs⟩

theorem snippetLoop_total (env : Env) (files : List (String × Option Snippet))
    (htr : ∀ f ∈ files, skipped f.2 = false → truthy (f.2.getD {}).scope = true →
      ∃ selector, env.toCssSelector ((f.2.getD {}).scope.getD "") = .ok selector)
    (st : SnippetState) : ∃ st1, snippetLoop env st files = .ok st1 := by
  induction files generalizing st with
  | nil => exact ⟨st, rfl⟩
  | cons f rest ih =>
    obtain ⟨st2, h2⟩ := snippetStep_total env st f.1 f.2 (htr f (List.mem_cons_self _ _))
    obtain ⟨st1, h1⟩ := ih (fun g hg => htr g (List.mem_cons_of_mem _ hg)) st2
    obtain ⟨child, file⟩ := f
    exact ⟨st1, by simp only [snippetLoop, h2, h1]⟩

/-- A record with a scope that is not skipped is found, after the loop, under the
selector its scope translates to. -/
theorem snippetLoop_stores (env : Env) (files : List (String × Option Snippet))
    (htr : ∀ f ∈ files, skipped f.2 = false → truthy (f.2.getD {}).scope = true →
      ∃ selector, env.toCssSelector ((f.2.getD {}).scope.getD "") = .ok selector)
    (f : String × Option Snippet) (hf : f ∈ files) (hk : skipped f.2 = false)
    (selector : String) (ht : translatesTo env (f.2.getD {}).scope selector = true)
    (st : SnippetState) :
    ∃ st1, snippetLoop env st files = .ok st1 ∧
      (entryAt st1.snippetsBySelector selector (snippetName env f.1 (f.2.getD {}))).isSome
        = true := by
  induction files generalizing st with
  | nil => simp at hf
  | cons g rest ih =>
    have htr2 : ∀ f ∈ rest, skipped f.2 = false → truthy (f.2.getD {}).scope = true →
        ∃ selector, env.toCssSelector ((f.2.getD {}).scope.getD "") = .ok selector :=
      fun g hg => htr g (List.mem_cons_of_mem _ hg)
    rcases List.mem_cons.mp hf with rfl | hf
    · obtain ⟨hs, hsel⟩ := translatesTo_iff ht
      have hstep := snippetStep_scoped env st f.1 hk hs hsel
      obtain ⟨st1, h1⟩ := snippetLoop_total env rest htr2
        ⟨insertSnippet st.snippetsBySelector selector
          (snippetName env f.1 (f.2.getD {})) (snippetEntry (f.2.getD {})), some selector⟩
      refine ⟨st1, ?_, ?_⟩
      · obtain ⟨child, file⟩ := f
        simp only [snippetLoop, hstep, h1]
      · apply snippetLoop_keeps env rest _ st1 h1
        simp [entryAt_insertSnippet]
    · obtain ⟨st2, h2⟩ := snippetStep_total env st g.1 g.2 (htr g (List.mem_cons_self _ _))
      obtain ⟨st1, h1, hentry⟩ := ih htr2 hf st2
      obtain ⟨child, file⟩ := g
      exact ⟨st1, by simp only [snippetLoop, h2, h1], hentry⟩

/-! ## Lemmas on `convertSettings` and `convertPreferences` -/

theorem Obj.get_of_not_mem {α : Type} (o : Obj α) (k : String)
    (h : k ∉ o.map Prod.fst) : Obj.get o k = none := by
  induction o with
  | nil => rfl
  | cons kv rest ih =>
    obtain ⟨k0, v0⟩ := kv
    simp only [List.map_cons, List.mem_cons, not_or] at h
    simp [Obj.get, Ne.symm h.1, ih h.2]

theorem Obj.keys_set {α : Type} (o : Obj α) (k : String) (v : α) :
    (Obj.set o k v).map Prod.fst
      = if k ∈ o.map Prod.fst then o.map Prod.fst else o.map Prod.fst ++ [k] := by
  induction o with
  | nil => simp [Obj.set]
  | cons kv rest ih =>
    obtain ⟨k0, v0⟩ := kv
    by_cases h0 : k0 = k
    · subst h0
      simp [Obj.set]
    · have h1 : ¬ k = k0 := fun h => h0 h.symm
      simp only [Obj.set, h0, if_false, List.map_cons, ih, List.mem_cons, h1, false_or]
      split_ifs <;> simp

theorem Obj.nodup_set {α : Type} (o : Obj α) (k : String) (v : α)
    (h : (o.map Prod.fst).Nodup) : ((Obj.set o k v).map Prod.fst).Nodup := by
  rw [Obj.keys_set]
  split_ifs with hk
  · exact h
  · refine List.Nodup.append h (List.nodup_singleton k) ?_
    intro a ha hb
    rw [List.mem_singleton] at hb
    subst hb
    exact hk ha

/-- Assignments in a loop: the last element with the key decides. -/
theorem get_foldl_set {α β : Type} (key : β → String) (val : β → α) (xs : List β)
    (acc : Obj α) (k : String) :
    Obj.get (xs.foldl (fun o x => Obj.set o (key x) (val x)) acc) k
      = match xs.reverse.find? (fun x => key x == k) with
        | some x => some (val x)
        | none => Obj.get acc k := by
  induction xs generalizing acc with
  | nil => rfl
  | cons x rest ih =>
    simp only [List.foldl_cons, ih, List.reverse_cons, List.find?_append,
      List.find?_singleton]
    cases List.find? (fun x => key x == k) rest.reverse with
    | some y => rfl
    | none =>
      by_cases hx : key x = k
      · simp [Obj.get_set, hx]
      · simp [Obj.get_set, hx]

theorem nodup_extend {α : Type} (destination source : Obj α)
    (h : (destination.map Prod.fst).Nodup) :
    ((extend destination source).map Prod.fst).Nodup := by
  unfold extend
  induction source generalizing destination with
  | nil => exact h
  | cons kv rest ih => exact ih _ (Obj.nodup_set _ _ _ h)

/-- In `_.extend(destination, source)` the properties of `source` win. -/
theorem get_extend {α : Type} (destination source : Obj α) (k : String)
    (h : (source.map Prod.fst).Nodup) :
    Obj.get (extend destination source) k
      = (Obj.get source k).or (Obj.get destination k) := by
  unfold extend
  induction source generalizing destination with
  | nil => simp [Obj.get]
  | cons kv rest ih =>
    obtain ⟨k0, v0⟩ := kv
    simp only [List.map_cons, List.nodup_cons] at h
    simp only [List.foldl_cons, ih _ h.2, Obj.get_set]
    by_cases h0 : k0 = k
    · subst h0
      simp [Obj.get, Obj.get_of_not_mem rest k0 h.1]
    · simp [Obj.get, h0]

theorem nodup_compactObject (object : List (String × Option Val))
    (h : (object.map Prod.fst).Nodup) : ((compactObject object).map Prod.fst).Nodup := by
  have hsub : ((compactObject object).map Prod.fst).Sublist (object.map Prod.fst) := by
    unfold compactObject
    induction object with
    | nil => simp
    | cons kv rest ih =>
      obtain ⟨k0, v0⟩ := kv
      simp only [List.map_cons, List.nodup_cons] at h
      cases v0 with
      | none => simpa [List.filterMap_cons] using (ih h.2).cons k0
      | some v =>
        cases v <;>
          first
          | simpa [List.filterMap_cons] using (ih h.2).cons k0
          | simpa [List.filterMap_cons] using (ih h.2).cons₂ k0
  exact hsub.nodup h

theorem nodup_editorProperties (settings : Settings) :
    ((editorProperties settings).map Prod.fst).Nodup :=
  nodup_compactObject _ (by
    simp only [List.map_cons, List.map_nil]
    decide)

theorem entryAt_mergeProperty (group : Obj (Obj (Obj Val))) (selector key : String)
    (value : Obj Val) (s k : String) :
    entryAt (mergeProperty group selector key value) s k
      = if selector = s ∧ key = k then
          some (match entryAt group selector key with
            | some existing => extend value existing
            | none => value)
        else entryAt group s k := by
  unfold mergeProperty entryAt
  cases hg : Obj.get group selector with
  | none =>
    by_cases h1 : selector = s
    · subst h1
      by_cases h2 : key = k
      · subst h2
        simp [Obj.get_set, Obj.get, hg]
      · simp [Obj.get_set, Obj.get, hg, h2]
    · simp [Obj.get_set, Obj.get, h1]
  | some m =>
    cases hm : Obj.get m key with
    | none =>
      by_cases h1 : selector = s
      · subst h1
        by_cases h2 : key = k
        · subst h2
          simp [Obj.get_set, hg, hm]
        · simp [Obj.get_set, hg, hm, h2]
      · simp [Obj.get_set, hg, hm, h1]
    | some existing =>
      by_cases h1 : selector = s
      · subst h1
        by_cases h2 : key = k
        · subst h2
          simp [Obj.get_set, hg, hm]
        · simp [Obj.get_set, hg, hm, h2]
      · simp [Obj.get_set, hg, hm, h1]

theorem editorsNodup_mergeProperty (group : Obj (Obj (Obj Val))) (selector key : String)
    (value : Obj Val) (hg : EditorsNodup group) (hv : (value.map Prod.fst).Nodup) :
    EditorsNodup (mergeProperty group selector key value) := by
  intro s k editor h
  rw [entryAt_mergeProperty] at h
  split_ifs at h with hc
  · injection h with h
    rw [← h]
    cases entryAt group selector key with
    | none => exact hv
    | some existing => exact nodup_extend value existing hv
  · exact hg s k editor h

theorem editorValue_mergeProperty (group : Obj (Obj (Obj Val))) (selector : String)
    (value : Obj Val) (hg : EditorsNodup group) (s k : String) :
    editorValue (mergeProperty group selector "editor" value) s k
      = if selector = s then (editorValue group s k).or (Obj.get value k)
        else editorValue group s k := by
  unfold editorValue
  rw [entryAt_mergeProperty]
  by_cases h1 : selector = s
  · subst h1
    simp only [and_self, if_true]
    cases he : entryAt group selector "editor" with
    | none => simp
    | some existing => exact get_extend value existing k (hg selector "editor" existing he)
  · simp [h1]

/-- One iteration of the loop of `convertPreferences`: the values already stored stay,
and the keys of the file that are new for its selector are added. -/
theorem preferenceStep_spec (env : Env) (group : Obj (Obj (Obj Val)))
    (file : Option Preference) (hg : EditorsNodup group)
    (htr : contributes file = true →
      ∃ selector, env.toCssSelector ((file.getD {}).scope.getD "") = .ok selector) :
    ∃ group1, preferenceStep env group file = .ok group1 ∧ EditorsNodup group1 ∧
      ∀ s k, editorValue group1 s k
        = (editorValue group s k).or
            (if translatesTo env (file.getD {}).scope s = true then
              Obj.get (projectedSettings file) k
            else none) := by
  by_cases hs : truthy (file.getD {}).scope = true
  · cases hset : (file.getD {}).settings with
    | none =>
      refine ⟨group, by simp [preferenceStep, hs, hset], hg, fun s k => ?_⟩
      simp [projectedSettings, hset, Obj.get]
    | some settings =>
      cases hc : convertSettings settings with
      | none =>
        refine ⟨group, by simp [preferenceStep, hs, hset, hc], hg, fun s k => ?_⟩
        have he : editorProperties settings = [] := by
          unfold convertSettings at hc
          split_ifs at hc with h
          exact List.isEmpty_iff.mp h
        simp [projectedSettings, hset, he, Obj.get]
      | some properties =>
        have hp : properties = [("editor", editorProperties settings)] := by
          unfold convertSettings at hc
          split_ifs at hc with h
          injection hc with hc
          exact hc.symm
        obtain ⟨selector, ht⟩ := htr (by simp [contributes, hs, hset, hc])
        refine ⟨mergeProperty group selector "editor" (editorProperties settings), ?_,
          editorsNodup_mergeProperty _ _ _ _ hg (nodup_editorProperties settings), ?_⟩
        · simp [preferenceStep, hs, hset, hc, translateScope, ht, hp, mergeProperties]
        · intro s k
          rw [editorValue_mergeProperty _ _ _ hg]
          by_cases h1 : selector = s
          · simp [translatesTo, hs, ht, h1, projectedSettings, hset]
          · simp [translatesTo, hs, ht, h1]
  · have hs : truthy (file.getD {}).scope = false := by simpa using hs
    refine ⟨group, by simp [preferenceStep, hs], hg, fun s k => ?_⟩
    simp [translatesTo, hs]

theorem preferenceLoop_spec (env : Env) (files : List (String × Option Preference))
    (htr : ∀ f ∈ files, contributes f.2 = true →
      ∃ selector, env.toCssSelector ((f.2.getD {}).scope.getD "") = .ok selector)
    (group : Obj (Obj (Obj Val))) (hg : EditorsNodup group) :
    ∃ group1, preferenceLoop env group files = .ok group1 ∧
      ∀ s k, editorValue group1 s k
        = (editorValue group s k).or (firstValueFor env files s k) := by
  induction files generalizing group with
  | nil => exact ⟨group, rfl, fun s k => by simp [firstValueFor, preferenceFilesFor]⟩
  | cons f rest ih =>
    obtain ⟨g2, h2, hn2, hv2⟩ :=
      preferenceStep_spec env group f.2 hg (htr f (List.mem_cons_self _ _))
    obtain ⟨g1, h1, hv1⟩ := ih (fun g hg => htr g (List.mem_cons_of_mem _ hg)) g2 hn2
    obtain ⟨child, file⟩ := f
    refine ⟨g1, by simp only [preferenceLoop, h2, h1], fun s k => ?_⟩
    rw [hv1 s k, hv2 s k, Option.or_assoc]
    congr 1
    by_cases ht : translatesTo env (file.getD {}).scope s = true
    · simp [firstValueFor, preferenceFilesFor, List.filter_cons, ht, List.findSome?_cons]
      cases Obj.get (projectedSettings file) k <;> simp
    · simp [firstValueFor, preferenceFilesFor, List.filter_cons, ht]

theorem keys_compactObject_subset (object : List (String × Option Val)) (k : String)
    (h : k ∉ object.map Prod.fst) : k ∉ (compactObject object).map Prod.fst := by
  intro hk
  apply h
  unfold compactObject at hk
  simp only [List.mem_map, List.mem_filterMap] at hk
  obtain ⟨kv, ⟨kv0, hmem, hkv⟩, rfl⟩ := hk
  refine List.mem_map.mpr ⟨kv0, hmem, ?_⟩
  obtain ⟨k0, v0⟩ := kv0
  cases v0 with
  | none => simp at hkv
  | some v =>
    cases v <;> simp at hkv <;> rw [← hkv]

theorem get_compactObject (object : List (String × Option Val)) (k : String)
    (h : (object.map Prod.fst).Nodup) :
    Obj.get (compactObject object) k = present ((Obj.get object k).join) := by
  induction object with
  | nil => rfl
  | cons kv rest ih =>
    obtain ⟨k0, v0⟩ := kv
    simp only [List.map_cons, List.nodup_cons] at h
    by_cases h0 : k0 = k
    · subst h0
      have hnone := Obj.get_of_not_mem _ k0 (keys_compactObject_subset rest k0 h.1)
      cases v0 with
      | none => simpa [compactObject, Obj.get, present] using hnone
      | some v =>
        cases v <;>
          first
          | (simp [compactObject, Obj.get, present]; done)
          | simpa [compactObject, Obj.get, present] using hnone
    · have ih2 := ih h.2
      cases v0 with
      | none => simpa [compactObject, Obj.get, h0] using ih2
      | some v =>
        cases v <;> simpa [compactObject, Obj.get, h0] using ih2

theorem shellVariable_eq (settings : Settings) (vars : List ShellVariable) (name : String)
    (h : settings.shellVariables = some vars) :
    shellVariable settings name
      = present ((Obj.get (shellVariablesObject vars) name).join) := by
  simp only [shellVariable, h]
  generalize Obj.get (shellVariablesObject vars) name = x
  cases x with
  | none => rfl
  | some v =>
    cases v with
    | none => rfl
    | some w => cases w <;> rfl

theorem present_present (v : Option Val) : present (present v) = present v := by
  cases v with
  | none => rfl
  | some w => cases w <;> rfl

/-! ## Lemmas on `filterObject`, the settings and the preferences loop -/

theorem Obj.get_delete {α : Type} (object : Obj α) (key k : String) :
    Obj.get (Obj.delete object key) k = if k = key then none else Obj.get object k := by
  induction object with
  | nil => simp [Obj.delete, Obj.get]
  | cons kv rest ih =>
    obtain ⟨k0, v0⟩ := kv
    simp only [Obj.delete] at ih
    by_cases h0 : k0 = key
    · subst h0
      by_cases h1 : k = k0
      · subst h1
        simp [Obj.delete, Obj.get, ih]
      · have h2 : ¬ k0 = k := fun h => h1 h.symm
        simp [Obj.delete, Obj.get, ih, h1, h2]
    · by_cases h1 : k0 = k
      · subst h1
        simp [Obj.delete, Obj.get, h0]
      · simp [Obj.delete, Obj.get, h0, h1, ih]

theorem get_filterObject {α : Type} (object : Obj α) (k : String) :
    Obj.get (filterObject object) k
      = if k = "uuid" ∨ k = "keyEquivalent" then none else Obj.get object k := by
  unfold filterObject
  rw [Obj.get_delete, Obj.get_delete]
  by_cases h1 : k = "keyEquivalent"
  · simp [h1]
  · by_cases h2 : k = "uuid"
    · simp [h2]
    · simp [h1, h2]

theorem keys_filterObject {α : Type} (object : Obj α) :
    (filterObject object).map Prod.fst
      = (object.map Prod.fst).filter (fun k => k != "uuid" && k != "keyEquivalent") := by
  unfold filterObject Obj.delete
  rw [List.filter_filter, List.filter_map]
  congr 1
  apply List.filter_congr
  intro kv _
  simp [Function.comp, Bool.and_comm]

theorem preferenceStep_of_not_contributes (env : Env) (group : Obj (Obj (Obj Val)))
    {file : Option Preference} (h : contributes file = false) :
    preferenceStep env group file = .ok group := by
  unfold contributes at h
  by_cases hs : truthy (file.getD {}).scope = true
  · cases hset : (file.getD {}).settings with
    | none => simp [preferenceStep, hs, hset]
    | some settings =>
      cases hc : convertSettings settings with
      | none => simp [preferenceStep, hs, hset, hc]
      | some properties => simp [hs, hset, hc] at h
  · have hs : truthy (file.getD {}).scope = false := by simpa using hs
    simp [preferenceStep, hs]

theorem preferenceLoop_append (env : Env) (group : Obj (Obj (Obj Val)))
    (pre post : List (String × Option Preference)) :
    preferenceLoop env group (pre ++ post)
      = match preferenceLoop env group pre with
        | .ok group1 => preferenceLoop env group1 post
        | .error e => .error e := by
  induction pre generalizing group with
  | nil => rfl
  | cons f rest ih =>
    obtain ⟨child, file⟩ := f
    simp only [List.cons_append, preferenceLoop]
    cases preferenceStep env group file with
    | ok group1 => exact ih group1
    | error e => rfl

theorem Obj.get_of_mem_nodup {α : Type} (o : Obj α) (hnd : (o.map Prod.fst).Nodup)
    (kv : String × α) (hmem : kv ∈ o) : Obj.get o kv.1 = some kv.2 := by
  induction o with
  | nil => simp at hmem
  | cons x rest ih =>
    obtain ⟨k0, v0⟩ := x
    simp only [List.map_cons, List.nodup_cons] at hnd
    rcases List.mem_cons.mp hmem with h | h
    · subst h
      simp [Obj.get]
    · have hne : ¬ k0 = kv.1 := by
        intro e
        exact hnd.1 (e ▸ List.mem_map_of_mem Prod.fst h)
      simp only [Obj.get, hne, if_false]
      exact ih hnd.2 h

theorem shellVariable_eq_present (settings : Settings) (name : String) :
    shellVariable settings name = present (normalizedShellVariable settings name) := by
  cases h : settings.shellVariables with
  | none => simp [shellVariable, normalizedShellVariable, h, present]
  | some vars =>
    rw [shellVariable_eq settings vars name h]
    simp [normalizedShellVariable, h]

/-- The property `k` of `editorProperties`, for every name `k`. -/
theorem get_editorProperties (settings : Settings) (k : String) :
    Obj.get (editorProperties settings) k
      = if k = "commentStart" then
          present (normalizedShellVariable settings "TM_COMMENT_START")
        else if k = "commentEnd" then
          present (normalizedShellVariable settings "TM_COMMENT_END")
        else if k = "increaseIndentPattern" then present settings.increaseIndentPattern
        else if k = "decreaseIndentPattern" then present settings.decreaseIndentPattern
        else if k = "foldEndPattern" then present settings.foldingStopMarker
        else if k = "completions" then present settings.completions
        else none := by
  unfold editorProperties
  rw [get_compactObject _ _ (by simp only [List.map_cons, List.map_nil]; decide)]
  simp only [Obj.get, shellVariable_eq_present]
  by_cases h1 : k = "commentStart"
  · subst h1
    simp [present_present]
  · by_cases h2 : k = "commentEnd"
    · subst h2
      simp [present_present]
    · by_cases h3 : k = "increaseIndentPattern"
      · subst h3
        simp
      · by_cases h4 : k = "decreaseIndentPattern"
        · subst h4
          simp
        · by_cases h5 : k = "foldEndPattern"
          · subst h5
            simp
          · by_cases h6 : k = "completions"
            · subst h6
              simp
            · have e1 : ¬ "commentStart" = k := fun h => h1 h.symm
              have e2 : ¬ "commentEnd" = k := fun h => h2 h.symm
              have e3 : ¬ "increaseIndentPattern" = k := fun h => h3 h.symm
              have e4 : ¬ "decreaseIndentPattern" = k := fun h => h4 h.symm
              have e5 : ¬ "foldEndPattern" = k := fun h => h5 h.symm
              have e6 : ¬ "completions" = k := fun h => h6 h.symm
              simp [h1, h2, h3, h4, h5, h6, e1, e2, e3, e4, e5, e6, present]

/-! ## Lemmas on the replacements of `normalizeFilenames` -/

theorem splits_head (p : Char → Bool) (s : List Char) :
    (splits p s).head? = some (s.takeWhile p, s.dropWhile p) := by
  induction s with
  | nil => rfl
  | cons c s ih =>
    by_cases hc : p c = true
    · simp only [splits, hc, if_true, List.head?_append, List.head?_map, ih,
        List.takeWhile_cons, List.dropWhile_cons]
      rfl
    · have hc2 : p c = false := by simpa using hc
      simp only [splits, hc2, List.takeWhile_cons, List.dropWhile_cons]
      rfl

/-- The first match of `x+` for a class `x` is the longest run at the start. -/
theorem firstMatch_plus (p : Char → Bool) (s : List Char) :
    firstMatch [Item.one p false, Item.star p false] s
      = if s.takeWhile p = [] then none else some ([], s.dropWhile p) := by
  cases s with
  | nil => rfl
  | cons c s =>
    by_cases hc : p c = true
    · have h1 : List.takeWhile p (c :: s) ≠ [] := by
        rw [List.takeWhile_cons, if_pos hc]
        exact List.cons_ne_nil _ _
      have hfm : ∀ l : List (List Char × List Char),
          (l.flatMap fun sp => [(([] : List Char), sp.2)])
            = l.map (fun sp => (([] : List Char), sp.2)) := by
        intro l
        induction l with
        | nil => rfl
        | cons a l ih => simp only [List.flatMap_cons, List.map_cons, ih, List.singleton_append]
      rw [if_neg h1, firstMatch]
      simp only [run, hc, if_true, map_withCapture_false]
      rw [hfm, List.head?_map, splits_head, List.dropWhile_cons, if_pos hc]
      rfl
    · have hc2 : p c = false := by simpa using hc
      have h1 : List.takeWhile p (c :: s) = [] := by
        rw [List.takeWhile_cons, hc2]
        rfl
      rw [if_pos h1, firstMatch]
      simp only [run, hc2]
      rfl

/-- One attempt of the replacement of a run of the class `p` by a hyphen. -/
theorem replaceByHyphen_eq (p : Char → Bool) (s : List Char) :
    replaceByHyphen [Item.one p false, Item.star p false] s
      = replaceAll (fun t => if t.takeWhile p = [] then none
          else some (['-'], t.dropWhile p)) s := by
  have h : (fun t => (firstMatch [Item.one p false, Item.star p false] t).map
        (fun x => (['-'], x.2)))
      = fun t => if t.takeWhile p = [] then none else some (['-'], t.dropWhile p) := by
    funext t
    rw [firstMatch_plus]
    split_ifs <;> rfl
  rw [replaceByHyphen, h]

theorem collapseAux_true (p : Char → Bool) (s : List Char) :
    collapseAux p true s = collapseAux p false (s.dropWhile p) := by
  induction s with
  | nil => rfl
  | cons c s ih =>
    by_cases hc : p c = true
    · simp only [collapseAux, hc, if_true, List.dropWhile_cons, ih]
    · have hc2 : p c = false := by simpa using hc
      simp only [collapseAux, hc2, List.dropWhile_cons, Bool.false_eq_true, if_false]

/-- The global replacement of `x+` by a hyphen replaces each run by one hyphen. -/
theorem replaceByHyphen_collapseRuns (p : Char → Bool) (s : List Char) :
    replaceByHyphen [Item.one p false, Item.star p false] s = collapseRuns p s := by
  rw [replaceByHyphen_eq, collapseRuns]
  generalize hn : s.length = n
  induction n using Nat.strong_induction_on generalizing s with
  | _ n ih =>
    cases s with
    | nil => rfl
    | cons c s =>
      by_cases hc : p c = true
      · have hm : (fun t => if List.takeWhile p t = [] then none
              else some (['-'], List.dropWhile p t)) (c :: s)
            = some (['-'], List.dropWhile p s) := by
          simp only [List.takeWhile_cons, List.dropWhile_cons, hc, if_true]
          rw [if_neg (List.cons_ne_nil _ _)]
        rw [replaceAll_cons_some hm (List.dropWhile_suffix p)]
        have hlen : (List.dropWhile p s).length < n := by
          have := (List.dropWhile_suffix p (l := s)).length_le
          simp only [List.length_cons] at hn
          omega
        rw [ih _ hlen _ rfl]
        simp only [collapseAux, hc, if_true, Bool.false_eq_true, if_false, collapseAux_true]
        rfl
      · have hc2 : p c = false := by simpa using hc
        have hm : (fun t => if List.takeWhile p t = [] then none
              else some (['-'], List.dropWhile p t)) (c :: s) = none := by
          simp only [List.takeWhile_cons, hc2, Bool.false_eq_true, if_false, if_true]
        rw [replaceAll_cons_none hm]
        simp only [List.length_cons] at hn
        rw [ih s.length (by omega) s rfl]
        simp only [collapseAux, hc2, Bool.false_eq_true, if_false]

theorem mem_collapseAux (p : Char → Bool) (b : Bool) (s : List Char) (c : Char)
    (h : c ∈ collapseAux p b s) : (c ∈ s ∧ p c = false) ∨ c = '-' := by
  induction s generalizing b with
  | nil => simp [collapseAux] at h
  | cons d s ih =>
    by_cases hd : p d = true
    · cases b with
      | true =>
        simp only [collapseAux, hd, if_true] at h
        rcases ih true h with h1 | h1
        · exact Or.inl ⟨List.mem_cons_of_mem _ h1.1, h1.2⟩
        · exact Or.inr h1
      | false =>
        simp only [collapseAux, hd, if_true, Bool.false_eq_true, if_false,
          List.mem_cons] at h
        rcases h with h | h
        · exact Or.inr h
        · rcases ih true h with h1 | h1
          · exact Or.inl ⟨List.mem_cons_of_mem _ h1.1, h1.2⟩
          · exact Or.inr h1
    · have hd2 : p d = false := by simpa using hd
      simp only [collapseAux, hd2, Bool.false_eq_true, if_false, List.mem_cons] at h
      rcases h with h | h
      · subst h
        exact Or.inl ⟨List.mem_cons_self _ _, hd2⟩
      · rcases ih false h with h1 | h1
        · exact Or.inl ⟨List.mem_cons_of_mem _ h1.1, h1.2⟩
        · exact Or.inr h1

theorem collapseAux_of_none (p : Char → Bool) (b : Bool) (s : List Char)
    (h : ∀ c ∈ s, p c = false) : collapseAux p b s = s := by
  induction s generalizing b with
  | nil => rfl
  | cons d s ih =>
    have hd := h d (List.mem_cons_self _ _)
    simp only [collapseAux, hd, Bool.false_eq_true, if_false,
      ih false (fun c hc => h c (List.mem_cons_of_mem _ hc))]

/-- The first replacement leaves no forbidden character. -/
theorem hasNoForbidden_replaceForbidden (child : String) :
    hasNoForbidden (replaceForbidden child) = true := by
  simp only [hasNoForbidden, replaceForbidden, forbiddenExpression,
    replaceByHyphen_collapseRuns, List.all_eq_true, Bool.not_eq_true']
  intro c hc
  rcases mem_collapseAux _ _ _ _ hc with h | h
  · exact h.2
  · subst h
    rfl

/-- The second replacement brings no forbidden character. -/
theorem hasNoForbidden_collapseSpaces {name : String} (h : hasNoForbidden name = true) :
    hasNoForbidden (collapseSpaces name) = true := by
  simp only [hasNoForbidden, collapseSpaces, spaceOrHyphenExpression,
    replaceByHyphen_collapseRuns, List.all_eq_true, Bool.not_eq_true'] at h ⊢
  intro c hc
  rcases mem_collapseAux _ _ _ _ hc with h1 | h1
  · exact h c h1.1
  · subst h1
    rfl

theorem hasNoForbidden_sanitizedName (child : String) :
    hasNoForbidden (sanitizedName child) = true :=
  hasNoForbidden_collapseSpaces (hasNoForbidden_replaceForbidden child)

/-- The test `child === convertedFileName` of the loop holds exactly for the names
without forbidden character. -/
theorem replaceForbidden_eq_iff (child : String) :
    child = replaceForbidden child ↔ hasNoForbidden child = true := by
  constructor
  · intro h
    rw [h]
    exact hasNoForbidden_replaceForbidden child
  · intro h
    simp only [hasNoForbidden, List.all_eq_true, Bool.not_eq_true'] at h
    simp only [replaceForbidden, forbiddenExpression, replaceByHyphen_collapseRuns,
      collapseRuns, collapseAux_of_none _ _ _ h]

/-! ## Lemmas on the candidates of `normalizeFilenames` -/

theorem digitChar_not_forbidden (d : Nat) (h : d < 10) :
    isForbidden (Nat.digitChar d) = false := by
  interval_cases d <;> rfl

theorem toDigitsCore_not_forbidden (fuel n : Nat) (ds : List Char)
    (h : ∀ c ∈ ds, isForbidden c = false) :
    ∀ c ∈ Nat.toDigitsCore 10 fuel n ds, isForbidden c = false := by
  induction fuel generalizing n ds with
  | zero => simpa [Nat.toDigitsCore] using h
  | succ fuel ih =>
    have hcons : ∀ c ∈ Nat.digitChar (n % 10) :: ds, isForbidden c = false := by
      intro c hc
      rcases List.mem_cons.mp hc with rfl | hc
      · exact digitChar_not_forbidden _ (Nat.mod_lt _ (by decide))
      · exact h c hc
    simp only [Nat.toDigitsCore]
    split_ifs
    · exact hcons
    · exact ih _ _ hcons

/-- The decimal digits of a number are not forbidden characters. -/
theorem toString_not_forbidden (n : Nat) :
    ∀ c ∈ (toString n).data, isForbidden c = false := by
  have h : (toString n).data = Nat.toDigits 10 n := rfl
  rw [h]
  exact toDigitsCore_not_forbidden _ _ _ (by simp)

/-- The candidate after a name without forbidden character has none either. -/
theorem hasNoForbidden_nextName (env : Env)
    (hstem : ∀ n, hasNoForbidden n = true →
      env.basename n (env.extname n) ++ env.extname n = n)
    (name : String) (suffix : Nat) (h : hasNoForbidden name = true) :
    hasNoForbidden (nextName env name suffix) = true := by
  have hdata : name.data
      = (env.basename name (env.extname name)).data ++ (env.extname name).data := by
    rw [← String.data_append, hstem name h]
  simp only [hasNoForbidden, List.all_eq_true, Bool.not_eq_true'] at h ⊢
  intro c hc
  simp only [nextName, String.data_append, List.mem_append] at hc
  rcases hc with ((hc | hc) | hc) | hc
  · exact h c (by rw [hdata]; exact List.mem_append_left _ hc)
  · have : c = '-' := by simpa using hc
    subst this
    rfl
  · exact toString_not_forbidden suffix c hc
  · exact h c (by rw [hdata]; exact List.mem_append_right _ hc)

/-- Every candidate is longer than the one before it. -/
theorem length_nextName (env : Env)
    (hstem : ∀ n, hasNoForbidden n = true →
      env.basename n (env.extname n) ++ env.extname n = n)
    (name : String) (suffix : Nat) (h : hasNoForbidden name = true) :
    name.length < (nextName env name suffix).length := by
  have hlen : name.length
      = (env.basename name (env.extname name)).length + (env.extname name).length := by
    rw [← String.length_append, hstem name h]
  simp only [nextName, String.length_append]
  have h1 : ("-" : String).length = 1 := rfl
  omega

theorem length_le_foldr_max (l : List String) (x : String) (h : x ∈ l) :
    x.length ≤ (l.map String.length).foldr max 0 := by
  induction l with
  | nil => simp at h
  | cons a l ih =>
    simp only [List.map_cons, List.foldr_cons]
    rcases List.mem_cons.mp h with rfl | h
    · exact Nat.le_max_left _ _
    · exact Nat.le_trans (ih h) (Nat.le_max_right _ _)

theorem contains_eq_true_iff (l : List String) (a : String) :
    l.contains a = true ↔ a ∈ l := by
  simp

/-- A name that is taken is not longer than the longest name. -/
theorem length_le_of_nameTaken (env : Env)
    (hlower : ∀ s : String, s.length ≤ (env.toLowerCase s).length)
    (fs : FileSystem) (directoryPath name : String)
    (h : nameTaken env fs directoryPath name = true) :
    name.length ≤ longestName env fs directoryPath := by
  simp only [nameTaken, Bool.or_eq_true, contains_eq_true_iff] at h
  rcases h with h | h
  · exact length_le_foldr_max _ _ (List.mem_append_left _ h)
  · exact Nat.le_trans (hlower name)
      (length_le_foldr_max _ _ (List.mem_append_right _ h))

/-- The `while` loop ends within the tests it is given. -/
theorem freeName_total (env : Env)
    (hstem : ∀ n, hasNoForbidden n = true →
      env.basename n (env.extname n) ++ env.extname n = n)
    (hlower : ∀ s : String, s.length ≤ (env.toLowerCase s).length)
    (fs : FileSystem) (directoryPath : String) (fuel : Nat) (name : String) (suffix : Nat)
    (hclean : hasNoForbidden name = true)
    (h1 : 1 ≤ fuel) (h2 : longestName env fs directoryPath + 2 ≤ fuel + name.length) :
    ∃ result, freeName env fs directoryPath fuel name suffix = some result := by
  induction fuel generalizing name suffix with
  | zero => omega
  | succ fuel ih =>
    by_cases ht : nameTaken env fs directoryPath name = true
    · have hl := length_le_of_nameTaken env hlower fs directoryPath name ht
      have hn := length_nextName env hstem name suffix hclean
      simp only [freeName, ht, if_true]
      exact ih _ _ (hasNoForbidden_nextName env hstem name suffix hclean) (by omega) (by omega)
    · exact ⟨name, by simp only [freeName, ht, Bool.false_eq_true, if_false]⟩

/-- The name found by the `while` loop is not taken, and it has no forbidden character
when the first candidate has none. -/
theorem freeName_spec (env : Env) (fs : FileSystem) (directoryPath : String)
    (fuel : Nat) (name : String) (suffix : Nat) (result : String)
    (h : freeName env fs directoryPath fuel name suffix = some result) :
    nameTaken env fs directoryPath result = false ∧
      ((∀ n, hasNoForbidden n = true →
          env.basename n (env.extname n) ++ env.extname n = n) →
        hasNoForbidden name = true → hasNoForbidden result = true) := by
  induction fuel generalizing name suffix with
  | zero => simp [freeName] at h
  | succ fuel ih =>
    by_cases ht : nameTaken env fs directoryPath name = true
    · simp only [freeName, ht, if_true] at h
      obtain ⟨h1, h2⟩ := ih _ _ h
      exact ⟨h1, fun hstem hn => h2 hstem (hasNoForbidden_nextName env hstem name suffix hn)⟩
    · simp only [freeName, ht, Bool.false_eq_true, if_false] at h
      injection h with h
      subst h
      exact ⟨by simpa using ht, fun _ hn => hn⟩

theorem not_mem_of_not_nameTaken (env : Env) (fs : FileSystem)
    (directoryPath name : String) (h : nameTaken env fs directoryPath name = false) :
    name ∉ entriesOf fs directoryPath := by
  simp only [nameTaken, Bool.or_eq_false_iff] at h
  intro hm
  have := (contains_eq_true_iff _ _).mpr hm
  rw [h.1] at this
  exact absurd this (by simp)

/-! ## Lemmas on the loop of `normalizeFilenames` -/

theorem entriesOf_set (fs : FileSystem) (directoryPath : String) (entries : List String) :
    entriesOf (Obj.set fs directoryPath entries) directoryPath = entries := by
  simp [entriesOf, Obj.get_set]

theorem get_set_other (fs : FileSystem) (directoryPath d : String) (entries : List String)
    (h : d ≠ directoryPath) :
    Obj.get (Obj.set fs directoryPath entries) d = Obj.get fs d := by
  simp [Obj.get_set, Ne.symm h]

theorem renameEntry_of_free (entries : List String) (old new : String)
    (hne : old ≠ new) (hfree : new ∉ entries) :
    renameEntry entries old new = entries.map (fun n => if n = old then new else n) := by
  have hf : entries.filter (fun n => n != new) = entries := by
    rw [List.filter_eq_self]
    intro a ha
    have : a ≠ new := fun e => hfree (e ▸ ha)
    simpa using this
  rw [renameEntry, if_neg hne, hf]

theorem nodup_map_rename (entries : List String) (old new : String)
    (hnd : entries.Nodup) (hfree : new ∉ entries) :
    (entries.map (fun n => if n = old then new else n)).Nodup := by
  apply List.Nodup.map_on _ hnd
  intro x hx y hy hxy
  by_cases h1 : x = old
  · by_cases h2 : y = old
    · rw [h1, h2]
    · simp only [h1, h2, if_true, if_false] at hxy
      exact absurd (hxy ▸ hy) hfree
  · by_cases h2 : y = old
    · simp only [h1, h2, if_true, if_false] at hxy
      exact absurd (hxy ▸ hx) hfree
    · simpa only [h1, h2, if_false] using hxy

/-- An entry without forbidden character is left alone. -/
theorem normalizeStep_of_clean (env : Env) (fs : FileSystem) (directoryPath : String)
    {child : String} (h : hasNoForbidden child = true) :
    normalizeStep env fs directoryPath child = some fs := by
  rw [normalizeStep, if_pos ((replaceForbidden_eq_iff child).mpr h)]

/-- What a step that returns has done: nothing, or the renaming of the entry to a name
that was not taken. -/
theorem normalizeStep_cases (env : Env) (fs fs1 : FileSystem)
    (directoryPath child : String)
    (h : normalizeStep env fs directoryPath child = some fs1) :
    fs1 = fs ∨ ∃ name, nameTaken env fs directoryPath name = false ∧
      name ∉ entriesOf fs directoryPath ∧ child ∈ entriesOf fs directoryPath ∧
      fs1 = Obj.set fs directoryPath
        (renameEntry (entriesOf fs directoryPath) child name) := by
  unfold normalizeStep at h
  split_ifs at h with hc
  · left
    injection h with h
    exact h.symm
  · right
    cases hf : freeName env fs directoryPath (longestName env fs directoryPath + 2)
        (sanitizedName child) 1 with
    | none => simp [hf] at h
    | some name =>
      simp only [hf, renameSync] at h
      split_ifs at h with hm
      injection h with h
      have hspec := (freeName_spec env fs directoryPath _ _ _ name hf).1
      exact ⟨name, hspec, not_mem_of_not_nameTaken env fs directoryPath name hspec,
        (contains_eq_true_iff _ _).mp hm, h.symm⟩

/-- An entry with a forbidden character is renamed to a name without one that is not
in the directory. -/
theorem normalizeStep_of_forbidden (env : Env)
    (hstem : ∀ n, hasNoForbidden n = true →
      env.basename n (env.extname n) ++ env.extname n = n)
    (hlower : ∀ s : String, s.length ≤ (env.toLowerCase s).length)
    (fs : FileSystem) (directoryPath child : String)
    (h : hasNoForbidden child = false) (hmem : child ∈ entriesOf fs directoryPath) :
    ∃ name, hasNoForbidden name = true ∧ name ∉ entriesOf fs directoryPath ∧
      normalizeStep env fs directoryPath child
        = some (Obj.set fs directoryPath
            ((entriesOf fs directoryPath).map (fun n => if n = child then name else n))) := by
  have hc : ¬ child = replaceForbidden child := by
    intro e
    rw [(replaceForbidden_eq_iff child).mp e] at h
    exact absurd h (by simp)
  obtain ⟨name, hf⟩ := freeName_total env hstem hlower fs directoryPath
    (longestName env fs directoryPath + 2) (sanitizedName child) 1
    (hasNoForbidden_sanitizedName child) (by omega) (by omega)
  obtain ⟨h1, h2⟩ := freeName_spec env fs directoryPath _ _ _ name hf
  have hclean := h2 hstem (hasNoForbidden_sanitizedName child)
  have hfree := not_mem_of_not_nameTaken env fs directoryPath name h1
  have hne : child ≠ name := by
    intro e
    rw [e, hclean] at h
    exact absurd h (by simp)
  refine ⟨name, hclean, hfree, ?_⟩
  rw [normalizeStep, if_neg hc]
  simp only [hf, renameSync, (contains_eq_true_iff _ _).mpr hmem, if_true,
    renameEntry_of_free _ _ _ hne hfree]

theorem normalizeLoop_of_clean (env : Env) (directoryPath : String) (fs : FileSystem)
    (rest : List String) (h : ∀ r ∈ rest, hasNoForbidden r = true) :
    normalizeLoop env directoryPath fs rest = some fs := by
  induction rest with
  | nil => rfl
  | cons c rest ih =>
    simp only [normalizeLoop,
      normalizeStep_of_clean env fs directoryPath (h c (List.mem_cons_self _ _))]
    exact ih (fun r hr => h r (List.mem_cons_of_mem _ hr))

/-- The loop over the entries that are still to be visited. -/
theorem normalizeLoop_spec (env : Env)
    (hstem : ∀ n, hasNoForbidden n = true →
      env.basename n (env.extname n) ++ env.extname n = n)
    (hlower : ∀ s : String, s.length ≤ (env.toLowerCase s).length)
    (directoryPath : String) (fs : FileSystem) (rest : List String)
    (hnd : (entriesOf fs directoryPath).Nodup)
    (hrest : ∀ r ∈ rest, r ∈ entriesOf fs directoryPath) (hrnd : rest.Nodup) :
    ∃ fs1, normalizeLoop env directoryPath fs rest = some fs1 ∧
      (entriesOf fs1 directoryPath).length = (entriesOf fs directoryPath).length ∧
      (entriesOf fs1 directoryPath).Nodup ∧
      (∀ e ∈ entriesOf fs1 directoryPath,
        hasNoForbidden e = true ∨ (e ∈ entriesOf fs directoryPath ∧ e ∉ rest)) ∧
      (∀ d, d ≠ directoryPath → Obj.get fs1 d = Obj.get fs d) := by
  induction rest generalizing fs with
  | nil =>
    exact ⟨fs, rfl, rfl, hnd, fun e he => Or.inr ⟨he, List.not_mem_nil e⟩, fun _ _ => rfl⟩
  | cons c rest ih =>
    have hc := hrest c (List.mem_cons_self _ _)
    have hcr : c ∉ rest := (List.nodup_cons.mp hrnd).1
    have hrnd2 : rest.Nodup := (List.nodup_cons.mp hrnd).2
    by_cases hclean : hasNoForbidden c = true
    · obtain ⟨fs1, hloop, hlen, hnd1, hent, hother⟩ :=
        ih fs hnd (fun r hr => hrest r (List.mem_cons_of_mem _ hr)) hrnd2
      refine ⟨fs1, ?_, hlen, hnd1, ?_, hother⟩
      · simp only [normalizeLoop, normalizeStep_of_clean env fs directoryPath hclean, hloop]
      · intro e he
        rcases hent e he with h | ⟨h1, h2⟩
        · exact Or.inl h
        · by_cases hec : e = c
          · exact Or.inl (hec ▸ hclean)
          · exact Or.inr ⟨h1, by simp [hec, h2]⟩
    · have hforb : hasNoForbidden c = false := by simpa using hclean
      obtain ⟨name, hname, hfree, hstep⟩ :=
        normalizeStep_of_forbidden env hstem hlower fs directoryPath c hforb hc
      have hmap : ∀ r ∈ rest, r ∈ (entriesOf fs directoryPath).map
          (fun n => if n = c then name else n) := by
        intro r hr
        have hrc : r ≠ c := fun e => hcr (e ▸ hr)
        exact List.mem_map.mpr ⟨r, hrest r (List.mem_cons_of_mem _ hr), by simp [hrc]⟩
      obtain ⟨fs1, hloop, hlen, hnd1, hent, hother⟩ :=
        ih (Obj.set fs directoryPath
            ((entriesOf fs directoryPath).map (fun n => if n = c then name else n)))
          (by rw [entriesOf_set]; exact nodup_map_rename _ _ _ hnd hfree)
          (by rw [entriesOf_set]; exact hmap) hrnd2
      rw [entriesOf_set] at hlen hent
      refine ⟨fs1, ?_, ?_, hnd1, ?_, ?_⟩
      · simp only [normalizeLoop, hstep, hloop]
      · rw [hlen, List.length_map]
      · intro e he
        rcases hent e he with h | ⟨h1, h2⟩
        · exact Or.inl h
        · obtain ⟨x, hx, hxe⟩ := List.mem_map.mp h1
          by_cases hxc : x = c
          · simp only [hxc, if_true] at hxe
            exact Or.inl (hxe ▸ hname)
          · simp only [hxc, if_false] at hxe
            subst hxe
            exact Or.inr ⟨hx, by simp [hxc, h2]⟩
      · intro d hd
        rw [hother d hd, get_set_other _ _ _ _ hd]

/-- The whole of `normalizeFilenames` on a directory with pairwise different names. -/
theorem normalizeFilenames_spec (env : Env)
    (hstem : ∀ n, hasNoForbidden n = true →
      env.basename n (env.extname n) ++ env.extname n = n)
    (hlower : ∀ s : String, s.length ≤ (env.toLowerCase s).length)
    (fs : FileSystem) (directoryPath : String)
    (hnd : (entriesOf fs directoryPath).Nodup) :
    ∃ fs1, normalizeFilenames env fs directoryPath = some fs1 ∧
      (entriesOf fs1 directoryPath).length = (entriesOf fs directoryPath).length ∧
      (entriesOf fs1 directoryPath).Nodup ∧
      (∀ e ∈ entriesOf fs1 directoryPath, hasNoForbidden e = true) ∧
      (∀ d, d ≠ directoryPath → Obj.get fs1 d = Obj.get fs d) := by
  cases hdir : Obj.get fs directoryPath with
  | none =>
    refine ⟨fs, by simp only [normalizeFilenames, hdir], rfl, hnd, ?_, fun _ _ => rfl⟩
    intro e he
    simp [entriesOf, hdir] at he
  | some children =>
    have hE : entriesOf fs directoryPath = children := by simp [entriesOf, hdir]
    obtain ⟨fs1, hloop, hlen, hnd1, hent, hother⟩ :=
      normalizeLoop_spec env hstem hlower directoryPath fs children hnd
        (by rw [hE]; exact fun r hr => hr) (hE ▸ hnd)
    refine ⟨fs1, by simp only [normalizeFilenames, hdir, hloop], hlen, hnd1, ?_, hother⟩
    intro e he
    rcases hent e he with h | ⟨h1, h2⟩
    · exact h
    · exact absurd (hE ▸ h1) h2

/-! ## The sample environment satisfies the laws of `path` and of `toLowerCase` -/

theorem dropWhile_ne_of_mem (a : Char) (l : List Char) (h : a ∈ l) :
    ∃ r, l.dropWhile (fun c => c != a) = a :: r := by
  induction l with
  | nil => simp at h
  | cons x l ih =>
    by_cases hx : x = a
    · exact ⟨l, by simp [List.dropWhile, hx]⟩
    · have hm : a ∈ l := by
        rcases List.mem_cons.mp h with e | e
        · exact absurd e.symm hx
        · exact e
      obtain ⟨r, hr⟩ := ih hm
      have hb : (x != a) = true := by simpa using hx
      exact ⟨r, by rw [List.dropWhile, hb, hr]⟩

theorem take_length_sub (a b l : List Char) (h : l = a ++ b) :
    l.take (l.length - b.length) = a := by
  subst h
  simp

/-- The stem of a file name of the examples followed by its extension is the name. -/
theorem basenameOf_append_extnameOf (child : List Char) :
    (basenameOf child (extnameOf child)).data ++ (extnameOf child).data = child := by
  by_cases hdot : child.contains '.' = true
  · have hmem : '.' ∈ child.reverse := by simpa using hdot
    obtain ⟨r, hr⟩ := dropWhile_ne_of_mem '.' child.reverse hmem
    have hsplit := List.takeWhile_append_dropWhile (fun c => c != '.') child.reverse
    rw [hr] at hsplit
    have hdata : child
        = r.reverse ++ '.' :: (child.reverse.takeWhile (fun c => c != '.')).reverse := by
      have := congrArg List.reverse hsplit
      simpa using this.symm
    have hext : extnameOf child
        = String.mk ('.' :: (child.reverse.takeWhile (fun c => c != '.')).reverse) := by
      simp only [extnameOf, hdot, if_true]
    have hsuf : ('.' :: (child.reverse.takeWhile (fun c => c != '.')).reverse).isSuffixOf
        child = true := by
      rw [List.isSuffixOf_iff_suffix]
      exact ⟨r.reverse, hdata.symm⟩
    have hne : (String.mk ('.' :: (child.reverse.takeWhile (fun c => c != '.')).reverse)
        != "") = true := by
      simp [bne, String.ext_iff]
    have htake : child.take (child.length
        - ('.' :: (child.reverse.takeWhile (fun c => c != '.')).reverse).length)
        = r.reverse := take_length_sub _ _ _ hdata
    rw [hext]
    simp only [basenameOf]
    rw [if_pos ⟨hne, hsuf⟩, htake]
    exact hdata.symm
  · have hext : extnameOf child = "" := by
      simp only [extnameOf, hdot]
      rfl
    rw [hext]
    simp [basenameOf]

/-- A name without forbidden character is its own last segment. -/
theorem lastSegment_of_clean (n : String) (h : hasNoForbidden n = true) :
    lastSegment n = n.data := by
  have hall : ∀ c ∈ n.data.reverse, (c != '/') = true := by
    intro c hc
    have hn : isForbidden c = false := by
      have hall := List.all_eq_true.mp h c (List.mem_reverse.mp hc)
      simpa using hall
    by_contra hne
    have : c = '/' := by simpa using hne
    rw [this] at hn
    exact absurd hn (by decide)
  rw [lastSegment, List.takeWhile_eq_self_iff.mpr hall, List.reverse_reverse]

/-- The stem of a name without forbidden character followed by its extension is the
name. -/
theorem sampleEnv_stem (n : String) (h : hasNoForbidden n = true) :
    sampleEnv.basename n (sampleEnv.extname n) ++ sampleEnv.extname n = n := by
  apply String.ext
  simp only [sampleEnv, String.data_append, lastSegment_of_clean n h]
  exact basenameOf_append_extnameOf n.data

/-- Lower-casing keeps the length of a name. -/
theorem sampleEnv_lower (s : String) : s.length ≤ (sampleEnv.toLowerCase s).length := by
  show s.data.length ≤ (s.data.map Char.toLower).length
  rw [List.length_map]

/-! ## Lemmas on `readFileSync`, `convertFile` and the loop of `convertGrammars` -/

theorem filterObject_eq_filter {α : Type} (object : Obj α) :
    filterObject object
      = object.filter (fun kv => kv.1 != "uuid" && kv.1 != "keyEquivalent") := by
  simp only [filterObject, Obj.delete, List.filter_filter]
  congr 1
  funext kv
  exact Bool.and_comm _ _

theorem filterObject_length_pos {α : Type} (object : Obj α) :
    (filterObject object).length > 0 ↔ hasNonOpaqueKey object = true := by
  rw [filterObject_eq_filter, hasNonOpaqueKey, List.any_eq_true]
  show 0 < _ ↔ _
  rw [List.length_pos]
  constructor
  · intro h
    obtain ⟨a, ha⟩ := List.exists_mem_of_ne_nil _ h
    exact ⟨a, (List.mem_filter.mp ha).1, (List.mem_filter.mp ha).2⟩
  · rintro ⟨a, ha, hp⟩ hnil
    have : a ∈ object.filter (fun kv => kv.1 != "uuid" && kv.1 != "keyEquivalent") :=
      List.mem_filter.mpr ⟨ha, hp⟩
    rw [hnil] at this
    exact absurd this (List.not_mem_nil a)

theorem writeActions_none {α : Type} (wrap : Obj α → Serialized) (filePath : String) :
    writeActions wrap filePath none = [] := by
  simp [writeActions, serializerCall, filterObject, Obj.delete]

theorem writeActions_some {α : Type} (wrap : Obj α → Serialized) (filePath : String)
    (object : Obj α) :
    writeActions wrap filePath (some object)
      = if hasNonOpaqueKey object then [Action.write filePath (wrap (filterObject object))]
        else [] := by
  by_cases h : hasNonOpaqueKey object = true
  · have hpos := (filterObject_length_pos object).mpr h
    simp only [writeActions, serializerCall, Option.getD_some, hpos, if_true, h]
  · have hpos : ¬ (filterObject object).length > 0 :=
      fun hp => h ((filterObject_length_pos object).mp hp)
    simp only [writeActions, serializerCall, Option.getD_some, hpos, if_false, h]
    rfl

/-- The dispatch written out in `convertFile` is the one of `readFileSync`. -/
theorem convertFile_eq (env : Env) (bundle : Bundle) (sourcePath destinationDir : String) :
    convertFile env bundle sourcePath destinationDir
      = match readFileSync env bundle sourcePath with
        | .error e => ⟨[], some e⟩
        | .ok parsed =>
          ⟨writeActions Serialized.grammar
              (env.join destinationDir (destinationName env sourcePath))
              (parsed.map Parsed.properties), none⟩ := by
  simp only [convertFile, readFileSync]

theorem andThen_ok (actions : List Action) (next : Outcome) :
    Outcome.andThen ⟨actions, none⟩ next = ⟨actions ++ next.actions, next.error⟩ := rfl

theorem andThen_error (actions : List Action) (e : JsError) (next : Outcome) :
    Outcome.andThen ⟨actions, some e⟩ next = ⟨actions, some e⟩ := rfl

/-- One entry of the syntaxes directory whose file is read without error. -/
theorem convertFile_of_read (env : Env) (bundle : Bundle)
    (hcson : ∀ s, env.toLowerCase (s ++ ".cson") = env.toLowerCase s ++ ".cson")
    (sourceSyntaxes destination child : String) (parsed : Option Parsed)
    (hfile : bundle.isFileSync (env.join sourceSyntaxes child) = true)
    (hread : readFileSync env bundle (env.join sourceSyntaxes child) = .ok parsed) :
    convertFile env bundle (env.join sourceSyntaxes child) destination
      = ⟨expectedGrammarWrites env bundle sourceSyntaxes destination child, none⟩ := by
  rw [convertFile_eq, hread]
  simp only [expectedGrammarWrites, grammarRecord, hfile, if_true, hread, destinationName,
    hcson, grammarFileName]
  cases parsed with
  | none => simp only [Option.map_none', writeActions_none]
  | some p =>
    simp only [Option.map_some', writeActions_some]
    by_cases h : hasNonOpaqueKey p.properties = true
    · simp only [h, if_true]
    · simp only [h]
      rfl

theorem expectedGrammarWrites_of_not_file (env : Env) (bundle : Bundle)
    (sourceSyntaxes destination child : String)
    (hfile : bundle.isFileSync (env.join sourceSyntaxes child) = false) :
    expectedGrammarWrites env bundle sourceSyntaxes destination child = [] := by
  simp [expectedGrammarWrites, grammarRecord, hfile]

/-- The loop of `convertGrammars` when every file of the listing is read without
error. -/
theorem convertGrammarsLoop_of_reads (env : Env) (bundle : Bundle)
    (hcson : ∀ s, env.toLowerCase (s ++ ".cson") = env.toLowerCase s ++ ".cson")
    (sourceSyntaxes destination : String) (children : List String)
    (hread : ∀ child ∈ children, bundle.isFileSync (env.join sourceSyntaxes child) = true →
      ∃ parsed, readFileSync env bundle (env.join sourceSyntaxes child) = .ok parsed) :
    convertGrammarsLoop env bundle sourceSyntaxes destination children
      = ⟨children.flatMap (expectedGrammarWrites env bundle sourceSyntaxes destination),
          none⟩ := by
  induction children with
  | nil => rfl
  | cons child rest ih =>
    have ih1 := ih (fun c hc => hread c (List.mem_cons_of_mem _ hc))
    by_cases hfile : bundle.isFileSync (env.join sourceSyntaxes child) = true
    · obtain ⟨parsed, hp⟩ := hread child (List.mem_cons_self _ _) hfile
      simp only [convertGrammarsLoop, hfile, if_true, ih1, List.flatMap_cons,
        convertFile_of_read env bundle hcson sourceSyntaxes destination child parsed hfile hp,
        andThen_ok]
    · have hf : bundle.isFileSync (env.join sourceSyntaxes child) = false := by
        simpa using hfile
      simp only [convertGrammarsLoop, hf, ih1, List.flatMap_cons,
        expectedGrammarWrites_of_not_file env bundle sourceSyntaxes destination child hf,
        List.nil_append]
      rfl

/-- Lower-casing leaves the text `.cson` at the end of a string as it is. -/
theorem sampleEnv_cson (s : String) :
    sampleEnv.toLowerCase (s ++ ".cson") = sampleEnv.toLowerCase s ++ ".cson" := by
  apply String.ext
  simp only [sampleEnv, String.data_append, List.map_append]
  rfl

theorem writtenPaths_append (l1 l2 : List Action) :
    writtenPaths (l1 ++ l2) = writtenPaths l1 ++ writtenPaths l2 := by
  induction l1 with
  | nil => rfl
  | cons a l1 ih =>
    cases a with
    | write filePath object =>
      show filePath :: writtenPaths (l1 ++ l2) = filePath :: writtenPaths l1 ++ writtenPaths l2
      rw [ih, List.cons_append]
    | normalize directoryPath => exact ih

/-- The paths written for a listing of the syntaxes directory. -/
theorem writtenPaths_expectedGrammarWrites (env : Env) (bundle : Bundle)
    (sourceSyntaxes destination : String) (children : List String) :
    writtenPaths (children.flatMap
        (expectedGrammarWrites env bundle sourceSyntaxes destination))
      = (children.filter
          (fun child => (grammarRecord env bundle sourceSyntaxes child).isSome)).map
          (fun child =>
            env.join destination (grammarFileName env (env.join sourceSyntaxes child))) := by
  induction children with
  | nil => rfl
  | cons child rest ih =>
    rw [List.flatMap_cons, writtenPaths_append, ih]
    cases h : grammarRecord env bundle sourceSyntaxes child with
    | none => simp [expectedGrammarWrites, h, writtenPaths]
    | some record => simp [expectedGrammarWrites, h, writtenPaths]

/-- Joining different names to a directory gives different paths. -/
theorem sampleEnv_join_injective (directoryPath a b : String)
    (h : sampleEnv.join directoryPath a = sampleEnv.join directoryPath b) : a = b := by
  have hd := congrArg String.data h
  simp only [sampleEnv, String.data_append] at hd
  exact String.ext (List.append_cancel_left hd)

/-! ## Lemmas on the loops of `convertSnippets` and `convertPreferences` over the files -/

theorem convertSnippetsLoop_append (env : Env) (bundle : Bundle) (sourceSnippets : String)
    (st : SnippetState) (pre post : List String) :
    convertSnippetsLoop env bundle sourceSnippets st (pre ++ post)
      = match convertSnippetsLoop env bundle sourceSnippets st pre with
        | .ok st1 => convertSnippetsLoop env bundle sourceSnippets st1 post
        | .error e => .error e := by
  induction pre generalizing st with
  | nil => rfl
  | cons child rest ih =>
    simp only [List.cons_append, convertSnippetsLoop]
    cases readFileSync env bundle (env.join sourceSnippets child) with
    | error e => rfl
    | ok file =>
      dsimp only
      cases snippetStep env st child (file.map Parsed.snippet) with
      | error e => rfl
      | ok st1 => exact ih st1

theorem convertPreferencesLoop_append (env : Env) (bundle : Bundle)
    (sourcePreferences : String) (group : Obj (Obj (Obj Val))) (pre post : List String) :
    convertPreferencesLoop env bundle sourcePreferences group (pre ++ post)
      = match convertPreferencesLoop env bundle sourcePreferences group pre with
        | .ok group1 => convertPreferencesLoop env bundle sourcePreferences group1 post
        | .error e => .error e := by
  induction pre generalizing group with
  | nil => rfl
  | cons child rest ih =>
    simp only [List.cons_append, convertPreferencesLoop]
    cases readFileSync env bundle (env.join sourcePreferences child) with
    | error e => rfl
    | ok file =>
      dsimp only
      cases preferenceStep env group (file.map Parsed.preference) with
      | error e => rfl
      | ok group1 => exact ih group1

/-- The loop of `convertSnippets` throws at the first file that cannot be read or whose
scope cannot be translated. -/
theorem convertSnippetsLoop_fails (env : Env) (bundle : Bundle) (sourceSnippets : String)
    (st0 st : SnippetState) (pre post : List String) (child : String) (e : JsError)
    (hpre : convertSnippetsLoop env bundle sourceSnippets st0 pre = .ok st)
    (hbad : readFileSync env bundle (env.join sourceSnippets child) = .error e ∨
      ∃ file, readFileSync env bundle (env.join sourceSnippets child) = .ok file ∧
        snippetStep env st child (file.map Parsed.snippet) = .error e) :
    convertSnippetsLoop env bundle sourceSnippets st0 (pre ++ child :: post) = .error e := by
  rw [convertSnippetsLoop_append, hpre]
  rcases hbad with h | ⟨file, h1, h2⟩
  · simp only [convertSnippetsLoop, h]
  · simp only [convertSnippetsLoop, h1, h2]

/-- The loop of `convertPreferences` throws at the first file that cannot be read or
whose scope cannot be translated. -/
theorem convertPreferencesLoop_fails (env : Env) (bundle : Bundle)
    (sourcePreferences : String) (group0 group : Obj (Obj (Obj Val)))
    (pre post : List String) (child : String) (e : JsError)
    (hpre : convertPreferencesLoop env bundle sourcePreferences group0 pre = .ok group)
    (hbad : readFileSync env bundle (env.join sourcePreferences child) = .error e ∨
      ∃ file, readFileSync env bundle (env.join sourcePreferences child) = .ok file ∧
        preferenceStep env group (file.map Parsed.preference) = .error e) :
    convertPreferencesLoop env bundle sourcePreferences group0 (pre ++ child :: post)
      = .error e := by
  rw [convertPreferencesLoop_append, hpre]
  rcases hbad with h | ⟨file, h1, h2⟩
  · simp only [convertPreferencesLoop, h]
  · simp only [convertPreferencesLoop, h1, h2]

/-- A run of `convertSnippets` that throws has had no effect on the destination. -/
theorem convertSnippets_actions_of_error (env : Env) (bundle : Bundle)
    (destinationPath packageName source : String) (e : JsError)
    (h : (convertSnippets env bundle destinationPath packageName source).error = some e) :
    (convertSnippets env bundle destinationPath packageName source).actions = [] := by
  unfold convertSnippets at h ⊢
  cases hd : sourceDirectory env bundle source "snippets" "Snippets" with
  | none => simp only [hd]
  | some sourceSnippets =>
    simp only [hd] at h ⊢
    cases hl : convertSnippetsLoop env bundle sourceSnippets ⟨[], none⟩
        (bundle.readdirSync sourceSnippets) with
    | error e1 => simp only [hl]
    | ok st =>
      rw [hl] at h
      simp at h

/-- A run of `convertPreferences` that throws has had no effect on the destination. -/
theorem convertPreferences_actions_of_error (env : Env) (bundle : Bundle)
    (destinationPath packageName source : String) (e : JsError)
    (h : (convertPreferences env bundle destinationPath packageName source).error = some e) :
    (convertPreferences env bundle destinationPath packageName source).actions = [] := by
  unfold convertPreferences at h ⊢
  cases hd : sourceDirectory env bundle source "preferences" "Preferences" with
  | none => simp only [hd]
  | some sourcePreferences =>
    simp only [hd] at h ⊢
    cases hl : convertPreferencesLoop env bundle sourcePreferences []
        (bundle.readdirSync sourcePreferences) with
    | error e1 => simp only [hl]
    | ok group =>
      rw [hl] at h
      simp at h

theorem andThen_assoc (a b c : Outcome) :
    (a.andThen b).andThen c = a.andThen (b.andThen c) := by
  obtain ⟨aa, ae⟩ := a
  obtain ⟨ba, be⟩ := b
  cases ae with
  | some e => rfl
  | none =>
    cases be with
    | some e => rfl
    | none => simp [Outcome.andThen, List.append_assoc]

theorem andThen_nil (a : Outcome) : Outcome.andThen ⟨[], none⟩ a = a := rfl

theorem convertGrammarsLoop_append (env : Env) (bundle : Bundle)
    (sourceSyntaxes destination : String) (pre post : List String) :
    convertGrammarsLoop env bundle sourceSyntaxes destination (pre ++ post)
      = (convertGrammarsLoop env bundle sourceSyntaxes destination pre).andThen
          (convertGrammarsLoop env bundle sourceSyntaxes destination post) := by
  induction pre with
  | nil => rfl
  | cons child rest ih =>
    simp only [List.cons_append, convertGrammarsLoop]
    split_ifs
    · rw [andThen_assoc]
      exact congrArg _ ih
    · exact ih

/-- The loop of `convertGrammars` stops at the first file that cannot be read: what was
written for the files before it stays. -/
theorem convertGrammarsLoop_fails (env : Env) (bundle : Bundle)
    (hcson : ∀ s, env.toLowerCase (s ++ ".cson") = env.toLowerCase s ++ ".cson")
    (sourceSyntaxes destination : String) (pre post : List String) (child : String)
    (e : JsError)
    (hpre : ∀ c ∈ pre, bundle.isFileSync (env.join sourceSyntaxes c) = true →
      ∃ parsed, readFileSync env bundle (env.join sourceSyntaxes c) = .ok parsed)
    (hfile : bundle.isFileSync (env.join sourceSyntaxes child) = true)
    (hbad : readFileSync env bundle (env.join sourceSyntaxes child) = .error e) :
    convertGrammarsLoop env bundle sourceSyntaxes destination (pre ++ child :: post)
      = ⟨pre.flatMap (expectedGrammarWrites env bundle sourceSyntaxes destination),
          some e⟩ := by
  rw [convertGrammarsLoop_append,
    convertGrammarsLoop_of_reads env bundle hcson sourceSyntaxes destination pre hpre]
  simp only [convertGrammarsLoop, hfile, if_true, convertFile_eq, hbad, andThen_error,
    andThen_ok, List.append_nil]

/-! ## Lemmas on files with an extension that is not recognized -/

/-- The extensions for which `readFileSync` calls a parser. -/
theorem readFileSync_of_unrecognized (env : Env) (bundle : Bundle) (filePath : String)
    (h : env.extname filePath ∉ [".plist", ".tmCommand", ".tmLanguage", ".tmMacro",
      ".tmPreferences", ".tmSnippet", ".json", ".cson"]) :
    readFileSync env bundle filePath = .ok none := by
  have h1 : plistExtensions.contains (env.extname filePath) = false := by
    rw [Bool.eq_false_iff]
    intro hc
    apply h
    have := (contains_eq_true_iff _ _).mp hc
    simp only [plistExtensions, List.mem_cons, List.mem_singleton, List.not_mem_nil,
      or_false] at this ⊢
    tauto
  have h2 : [".json", ".cson"].contains (env.extname filePath) = false := by
    rw [Bool.eq_false_iff]
    intro hc
    apply h
    have := (contains_eq_true_iff _ _).mp hc
    simp only [List.mem_cons, List.mem_singleton, List.not_mem_nil, or_false] at this ⊢
    tauto
  simp only [readFileSync, h1, h2, Bool.false_eq_true, if_false]

theorem convertSnippetsLoop_cons_of_none (env : Env) (bundle : Bundle)
    (sourceSnippets : String) (st : SnippetState) (child : String) (rest : List String)
    (h : readFileSync env bundle (env.join sourceSnippets child) = .ok none) :
    convertSnippetsLoop env bundle sourceSnippets st (child :: rest)
      = convertSnippetsLoop env bundle sourceSnippets st rest := by
  have hstep : snippetStep env st child none = .ok st :=
    snippetStep_skipped env st child rfl
  simp only [convertSnippetsLoop, h, Option.map_none', hstep]

theorem convertPreferencesLoop_cons_of_none (env : Env) (bundle : Bundle)
    (sourcePreferences : String) (group : Obj (Obj (Obj Val))) (child : String)
    (rest : List String)
    (h : readFileSync env bundle (env.join sourcePreferences child) = .ok none) :
    convertPreferencesLoop env bundle sourcePreferences group (child :: rest)
      = convertPreferencesLoop env bundle sourcePreferences group rest := by
  have hstep : preferenceStep env group none = .ok group :=
    preferenceStep_of_not_contributes env group rfl
  simp only [convertPreferencesLoop, h, Option.map_none', hstep]

theorem convertGrammarsLoop_cons_of_none (env : Env) (bundle : Bundle)
    (sourceSyntaxes destination child : String) (rest : List String)
    (h : readFileSync env bundle (env.join sourceSyntaxes child) = .ok none) :
    convertGrammarsLoop env bundle sourceSyntaxes destination (child :: rest)
      = convertGrammarsLoop env bundle sourceSyntaxes destination rest := by
  simp only [convertGrammarsLoop, convertFile_eq, h, Option.map_none', writeActions_none,
    andThen_nil, ite_self]

/-! ## Lemmas on the effects of the three converters -/

theorem mem_andThen (x y : Outcome) (a : Action) (h : a ∈ (x.andThen y).actions) :
    a ∈ x.actions ∨ a ∈ y.actions := by
  obtain ⟨xa, xe⟩ := x
  cases xe with
  | some e => exact Or.inl h
  | none => exact List.mem_append.mp h

theorem mem_writeActions {α : Type} (wrap : Obj α → Serialized) (filePath : String)
    (object : Option (Obj α)) (a : Action) (h : a ∈ writeActions wrap filePath object) :
    ∃ filtered, a = Action.write filePath (wrap filtered) := by
  unfold writeActions serializerCall at h
  split_ifs at h
  · exact ⟨_, by simpa using h⟩
  · simp at h

/-- The effects of `convertSnippets`: at most one file, named after the package, and the
renames in the snippets directory. -/
theorem mem_convertSnippets (env : Env) (bundle : Bundle)
    (destinationPath packageName source : String) (a : Action)
    (h : a ∈ (convertSnippets env bundle destinationPath packageName source).actions) :
    a = Action.normalize (env.join destinationPath "snippets") ∨
      ∃ group, a = Action.write
        (env.join (env.join destinationPath "snippets") (packageName ++ ".cson"))
        (Serialized.snippets group) := by
  unfold convertSnippets at h
  cases hd : sourceDirectory env bundle source "snippets" "Snippets" with
  | none => simp [hd] at h
  | some sourceSnippets =>
    simp only [hd] at h
    cases hl : convertSnippetsLoop env bundle sourceSnippets ⟨[], none⟩
        (bundle.readdirSync sourceSnippets) with
    | error e => simp [hl] at h
    | ok st =>
      simp only [hl, List.mem_append, List.mem_singleton] at h
      rcases h with h | h
      · exact Or.inr (mem_writeActions _ _ _ a h)
      · exact Or.inl h

/-- The effects of `convertPreferences`: at most one file, named after the package, and
the renames in the settings directory. -/
theorem mem_convertPreferences (env : Env) (bundle : Bundle)
    (destinationPath packageName source : String) (a : Action)
    (h : a ∈ (convertPreferences env bundle destinationPath packageName source).actions) :
    a = Action.normalize (env.join destinationPath "settings") ∨
      ∃ group, a = Action.write
        (env.join (env.join destinationPath "settings") (packageName ++ ".cson"))
        (Serialized.settings group) := by
  unfold convertPreferences at h
  cases hd : sourceDirectory env bundle source "preferences" "Preferences" with
  | none => simp [hd] at h
  | some sourcePreferences =>
    simp only [hd] at h
    cases hl : convertPreferencesLoop env bundle sourcePreferences []
        (bundle.readdirSync sourcePreferences) with
    | error e => simp [hl] at h
    | ok group =>
      simp only [hl, List.mem_append, List.mem_singleton] at h
      rcases h with h | h
      · exact Or.inr (mem_writeActions _ _ _ a h)
      · exact Or.inl h

theorem mem_convertGrammarsLoop (env : Env) (bundle : Bundle)
    (sourceSyntaxes destination : String) (children : List String) (a : Action)
    (h : a ∈ (convertGrammarsLoop env bundle sourceSyntaxes destination children).actions) :
    ∃ name record, a = Action.write (env.join destination name) (Serialized.grammar record) := by
  induction children with
  | nil => simp [convertGrammarsLoop] at h
  | cons child rest ih =>
    simp only [convertGrammarsLoop] at h
    split_ifs at h
    · rcases mem_andThen _ _ a h with h1 | h1
      · rw [convertFile_eq] at h1
        cases hr : readFileSync env bundle (env.join sourceSyntaxes child) with
        | error e => simp [hr] at h1
        | ok parsed =>
          simp only [hr] at h1
          obtain ⟨record, hrec⟩ := mem_writeActions _ _ _ a h1
          exact ⟨_, record, hrec⟩
      · exact ih h1
    · exact ih h

/-- The effects of `convertGrammars`: grammar files, and the renames in the grammars
directory. -/
theorem mem_convertGrammars (env : Env) (bundle : Bundle)
    (destinationPath source : String) (a : Action)
    (h : a ∈ (convertGrammars env bundle destinationPath source).actions) :
    a = Action.normalize (env.join destinationPath "grammars") ∨
      ∃ name record, a = Action.write
        (env.join (env.join destinationPath "grammars") name)
        (Serialized.grammar record) := by
  unfold convertGrammars at h
  cases hd : sourceDirectory env bundle source "syntaxes" "Syntaxes" with
  | none => simp [hd] at h
  | some sourceSyntaxes =>
    simp only [hd] at h
    rcases mem_andThen _ _ a h with h1 | h1
    · exact Or.inr (mem_convertGrammarsLoop env bundle sourceSyntaxes _ _ a h1)
    · exact Or.inl (by simpa using h1)

theorem sourceDirectory_of_absent (env : Env) (bundle : Bundle)
    (source lower upper : String)
    (h1 : bundle.isDirectorySync (env.join source lower) = false)
    (h2 : bundle.isDirectorySync (env.join source upper) = false) :
    sourceDirectory env bundle source lower upper = none := by
  simp [sourceDirectory, h1, h2]

theorem andThen_nil_right (a : Outcome) : a.andThen ⟨[], none⟩ = a := by
  obtain ⟨actions, error⟩ := a
  cases error with
  | some e => rfl
  | none => simp [Outcome.andThen]

/-! ## Lemmas on `requestTags` -/

/-- A run of `requestTags` that starts with `retryCount = n` makes at most `n` requests,
stops at the first response that lists the tag, and calls the callback once. -/
theorem requestTags_spec (tag : String) (responses : Nat → TagsResponse)
    (fuel n issued : Nat) (hn : 1 ≤ n) (hfuel : n ≤ fuel) :
    ∃ run, requestTags tag responses fuel (n : Int) issued = some run ∧
      run.callbacks = [[]] ∧ issued + 1 ≤ run.requests ∧ run.requests ≤ issued + n ∧
      (∀ i, issued ≤ i → i + 1 < run.requests → listsTag tag (responses i) = false) ∧
      (run.requests < issued + n → listsTag tag (responses (run.requests - 1)) = true) := by
  induction fuel generalizing n issued with
  | zero => omega
  | succ fuel ih =>
    by_cases hl : listsTag tag (responses issued) = true
    · refine ⟨⟨issued + 1, [[]]⟩, by simp only [requestTags, hl, if_true], rfl,
        Nat.le_refl _, Nat.add_le_add_left hn issued, ?_, ?_⟩
      · intro i h1 h2
        simp only at h2
        omega
      · intro _
        simpa using hl
    · have hl2 : listsTag tag (responses issued) = false := by simpa using hl
      by_cases hlast : n = 1
      · subst hlast
        refine ⟨⟨issued + 1, [[]]⟩, by simp [requestTags, hl2], rfl, Nat.le_refl _,
          Nat.le_refl _, ?_, ?_⟩
        · intro i h1 h2
          simp only at h2
          omega
        · intro h
          simp only at h
          omega
      · have hpos : ¬ ((n : Int) - 1 ≤ 0) := by omega
        have hcast : ((n : Int) - 1) = ((n - 1 : Nat) : Int) := by omega
        obtain ⟨run, hrun, hcb, hlo, hhi, hnot, hlast2⟩ :=
          ih (n - 1) (issued + 1) (by omega) (by omega)
        refine ⟨run, ?_, hcb, by omega, by omega, ?_, ?_⟩
        · simp only [requestTags, hl2, Bool.false_eq_true, if_false, hpos]
          rw [hcast]
          exact hrun
        · intro i h1 h2
          by_cases hi : i = issued
          · rw [hi]
            exact hl2
          · exact hnot i (by omega) h2
        · intro h
          exact hlast2 (by omega)

/-! ## Lemmas on the number of tests of the collision loop -/

theorem hasNoForbidden_candidate (env : Env)
    (hstem : ∀ n, hasNoForbidden n = true →
      env.basename n (env.extname n) ++ env.extname n = n)
    (name : String) (hclean : hasNoForbidden name = true) (k : Nat) :
    hasNoForbidden (candidate env name k) = true := by
  induction k with
  | zero => exact hclean
  | succ k ih => exact hasNoForbidden_nextName env hstem _ _ ih

/-- The candidates grow in length. -/
theorem length_candidate_lt (env : Env)
    (hstem : ∀ n, hasNoForbidden n = true →
      env.basename n (env.extname n) ++ env.extname n = n)
    (name : String) (hclean : hasNoForbidden name = true) (i j : Nat) (h : i < j) :
    (candidate env name i).length < (candidate env name j).length := by
  induction j with
  | zero => omega
  | succ j ih =>
    have hstep : (candidate env name j).length < (candidate env name (j + 1)).length :=
      length_nextName env hstem _ _ (hasNoForbidden_candidate env hstem name hclean j)
    by_cases hij : i = j
    · rw [hij]
      exact hstep
    · exact Nat.lt_trans (ih (by omega)) hstep

theorem le_length_candidate (env : Env)
    (hstem : ∀ n, hasNoForbidden n = true →
      env.basename n (env.extname n) ++ env.extname n = n)
    (name : String) (hclean : hasNoForbidden name = true) (k : Nat) :
    k ≤ (candidate env name k).length := by
  induction k with
  | zero => exact Nat.zero_le _
  | succ k ih =>
    have := length_candidate_lt env hstem name hclean k (k + 1) (Nat.lt_succ_self k)
    omega

/-- The loop started at the candidate number `j` returns the first candidate that is
not taken, when the tests it is given reach it. -/
theorem freeName_candidate (env : Env) (fs : FileSystem) (directoryPath name : String)
    (fuel j k : Nat) (hjk : j ≤ k) (hfuel : k - j < fuel)
    (htaken : ∀ i, j ≤ i → i < k →
      nameTaken env fs directoryPath (candidate env name i) = true)
    (hfree : nameTaken env fs directoryPath (candidate env name k) = false) :
    freeName env fs directoryPath fuel (candidate env name j) (j + 1)
      = some (candidate env name k) := by
  induction fuel generalizing j with
  | zero => omega
  | succ fuel ih =>
    by_cases hj : j = k
    · subst hj
      simp only [freeName, hfree, Bool.false_eq_true, if_false]
    · have ht := htaken j (Nat.le_refl j) (by omega)
      simp only [freeName, ht, if_true]
      exact ih (j + 1) (by omega) (by omega) (fun i h1 h2 => htaken i (by omega) h2)

theorem takenBy_mem (env : Env) (fs : FileSystem) (directoryPath name : String)
    (h : nameTaken env fs directoryPath name = true) :
    takenBy env fs directoryPath name ∈ existingPaths env fs directoryPath := by
  rw [existingPaths, List.mem_dedup, List.mem_append]
  by_cases hc : (entriesOf fs directoryPath).contains name = true
  · left
    simp only [takenBy, hc, if_true]
    exact List.mem_map.mpr ⟨name, (contains_eq_true_iff _ _).mp hc, rfl⟩
  · right
    have hc2 : (entriesOf fs directoryPath).contains name = false := by simpa using hc
    have hl : (entriesOf fs (env.toLowerCase directoryPath)).contains
        (env.toLowerCase name) = true := by
      simp only [nameTaken, hc2, Bool.false_or] at h
      exact h
    simp only [takenBy, hc2, Bool.false_eq_true, if_false]
    exact List.mem_map.mpr ⟨_, (contains_eq_true_iff _ _).mp hl, rfl⟩

theorem length_takenBy (env : Env)
    (hlen : ∀ s : String, (env.toLowerCase s).length = s.length)
    (fs : FileSystem) (directoryPath name : String) :
    (takenBy env fs directoryPath name).2.length = name.length := by
  unfold takenBy
  split_ifs
  · rfl
  · exact hlen name

/-- The candidates that are taken are not more than the existing paths. -/
theorem taken_le_existingPaths (env : Env)
    (hstem : ∀ n, hasNoForbidden n = true →
      env.basename n (env.extname n) ++ env.extname n = n)
    (hlen : ∀ s : String, (env.toLowerCase s).length = s.length)
    (fs : FileSystem) (directoryPath name : String) (hclean : hasNoForbidden name = true)
    (k : Nat)
    (htaken : ∀ i, i < k → nameTaken env fs directoryPath (candidate env name i) = true) :
    k ≤ (existingPaths env fs directoryPath).length := by
  have hsub : (List.range k).map (fun i => takenBy env fs directoryPath (candidate env name i))
      ⊆ existingPaths env fs directoryPath := by
    intro p hp
    obtain ⟨i, hi, rfl⟩ := List.mem_map.mp hp
    exact takenBy_mem env fs directoryPath _ (htaken i (List.mem_range.mp hi))
  have hnd : ((List.range k).map
      (fun i => takenBy env fs directoryPath (candidate env name i))).Nodup := by
    apply List.Nodup.map_on _ (List.nodup_range k)
    intro x _ y _ hxy
    have hl := congrArg (fun p : String × String => p.2.length) hxy
    simp only [length_takenBy env hlen] at hl
    by_contra hne
    rcases Nat.lt_or_gt_of_ne hne with h | h
    · have := length_candidate_lt env hstem name hclean x y h
      omega
    · have := length_candidate_lt env hstem name hclean y x h
      omega
  have hle := (hnd.subperm hsub).length_le
  simpa using hle

/-- There is a first candidate that is not taken, and its number is at most the number
of existing paths. -/
theorem exists_first_free (env : Env)
    (hstem : ∀ n, hasNoForbidden n = true →
      env.basename n (env.extname n) ++ env.extname n = n)
    (hlen : ∀ s : String, (env.toLowerCase s).length = s.length)
    (fs : FileSystem) (directoryPath name : String) (hclean : hasNoForbidden name = true) :
    ∃ k, k ≤ (existingPaths env fs directoryPath).length ∧
      (∀ i, i < k → nameTaken env fs directoryPath (candidate env name i) = true) ∧
      nameTaken env fs directoryPath (candidate env name k) = false := by
  by_contra hno
  have hall : ∀ k, k ≤ (existingPaths env fs directoryPath).length →
      ∀ i, i ≤ k → nameTaken env fs directoryPath (candidate env name i) = true := by
    intro k
    induction k with
    | zero =>
      intro _ i hi
      have hi0 : i = 0 := by omega
      subst hi0
      by_contra hf
      exact hno ⟨0, Nat.zero_le _, fun i h => absurd h (Nat.not_lt_zero i), by simpa using hf⟩
    | succ k ih =>
      intro hk i hi
      by_cases hik : i ≤ k
      · exact ih (by omega) i hik
      · have hi1 : i = k + 1 := by omega
        subst hi1
        by_contra hf
        exact hno ⟨k + 1, hk, fun i h => ih (by omega) i (by omega), by simpa using hf⟩
  have hbound := taken_le_existingPaths env hstem hlen fs directoryPath name hclean
    ((existingPaths env fs directoryPath).length + 1)
    (fun i hi => hall _ (Nat.le_refl _) i (by omega))
  omega

/-- Lower-casing keeps the length of a string. -/
theorem sampleEnv_lower_length (s : String) : (sampleEnv.toLowerCase s).length = s.length := by
  show (s.data.map Char.toLower).length = s.data.length
  rw [List.length_map]

/-! ## Claims on the snippet body rewrite -/

/-- C3 (evaluation of the code): the body `${2:${TM_FILENAME}}` is rewritten to `$1`,
not to `$2`: the replacement pattern `$$1` of the second substitution is a dollar sign
followed by the character `1`, so the tab-stop number of the input is lost. -/
theorem rewrite_nested_tabstop_two :
    rewrite "$\x7b2:$\x7bTM_FILENAME\x7d\x7d" = "$1" ∧
      rewrite "$\x7b2:$\x7bTM_FILENAME\x7d\x7d" ≠ "$2" := by
  decide

/-- C8: for a reserved name `v` (`TM_` followed by one or more of `[A-Z_]`) and a
non-empty default text `d` without `}`, `$` and backslash, the rewrite maps `${v:d}` to
`d`; and in a body made of such placeholders separated by text without `$` and
backslash, every placeholder is replaced by its default text. -/
theorem rewrite_default_placeholders (v d t0 : List Char) (segs : List Segment)
    (hv : isReservedName v = true) (hd : isPlainDefault d = true)
    (h0 : isPlainText t0 = true) (hs : ∀ g ∈ segs, g.wellFormed = true) :
    rewrite (String.mk (placeholder v d)) = String.mk d ∧
      rewrite (String.mk (t0 ++ renderSegments segs))
        = String.mk (t0 ++ renderDefaults segs) := by
  constructor
  · have h := @rewriteChars_segments [] [⟨v, d, []⟩] rfl
      (by
        intro g hg
        rw [List.mem_singleton] at hg
        subst hg
        simp [Segment.wellFormed, hv, hd, isPlainText])
    simp only [renderSegments, renderDefaults, List.nil_append, List.append_nil] at h
    simp only [rewrite, h]
  · simp only [rewrite, rewriteChars_segments h0 hs]

/-- The placeholder `${TM_C_POINTER: *}` alone, and a body with two placeholders. -/
theorem rewrite_default_placeholders_witness :
    (isReservedName "TM_C_POINTER".data = true ∧ isPlainDefault " *".data = true ∧
      isPlainText "char".data = true ∧
      ∀ g ∈ [Segment.mk "TM_C_POINTER".data " *".data "p, ".data,
          Segment.mk "TM_X".data "y".data "z\x7d".data], g.wellFormed = true) ∧
    (rewrite "$\x7bTM_C_POINTER: *\x7d" = " *" ∧
      rewrite "char$\x7bTM_C_POINTER: *\x7dp, $\x7bTM_X:y\x7dz\x7d" = "char *p, yz\x7d") :=
  ⟨⟨by decide, by decide, by decide, by decide⟩,
    rewrite_default_placeholders "TM_C_POINTER".data " *".data "char".data
      [Segment.mk "TM_C_POINTER".data " *".data "p, ".data,
        Segment.mk "TM_X".data "y".data "z\x7d".data]
      (by decide) (by decide) (by decide) (by decide)⟩

/-- C9: on a body without the substring `TM_` the rewrite replaces every occurrence of
backslash-dollar (left to right, without overlap) by a dollar sign and changes nothing
else. -/
theorem rewrite_unescapes_all (s : String) (h : ¬ (['T', 'M', '_'] <:+: s.data)) :
    rewrite s = String.mk (unescapeDollars s.data) := by
  have h1 : ¬ (['$', '{', 'T', 'M', '_'] <:+: s.data) := fun hi =>
    h (List.IsInfix.trans (⟨['$', '{'], [], rfl⟩ : ['T', 'M', '_'] <:+: ['$', '{', 'T', 'M', '_']) hi)
  simp only [rewrite, rewriteChars_of_no_reserved h1]

/-- A body with two escaped dollar signs and a tab stop. -/
theorem rewrite_unescapes_all_witness :
    ¬ (['T', 'M', '_'] <:+: "a\\$b\\$c$1 \\n".data) ∧
      rewrite "a\\$b\\$c$1 \\n" = "a$b$c$1 \\n" :=
  ⟨by decide, rewrite_unescapes_all "a\\$b\\$c$1 \\n" (by decide)⟩

/-- C10 (counterexample): the body backslash-backslash-dollar contains no `TM_`, its
rewrite is backslash-dollar, and the rewrite of that is a dollar sign. -/
theorem rewrite_not_idempotent :
    ¬ (['T', 'M', '_'] <:+: doublyEscapedDollar.data) ∧
      rewrite doublyEscapedDollar = "\\$" ∧
      rewrite (rewrite doublyEscapedDollar) = "$" ∧
      rewrite (rewrite doublyEscapedDollar) ≠ rewrite doublyEscapedDollar := by
  decide

/-- C10 (amended): on a body that contains neither `${TM_` nor a backslash in front of
backslash-dollar, rewriting twice gives the same as rewriting once. -/
theorem rewrite_idempotent (s : String)
    (h1 : ¬ (['$', '{', 'T', 'M', '_'] <:+: s.data))
    (h2 : ¬ (['\\', '\\', '$'] <:+: s.data)) :
    rewrite (rewrite s) = rewrite s := by
  have e1 : rewriteChars s.data = unescapeDollars s.data := rewriteChars_of_no_reserved h1
  have h3 : ¬ (['$', '{', 'T', 'M', '_'] <:+: unescapeDollars s.data) :=
    fun hi => h1 (reserved_infix_of_unescapeDollars hi)
  have h4 : ¬ (['\\', '$'] <:+: unescapeDollars s.data) :=
    fun hi => h2 (escaped_infix_of_unescapeDollars hi)
  simp only [rewrite, e1, rewriteChars_of_no_reserved h3, unescapeDollars_of_no_escape h4]

/-- A body with an escaped dollar sign, the text `TM_` and a tab stop with default. -/
theorem rewrite_idempotent_witness :
    (¬ (['$', '{', 'T', 'M', '_'] <:+: "a\\$b TM_ $\x7b1:x\x7d".data) ∧
      ¬ (['\\', '\\', '$'] <:+: "a\\$b TM_ $\x7b1:x\x7d".data)) ∧
    rewrite (rewrite "a\\$b TM_ $\x7b1:x\x7d") = rewrite "a\\$b TM_ $\x7b1:x\x7d" :=
  ⟨⟨by decide, by decide⟩, rewrite_idempotent "a\\$b TM_ $\x7b1:x\x7d" (by decide) (by decide)⟩

/-! ## Claims on `convertSnippets` -/

/-- C2 (evaluation of the code): in a directory whose first file has the scope
`source.x` and whose second file has no scope, the snippet of the second file is stored
under the selector of the first file; the group has no key `*`. -/
theorem snippet_without_scope_after_scoped :
    snippetsBySelector sampleEnv carriedSelectorFiles
      = .ok [(".source.x", [("first", ⟨"t", "c"⟩), ("second", ⟨"u", "d"⟩)])] := by
  rfl

/-- C5: when every record of the directory has a non-empty scope, trigger and body (and
every scope translates), the group exists, `group[s][n]` is the entry made from the last
file whose scope translates to `s` and whose display name is `n`, there is no entry for
any other pair, and no selector key without an entry. -/
theorem snippets_last_file_wins (env : Env) (files : List (String × Option Snippet))
    (hrec : ∀ f ∈ files, skipped f.2 = false ∧ truthy (f.2.getD {}).scope = true)
    (htr : ∀ f ∈ files, ∃ selector,
      env.toCssSelector ((f.2.getD {}).scope.getD "") = .ok selector) :
    ∃ group, snippetsBySelector env files = .ok group ∧
      (∀ s n, entryAt group s n
        = (lastSnippetFor env files s n).map (fun f => snippetEntry (f.2.getD {}))) ∧
      (∀ s properties, Obj.get group s = some properties → properties ≠ []) := by
  obtain ⟨st1, hloop, hentry, hne⟩ := snippetLoop_scoped env files hrec htr ⟨[], none⟩
  refine ⟨st1.snippetsBySelector, by simp only [snippetsBySelector, hloop], ?_, ?_⟩
  · intro s n
    rw [hentry s n]
    cases lastSnippetFor env files s n <;> simp [entryAt, Obj.get]
  · exact hne (fun s m hm => by simp [Obj.get] at hm)

/-- The sample directory of three scoped snippets. -/
theorem snippets_last_file_wins_witness :
    ((∀ f ∈ scopedFiles, skipped f.2 = false ∧ truthy (f.2.getD {}).scope = true) ∧
      (∀ f ∈ scopedFiles, ∃ selector,
        sampleEnv.toCssSelector ((f.2.getD {}).scope.getD "") = .ok selector)) ∧
    ∃ group, snippetsBySelector sampleEnv scopedFiles = .ok group ∧
      (∀ s n, entryAt group s n
        = (lastSnippetFor sampleEnv scopedFiles s n).map
            (fun f => snippetEntry (f.2.getD {}))) ∧
      (∀ s properties, Obj.get group s = some properties → properties ≠ []) :=
  ⟨⟨by decide, fun f _ => ⟨_, rfl⟩⟩,
    snippets_last_file_wins sampleEnv scopedFiles (by decide) (fun f _ => ⟨_, rfl⟩)⟩

/-- The group of the sample directory: the entry `def` comes from the last file, and the
escaped dollar sign of the Python snippet is unescaped. -/
theorem snippetsBySelector_scopedFiles :
    snippetsBySelector sampleEnv scopedFiles
      = .ok [(".source.rb", [("def", ⟨"d", "new"⟩)]),
             (".source.py", [("If", ⟨"if", "if $1:"⟩)])] := by
  rfl

/-- C6: a record whose trigger or body is missing or empty adds nothing: the group of
the directory is the group of the directory without that file. -/
theorem skipped_snippet_adds_nothing (env : Env) (pre post : List (String × Option Snippet))
    (child : String) (file : Option Snippet) (h : skipped file = true) :
    snippetsBySelector env (pre ++ (child, file) :: post)
      = snippetsBySelector env (pre ++ post) := by
  simp only [snippetsBySelector, snippetLoop_append]
  cases snippetLoop env ⟨[], none⟩ pre with
  | error e => rfl
  | ok st => simp only [snippetLoop, snippetStep_skipped env st child h]

/-- A record without trigger between the files of two sample directories. -/
theorem skipped_snippet_adds_nothing_witness :
    skipped (some { scope := some "source.x", content := some "body" }) = true ∧
      snippetsBySelector sampleEnv
          (carriedSelectorFiles ++
            ("no-trigger.tmSnippet", some { scope := some "source.x", content := some "body" })
              :: mixedScopeFiles)
        = snippetsBySelector sampleEnv (carriedSelectorFiles ++ mixedScopeFiles) :=
  ⟨by decide,
    skipped_snippet_adds_nothing sampleEnv carriedSelectorFiles mixedScopeFiles
      "no-trigger.tmSnippet" (some { scope := some "source.x", content := some "body" })
      (by decide)⟩

/-- C7 (counterexample): two records that are not skipped, with different display names
and with the different scopes `source.ruby, source.python` and
`source.ruby | source.python`, which the matcher translates to one selector, are stored
under one and the same selector key: the group is keyed by the translated selector, not
by the scope. -/
theorem snippets_different_scopes_share_key :
    snippetsBySelector alternationEnv alternationFiles
      = .ok [(".source.ruby, .source.python", [("a", ⟨"t", "x"⟩), ("b", ⟨"u", "y"⟩)])] ∧
    (∀ f ∈ alternationFiles, skipped f.2 = false ∧ truthy (f.2.getD {}).scope = true) ∧
    ("source.ruby, source.python" : String) ≠ "source.ruby | source.python" ∧
    alternationEnv.toCssSelector "source.ruby, source.python"
      = .ok ".source.ruby, .source.python" ∧
    alternationEnv.toCssSelector "source.ruby | source.python"
      = .ok ".source.ruby, .source.python" ∧
    alternationEnv.toCssSelector "source.ruby" = sampleEnv.toCssSelector "source.ruby" :=
  ⟨rfl, by decide, by decide, rfl, rfl, rfl⟩

/-- C7 (amended): two records of one directory that are not skipped, have non-empty
scopes and different display names are each stored under the selector key that their
scope translates to; these keys are one and the same when the scopes are equal, and are
two distinct keys exactly when the scopes translate to different selectors. -/
theorem snippets_stored_under_translated_scope (env : Env)
    (files : List (String × Option Snippet)) (f1 f2 : String × Option Snippet)
    (selector1 selector2 : String)
    (htr : ∀ f ∈ files, skipped f.2 = false → truthy (f.2.getD {}).scope = true →
      ∃ selector, env.toCssSelector ((f.2.getD {}).scope.getD "") = .ok selector)
    (h1 : f1 ∈ files) (h2 : f2 ∈ files)
    (hk1 : skipped f1.2 = false) (hk2 : skipped f2.2 = false)
    (_hn : snippetName env f1.1 (f1.2.getD {}) ≠ snippetName env f2.1 (f2.2.getD {}))
    (ht1 : translatesTo env (f1.2.getD {}).scope selector1 = true)
    (ht2 : translatesTo env (f2.2.getD {}).scope selector2 = true) :
    ∃ group, snippetsBySelector env files = .ok group ∧
      (entryAt group selector1 (snippetName env f1.1 (f1.2.getD {}))).isSome = true ∧
      (entryAt group selector2 (snippetName env f2.1 (f2.2.getD {}))).isSome = true ∧
      ((f1.2.getD {}).scope = (f2.2.getD {}).scope → selector1 = selector2) := by
  obtain ⟨st1, hl1, he1⟩ := snippetLoop_stores env files htr f1 h1 hk1 selector1 ht1 ⟨[], none⟩
  obtain ⟨st2, hl2, he2⟩ := snippetLoop_stores env files htr f2 h2 hk2 selector2 ht2 ⟨[], none⟩
  have hst : st2 = st1 := by
    rw [hl1] at hl2
    injection hl2 with h
    exact h.symm
  subst hst
  refine ⟨st2.snippetsBySelector, by simp only [snippetsBySelector, hl1], he1, he2, ?_⟩
  intro hscope
  have e1 := (translatesTo_iff ht1).2
  have e2 := (translatesTo_iff ht2).2
  rw [hscope, e2] at e1
  injection e1 with e1
  exact e1.symm

/-- The Ruby and the Python snippet of the sample directory. -/
theorem snippets_stored_under_translated_scope_witness :
    ((∀ f ∈ scopedFiles, skipped f.2 = false → truthy (f.2.getD {}).scope = true →
        ∃ selector, sampleEnv.toCssSelector ((f.2.getD {}).scope.getD "") = .ok selector) ∧
      rubyFile ∈ scopedFiles ∧ pythonFile ∈ scopedFiles ∧
      skipped rubyFile.2 = false ∧ skipped pythonFile.2 = false ∧
      snippetName sampleEnv rubyFile.1 (rubyFile.2.getD {})
        ≠ snippetName sampleEnv pythonFile.1 (pythonFile.2.getD {}) ∧
      translatesTo sampleEnv (rubyFile.2.getD {}).scope ".source.rb" = true ∧
      translatesTo sampleEnv (pythonFile.2.getD {}).scope ".source.py" = true) ∧
    ∃ group, snippetsBySelector sampleEnv scopedFiles = .ok group ∧
      (entryAt group ".source.rb"
        (snippetName sampleEnv rubyFile.1 (rubyFile.2.getD {}))).isSome = true ∧
      (entryAt group ".source.py"
        (snippetName sampleEnv pythonFile.1 (pythonFile.2.getD {}))).isSome = true ∧
      ((rubyFile.2.getD {}).scope = (pythonFile.2.getD {}).scope →
        ".source.rb" = ".source.py") :=
  ⟨⟨fun _ _ _ _ => ⟨_, rfl⟩, by decide, by decide, by decide, by decide, by decide,
      by decide, by decide⟩,
    snippets_stored_under_translated_scope sampleEnv scopedFiles rubyFile pythonFile
      ".source.rb" ".source.py" (fun _ _ _ _ => ⟨_, rfl⟩) (by decide) (by decide)
      (by decide) (by decide) (by decide) (by decide) (by decide)⟩

/-- Two records with different scopes that the matcher translates to one selector are
stored under one key: the group is keyed by the translated selector, not by the scope. -/
theorem snippets_different_scopes_one_selector (env : Env) (scope1 scope2 selector : String)
    (h1 : scope1 ≠ "") (h2 : scope2 ≠ "")
    (e1 : env.toCssSelector scope1 = .ok selector)
    (e2 : env.toCssSelector scope2 = .ok selector) :
    snippetsBySelector env
        [("1", some { scope := some scope1, name := some "a", tabTrigger := some "t",
                      content := some "x" }),
         ("2", some { scope := some scope2, name := some "b", tabTrigger := some "u",
                      content := some "y" })]
      = .ok [(selector, [("a", snippetEntry { tabTrigger := some "t", content := some "x" }),
                         ("b", snippetEntry { tabTrigger := some "u", content := some "y" })])] := by
  have hs1 : truthy (some scope1) = true := by simpa [truthy] using h1
  have hs2 : truthy (some scope2) = true := by simpa [truthy] using h2
  have step1 := @snippetStep_scoped env ⟨[], none⟩ "1"
    (some { scope := some scope1, name := some "a", tabTrigger := some "t",
            content := some "x" }) selector (by simp [skipped, truthy]) hs1 e1
  have step2 := @snippetStep_scoped env
    ⟨insertSnippet [] selector "a" (snippetEntry { tabTrigger := some "t", content := some "x" }),
      some selector⟩ "2"
    (some { scope := some scope2, name := some "b", tabTrigger := some "u",
            content := some "y" }) selector (by simp [skipped, truthy]) hs2 e2
  simp only [Option.getD_some, snippetName, snippetEntry] at step1 step2
  simp only [snippetsBySelector, snippetLoop, step1, step2, snippetEntry, Option.getD_some]
  simp [insertSnippet, Obj.get, Obj.set]

/-! ## Claims on `convertSettings` and `convertPreferences` -/

/-- C1: in `convertPreferences`, when the scope of every contributing file translates,
the group exists and, for every selector and every key `k`, `group[selector].editor[k]`
is the value of `k` in the first file, among the files of the listing whose scope
translates to that selector, whose projected settings contain `k`; and `k` is a key of
`group[selector].editor` exactly when one of these files has it in its projection. -/
theorem preferences_first_file_wins (env : Env)
    (files : List (String × Option Preference))
    (htr : ∀ f ∈ files, contributes f.2 = true →
      ∃ selector, env.toCssSelector ((f.2.getD {}).scope.getD "") = .ok selector) :
    ∃ group, preferencesBySelector env files = .ok group ∧
      (∀ selector k,
        editorValue group selector k = firstValueFor env files selector k) ∧
      (∀ selector k, (editorValue group selector k).isSome = true ↔
        ∃ f ∈ preferenceFilesFor env files selector,
          (Obj.get (projectedSettings f.2) k).isSome = true) := by
  obtain ⟨group, hloop, hv⟩ := preferenceLoop_spec env files htr []
    (fun s key editor h => by simp [entryAt, Obj.get] at h)
  have hval : ∀ selector k,
      editorValue group selector k = firstValueFor env files selector k := by
    intro selector k
    rw [hv selector k]
    simp [editorValue, entryAt, Obj.get]
  refine ⟨group, hloop, hval, fun selector k => ?_⟩
  rw [hval selector k, firstValueFor, List.findSome?_isSome_iff]

/-- The directory of the specification: A then B gives `commentStart` of A and
`commentEnd` of B. -/
theorem preferences_first_file_wins_witness :
    (∀ f ∈ commentFiles, contributes f.2 = true →
      ∃ selector, sampleEnv.toCssSelector ((f.2.getD {}).scope.getD "") = .ok selector) ∧
    (∃ group, preferencesBySelector sampleEnv commentFiles = .ok group ∧
      (∀ selector k,
        editorValue group selector k = firstValueFor sampleEnv commentFiles selector k) ∧
      (∀ selector k, (editorValue group selector k).isSome = true ↔
        ∃ f ∈ preferenceFilesFor sampleEnv commentFiles selector,
          (Obj.get (projectedSettings f.2) k).isSome = true)) ∧
    preferencesBySelector sampleEnv commentFiles
      = .ok [(".source.x",
          [("editor", [("commentStart", Val.str "#"), ("commentEnd", Val.str "*/")])])] :=
  ⟨fun _ _ _ => ⟨_, rfl⟩,
    preferences_first_file_wins sampleEnv commentFiles (fun _ _ _ => ⟨_, rfl⟩), rfl⟩

/-- C4 (counterexample): with two `TM_COMMENT_START` pairs, `#` first and `//` second,
`commentStart` is `//`, the value of the second pair, and not the value of the first. -/
theorem shellVariables_first_occurrence_lost :
    (duplicateShellVariables.head?.bind (fun v => v.value)) = some (Val.str "#") ∧
      Obj.get (shellVariablesObject duplicateShellVariables) "TM_COMMENT_START"
        = some (some (Val.str "//")) ∧
      convertSettings { shellVariables := some duplicateShellVariables }
        = some [("editor", [("commentStart", Val.str "//")])] ∧
      Obj.get (editorProperties { shellVariables := some duplicateShellVariables })
          "commentStart"
        ≠ duplicateShellVariables.head?.bind (fun v => v.value) :=
  ⟨rfl, rfl, rfl, fun h => by
    have h2 : some (Val.str "//") = some (Val.str "#") := h
    injection h2 with h2
    injection h2 with h2
    exact absurd h2 (by decide)⟩

/-- C4 (amended): `convertSettings` turns `settings.shellVariables` into an object in
which every name has the value of its last pair in the sequence; hence `commentStart`
is the value of the last `TM_COMMENT_START` pair (and is absent when that value is
`null` or `undefined`). -/
theorem shellVariables_last_occurrence_wins (settings : Settings)
    (vars : List ShellVariable) (name : String)
    (h : settings.shellVariables = some vars) :
    Obj.get (shellVariablesObject vars) name
        = (vars.reverse.find? (fun v => v.name == name)).map (fun v => v.value) ∧
      Obj.get (editorProperties settings) "commentStart"
        = present ((vars.reverse.find? (fun v => v.name == "TM_COMMENT_START")).bind
            (fun v => v.value)) := by
  have hget : ∀ n, Obj.get (shellVariablesObject vars) n
      = (vars.reverse.find? (fun v => v.name == n)).map (fun v => v.value) := by
    intro n
    unfold shellVariablesObject
    rw [get_foldl_set (fun v : ShellVariable => v.name) (fun v => v.value)]
    cases List.find? (fun v => v.name == n) vars.reverse <;> simp [Obj.get]
  refine ⟨hget name, ?_⟩
  unfold editorProperties
  rw [get_compactObject _ _ (by simp only [List.map_cons, List.map_nil]; decide)]
  simp only [Obj.get, if_true, Option.join]
  rw [shellVariable_eq settings vars _ h, hget]
  simp only [Option.some_bind, id, present_present]
  cases List.find? (fun v => v.name == "TM_COMMENT_START") vars.reverse <;> rfl

/-- The shell variables with two `TM_COMMENT_START` pairs. -/
theorem shellVariables_last_occurrence_wins_witness :
    (({ shellVariables := some duplicateShellVariables } : Settings).shellVariables
        = some duplicateShellVariables) ∧
      (Obj.get (shellVariablesObject duplicateShellVariables) "TM_COMMENT_START"
          = (duplicateShellVariables.reverse.find?
              (fun v => v.name == "TM_COMMENT_START")).map (fun v => v.value) ∧
        Obj.get (editorProperties { shellVariables := some duplicateShellVariables })
            "commentStart"
          = present ((duplicateShellVariables.reverse.find?
              (fun v => v.name == "TM_COMMENT_START")).bind (fun v => v.value))) :=
  ⟨rfl, shellVariables_last_occurrence_wins _ duplicateShellVariables "TM_COMMENT_START" rfl⟩

/-! ## Claims on `convertSettings`, on the files that contribute and on `writeFileSync` -/

/-- C11: `convertSettings` projects the settings onto the recognized keys.  Each of
`commentStart`, `commentEnd`, `increaseIndentPattern`, `decreaseIndentPattern`,
`foldEndPattern`, `completions` has the value of its source (`TM_COMMENT_START` and
`TM_COMMENT_END` of the shell variables, the property of the same name, and
`foldingStopMarker` for `foldEndPattern`) when that value is neither `null` nor
`undefined`, and is absent otherwise; no other key is in the projection, whatever other
properties the settings have; and the result is `{editor: projection}` when the
projection is not empty, and nothing when it is. -/
theorem convertSettings_projects_recognized (settings : Settings) :
    (∀ k, Obj.get (editorProperties settings) k
      = if k = "commentStart" then
          present (normalizedShellVariable settings "TM_COMMENT_START")
        else if k = "commentEnd" then
          present (normalizedShellVariable settings "TM_COMMENT_END")
        else if k = "increaseIndentPattern" then present settings.increaseIndentPattern
        else if k = "decreaseIndentPattern" then present settings.decreaseIndentPattern
        else if k = "foldEndPattern" then present settings.foldingStopMarker
        else if k = "completions" then present settings.completions
        else none) ∧
      (∀ k ∈ (editorProperties settings).map Prod.fst, k ∈ recognizedKeys) ∧
      (∀ k v, Obj.get (editorProperties settings) k = some v → v ≠ Val.null) ∧
      (∀ others, convertSettings { settings with others := others }
        = convertSettings settings) ∧
      (editorProperties settings = [] → convertSettings settings = none) ∧
      (editorProperties settings ≠ [] →
        convertSettings settings = some [("editor", editorProperties settings)]) := by
  refine ⟨get_editorProperties settings, ?_, ?_, fun others => rfl, ?_, ?_⟩
  · intro k hk
    by_contra hn
    have hget := get_editorProperties settings k
    simp only [recognizedKeys, List.mem_cons, List.mem_singleton, List.not_mem_nil,
      or_false, not_or] at hn
    simp only [hn.1, hn.2.1, hn.2.2.1, hn.2.2.2.1, hn.2.2.2.2.1, hn.2.2.2.2.2,
      if_false] at hget
    obtain ⟨kv, hmem, rfl⟩ := List.mem_map.mp hk
    have := Obj.get_of_mem_nodup _ (nodup_editorProperties settings) kv hmem
    rw [this] at hget
    exact absurd hget (by simp)
  · intro k v hv hnull
    subst hnull
    rw [get_editorProperties] at hv
    have hp : ∀ x : Option Val, present x ≠ some Val.null := by
      intro x
      cases x with
      | none => simp [present]
      | some w => cases w <;> simp [present]
    split_ifs at hv <;> exact hp _ hv
  · intro h
    simp [convertSettings, h]
  · intro h
    unfold convertSettings
    cases he : editorProperties settings with
    | nil => exact absurd he h
    | cons x rest => rfl

/-- C12 (counterexample): two files with the same scope that both set only
`commentStart`.  Each has a scope, settings and a non-empty projection, but the second
adds nothing: the group is the group of the first file alone. -/
theorem preference_file_may_add_nothing :
    (∀ f ∈ repeatedCommentFiles, contributes f.2 = true) ∧
      preferencesBySelector sampleEnv repeatedCommentFiles
        = preferencesBySelector sampleEnv (repeatedCommentFiles.take 1) ∧
      preferencesBySelector sampleEnv repeatedCommentFiles
        = .ok [(".source.x", [("editor", [("commentStart", Val.str "#")])])] :=
  ⟨by decide, rfl, rfl⟩

/-- C12 (amended): a preferences file whose record lacks a scope or settings, or whose
projection by `convertSettings` is empty, contributes nothing: the group of the
directory is the group of the directory without that file.  A file with a scope,
settings and a non-empty projection is merged under the selector of its scope: the
group has that selector with an `editor` object in which every key of the projection is
present (a key stored by an earlier file keeps its value, so such a file may also leave
the group as it was). -/
theorem preference_file_contribution (env : Env)
    (pre post : List (String × Option Preference)) (child : String)
    (file : Option Preference) :
    (contributes file = false →
      preferencesBySelector env (pre ++ (child, file) :: post)
        = preferencesBySelector env (pre ++ post)) ∧
    (contributes file = true →
      (∀ f ∈ pre ++ (child, file) :: post, contributes f.2 = true →
        ∃ selector, env.toCssSelector ((f.2.getD {}).scope.getD "") = .ok selector) →
      ∃ selector group,
        env.toCssSelector ((file.getD {}).scope.getD "") = .ok selector ∧
        preferencesBySelector env (pre ++ (child, file) :: post) = .ok group ∧
        projectedSettings file ≠ [] ∧
        ∀ k, (Obj.get (projectedSettings file) k).isSome = true →
          (editorValue group selector k).isSome = true) := by
  constructor
  · intro h
    simp only [preferencesBySelector, preferenceLoop_append]
    cases preferenceLoop env [] pre with
    | error e => rfl
    | ok group => simp only [preferenceLoop, preferenceStep_of_not_contributes env group h]
  · intro h htr
    obtain ⟨selector, hsel⟩ := htr (child, file) (by simp) h
    obtain ⟨group, hloop, hv⟩ := preferenceLoop_spec env _ htr []
      (fun s key editor h => by simp [entryAt, Obj.get] at h)
    have hc := h
    unfold contributes at hc
    rw [Bool.and_eq_true] at hc
    refine ⟨selector, group, hsel, hloop, ?_, ?_⟩
    · cases hset : (file.getD {}).settings with
      | none => simp [hset] at hc
      | some settings =>
        have h2 := hc.2
        simp only [hset, convertSettings] at h2
        simp only [projectedSettings, hset]
        intro hempty
        simp [hempty] at h2
    · intro k hk
      rw [hv selector k]
      have hfirst : (firstValueFor env (pre ++ (child, file) :: post) selector k).isSome
          = true := by
        rw [firstValueFor, List.findSome?_isSome_iff]
        refine ⟨(child, file), ?_, hk⟩
        simp only [preferenceFilesFor, List.mem_filter]
        refine ⟨by simp, ?_⟩
        simp [translatesTo, hc.1, hsel]
      cases hfv : firstValueFor env (pre ++ (child, file) :: post) selector k with
      | none => simp [hfv] at hfirst
      | some v => cases editorValue [] selector k <;> simp

/-- The directory of the specification with a record without settings in the middle:
that record adds nothing, and file B is merged under `.source.x`. -/
theorem preference_file_contribution_witness :
    (contributes (some { scope := some "source.x" }) = false ∧
      preferencesBySelector sampleEnv
          (commentFiles.take 1 ++
            ("empty.tmPreferences", some { scope := some "source.x" }) ::
              commentFiles.drop 1)
        = preferencesBySelector sampleEnv (commentFiles.take 1 ++ commentFiles.drop 1)) ∧
    (contributes (commentFiles.drop 1).head!.2 = true ∧
      ∃ selector group,
        sampleEnv.toCssSelector
            (((commentFiles.drop 1).head!.2.getD {}).scope.getD "") = .ok selector ∧
        preferencesBySelector sampleEnv
            (commentFiles.take 1 ++
              ((commentFiles.drop 1).head!.1, (commentFiles.drop 1).head!.2) :: [])
          = .ok group ∧
        projectedSettings (commentFiles.drop 1).head!.2 ≠ [] ∧
        ∀ k, (Obj.get (projectedSettings (commentFiles.drop 1).head!.2) k).isSome = true →
          (editorValue group selector k).isSome = true) :=
  ⟨⟨by decide,
      (preference_file_contribution sampleEnv (commentFiles.take 1) (commentFiles.drop 1)
        "empty.tmPreferences" (some { scope := some "source.x" })).1 (by decide)⟩,
    ⟨by decide,
      (preference_file_contribution sampleEnv (commentFiles.take 1) []
        (commentFiles.drop 1).head!.1 (commentFiles.drop 1).head!.2).2 (by decide)
        (fun _ _ _ => ⟨_, rfl⟩)⟩⟩

/-- C13: when `writeFileSync` calls the serializer for a mapping `m`, the mapping it
hands over has no `uuid` key and no `keyEquivalent` key, and it has every other key of
`m`, in the same order and with the same value. -/
theorem serialized_mapping_frame {α : Type} (m : Obj α) (filePath target : String)
    (handed : Obj α) (h : serializerCall filePath (some m) = some (target, handed)) :
    target = filePath ∧
      Obj.get handed "uuid" = none ∧ Obj.get handed "keyEquivalent" = none ∧
      (∀ k, k ≠ "uuid" → k ≠ "keyEquivalent" → Obj.get handed k = Obj.get m k) ∧
      handed.map Prod.fst
        = (m.map Prod.fst).filter (fun k => k != "uuid" && k != "keyEquivalent") := by
  unfold serializerCall at h
  split_ifs at h
  injection h with h
  injection h with h1 h2
  subst h1 h2
  refine ⟨rfl, ?_, ?_, ?_, keys_filterObject _⟩
  · simp [get_filterObject]
  · simp [get_filterObject]
  · intro k h1 h2
    simp [get_filterObject, h1, h2]

/-- A grammar with the two opaque keys at the top and one `uuid` inside a nested value:
only the keys at the top are removed. -/
theorem serialized_mapping_frame_witness :
    serializerCall "grammars/x.cson"
        (some [("uuid", Val.str "1"), ("name", Val.str "X"), ("keyEquivalent", Val.str "^~X"),
               ("repository", Val.obj [("uuid", Val.str "2")])])
      = some ("grammars/x.cson",
          [("name", Val.str "X"), ("repository", Val.obj [("uuid", Val.str "2")])]) ∧
    ("grammars/x.cson" = "grammars/x.cson" ∧
      Obj.get [("name", Val.str "X"), ("repository", Val.obj [("uuid", Val.str "2")])] "uuid"
        = none ∧
      Obj.get [("name", Val.str "X"), ("repository", Val.obj [("uuid", Val.str "2")])]
        "keyEquivalent" = none ∧
      (∀ k, k ≠ "uuid" → k ≠ "keyEquivalent" →
        Obj.get [("name", Val.str "X"), ("repository", Val.obj [("uuid", Val.str "2")])] k
          = Obj.get [("uuid", Val.str "1"), ("name", Val.str "X"),
              ("keyEquivalent", Val.str "^~X"),
              ("repository", Val.obj [("uuid", Val.str "2")])] k) ∧
      List.map Prod.fst
          [("name", Val.str "X"), ("repository", Val.obj [("uuid", Val.str "2")])]
        = (List.map Prod.fst [("uuid", Val.str "1"), ("name", Val.str "X"),
              ("keyEquivalent", Val.str "^~X"),
              ("repository", Val.obj [("uuid", Val.str "2")])]).filter
            (fun k => k != "uuid" && k != "keyEquivalent")) :=
  ⟨rfl, serialized_mapping_frame _ "grammars/x.cson" "grammars/x.cson" _ rfl⟩

/-- C14: `writeFileSync` calls the serializer exactly when the mapping has a key other
than `uuid` and `keyEquivalent`; then the filtered mapping is written at the path, and
otherwise nothing is written and the files are as before.  An absent mapping, an empty
mapping and a mapping with only `uuid` write nothing. -/
theorem writeFileSync_writes_iff {α : Type} (disk : Obj (Obj α)) (filePath : String)
    (object : Option (Obj α)) :
    ((serializerCall filePath object).isSome = true ↔
      ∃ k ∈ (object.getD []).map Prod.fst, k ≠ "uuid" ∧ k ≠ "keyEquivalent") ∧
    ((serializerCall filePath object).isSome = true →
      writeFileSync disk filePath object
        = Obj.set disk filePath (filterObject (object.getD []))) ∧
    ((serializerCall filePath object).isSome = false →
      writeFileSync disk filePath object = disk) ∧
    writeFileSync disk filePath none = disk ∧
    writeFileSync disk filePath (some []) = disk ∧
    (∀ v, writeFileSync disk filePath (some [("uuid", v)]) = disk) := by
  refine ⟨?_, ?_, ?_, rfl, rfl, fun v => rfl⟩
  · unfold serializerCall
    have hlen : (filterObject (object.getD [])).length
        = ((filterObject (object.getD [])).map Prod.fst).length := by simp
    rw [hlen, keys_filterObject]
    constructor
    · intro h
      split_ifs at h with hpos
      swap
      · simp at h
      obtain ⟨k, hk⟩ := List.exists_mem_of_length_pos hpos
      rw [List.mem_filter] at hk
      refine ⟨k, hk.1, ?_⟩
      simpa using hk.2
    · rintro ⟨k, hk, h1, h2⟩
      have hmem : k ∈ List.filter (fun k => k != "uuid" && k != "keyEquivalent")
          (List.map Prod.fst (object.getD [])) := by
        rw [List.mem_filter]
        exact ⟨hk, by simp [h1, h2]⟩
      rw [if_pos (List.length_pos_of_mem hmem)]
      rfl
  · intro h
    unfold writeFileSync
    unfold serializerCall at h ⊢
    split_ifs at h ⊢ with hpos
    · rfl
    · simp at h
  · intro h
    unfold writeFileSync
    unfold serializerCall at h ⊢
    split_ifs at h ⊢ with hpos
    · simp at h
    · rfl


/-! ## Claims on `normalizeFilenames`

A directory is a list of entry names; `fs.renameSync` onto an existing name would
replace that entry (`renameEntry` removes it), so that the number of entries is a real
statement.  The theorems on whole directories assume what a directory listing gives:
pairwise different names.  Of `path` they assume that the stem of a name followed by
its extension is the name, for the names without forbidden character (which have no
separator), and of `toLowerCase` that it does not shorten a string. -/

theorem hasNoForbidden_iff (name : String) :
    hasNoForbidden name = true ↔ ∀ c ∈ name.data, c ∉ forbiddenCharacters := by
  simp only [hasNoForbidden, List.all_eq_true, forbiddenCharacters, isForbidden]
  constructor
  · intro h c hc
    have := h c hc
    simp only [Bool.not_eq_true', Bool.or_eq_false_iff, beq_eq_false_iff_ne] at this
    simp only [List.mem_cons, List.mem_singleton, List.not_mem_nil, or_false, not_or]
    tauto
  · intro h c hc
    have := h c hc
    simp only [List.mem_cons, List.mem_singleton, List.not_mem_nil, or_false, not_or] at this
    simp only [Bool.not_eq_true', Bool.or_eq_false_iff, beq_eq_false_iff_ne]
    tauto

/-- C15: on a directory with pairwise different names `normalizeFilenames` returns, the
directory has as many entries after it as before, the names are pairwise different, and
every step that renames an entry renames it to a name that is not taken at that
moment. -/
theorem normalizeFilenames_keeps_entries (env : Env)
    (hstem : ∀ n, hasNoForbidden n = true →
      env.basename n (env.extname n) ++ env.extname n = n)
    (hlower : ∀ s : String, s.length ≤ (env.toLowerCase s).length)
    (fs : FileSystem) (directoryPath : String)
    (hnd : (entriesOf fs directoryPath).Nodup) :
    (∃ fs1, normalizeFilenames env fs directoryPath = some fs1 ∧
      (entriesOf fs1 directoryPath).length = (entriesOf fs directoryPath).length ∧
      (entriesOf fs1 directoryPath).Nodup) ∧
    (∀ fs0 child fs2, normalizeStep env fs0 directoryPath child = some fs2 →
      fs2 = fs0 ∨ ∃ name, nameTaken env fs0 directoryPath name = false ∧
        name ∉ entriesOf fs0 directoryPath ∧
        fs2 = Obj.set fs0 directoryPath
          (renameEntry (entriesOf fs0 directoryPath) child name)) := by
  obtain ⟨fs1, h, hlen, hnd1, _, _⟩ :=
    normalizeFilenames_spec env hstem hlower fs directoryPath hnd
  refine ⟨⟨fs1, h, hlen, hnd1⟩, ?_⟩
  intro fs0 child fs2 hstep
  rcases normalizeStep_cases env fs0 fs2 directoryPath child hstep with h | ⟨n, h1, h2, _, h4⟩
  · exact Or.inl h
  · exact Or.inr ⟨n, h1, h2, h4⟩

/-- The directory with `a.cson` and `a*.cson`: both survive, as `a.cson` and
`a-.cson`. -/
theorem normalizeFilenames_keeps_entries_witness :
    (entriesOf collidingDirectory "/pkg/snippets").Nodup ∧
    ((∃ fs1, normalizeFilenames sampleEnv collidingDirectory "/pkg/snippets" = some fs1 ∧
      (entriesOf fs1 "/pkg/snippets").length
        = (entriesOf collidingDirectory "/pkg/snippets").length ∧
      (entriesOf fs1 "/pkg/snippets").Nodup) ∧
    (∀ fs0 child fs2, normalizeStep sampleEnv fs0 "/pkg/snippets" child = some fs2 →
      fs2 = fs0 ∨ ∃ name, nameTaken sampleEnv fs0 "/pkg/snippets" name = false ∧
        name ∉ entriesOf fs0 "/pkg/snippets" ∧
        fs2 = Obj.set fs0 "/pkg/snippets"
          (renameEntry (entriesOf fs0 "/pkg/snippets") child name))) ∧
    normalizeFilenames sampleEnv collidingDirectory "/pkg/snippets"
      = some [("/pkg/snippets", ["a.cson", "a-.cson"])] :=
  ⟨by decide,
   normalizeFilenames_keeps_entries sampleEnv sampleEnv_stem sampleEnv_lower
     collidingDirectory "/pkg/snippets" (by decide),
   by decide⟩

/-- C16: after `normalizeFilenames` has run on a directory with pairwise different
names, no entry name of the directory contains one of the nine forbidden characters. -/
theorem normalizeFilenames_removes_forbidden (env : Env)
    (hstem : ∀ n, hasNoForbidden n = true →
      env.basename n (env.extname n) ++ env.extname n = n)
    (hlower : ∀ s : String, s.length ≤ (env.toLowerCase s).length)
    (fs : FileSystem) (directoryPath : String)
    (hnd : (entriesOf fs directoryPath).Nodup) :
    ∃ fs1, normalizeFilenames env fs directoryPath = some fs1 ∧
      ∀ e ∈ entriesOf fs1 directoryPath, ∀ c ∈ e.data, c ∉ forbiddenCharacters := by
  obtain ⟨fs1, h, _, _, hclean, _⟩ :=
    normalizeFilenames_spec env hstem hlower fs directoryPath hnd
  exact ⟨fs1, h, fun e he => (hasNoForbidden_iff e).mp (hclean e he)⟩

/-- The directory with `Foo:Bar.cson`: the entry becomes `Foo-Bar.cson`. -/
theorem normalizeFilenames_removes_forbidden_witness :
    (entriesOf colonDirectory "/pkg/grammars").Nodup ∧
    (∃ fs1, normalizeFilenames sampleEnv colonDirectory "/pkg/grammars" = some fs1 ∧
      ∀ e ∈ entriesOf fs1 "/pkg/grammars", ∀ c ∈ e.data, c ∉ forbiddenCharacters) ∧
    normalizeFilenames sampleEnv colonDirectory "/pkg/grammars"
      = some [("/pkg/grammars", ["Foo-Bar.cson"])] :=
  ⟨by decide,
   normalizeFilenames_removes_forbidden sampleEnv sampleEnv_stem sampleEnv_lower
     colonDirectory "/pkg/grammars" (by decide),
   by decide⟩


/-- C17, counterexample: `my  file.cson` has no forbidden character, so the test that
follows the first replacement leaves it alone, although the two replacements together
give `my-file.cson`. -/
theorem normalizeFilenames_keeps_spaced_name :
    normalizeFilenames sampleEnv spacedDirectory "/pkg/snippets" = some spacedDirectory ∧
    entriesOf spacedDirectory "/pkg/snippets" = ["my  file.cson"] ∧
    sanitizedName "my  file.cson" = "my-file.cson" := by
  decide

/-- C17, amended: the name computed for an entry is the entry's name with each run of
forbidden characters replaced by one hyphen and then each run of whitespace and hyphens
replaced by one hyphen; an entry without forbidden character is left alone whatever
its whitespace, and an entry with one is renamed to the computed name when that name is
free. -/
theorem normalizeStep_collapses_after_replacement (env : Env) (fs : FileSystem)
    (directoryPath child : String) :
    sanitizedName child
      = String.mk (collapseRuns isSpaceOrHyphen (collapseRuns isForbidden child.data)) ∧
    (hasNoForbidden child = true → normalizeStep env fs directoryPath child = some fs) ∧
    (hasNoForbidden child = false → child ∈ entriesOf fs directoryPath →
      nameTaken env fs directoryPath (sanitizedName child) = false →
      normalizeStep env fs directoryPath child
        = some (Obj.set fs directoryPath
            (renameEntry (entriesOf fs directoryPath) child (sanitizedName child)))) := by
  refine ⟨?_, fun h => normalizeStep_of_clean env fs directoryPath h, ?_⟩
  · simp only [sanitizedName, collapseSpaces, replaceForbidden, forbiddenExpression,
      spaceOrHyphenExpression, replaceByHyphen_collapseRuns]
  · intro h hmem hfree
    have hc : ¬ child = replaceForbidden child := by
      intro e
      rw [(replaceForbidden_eq_iff child).mp e] at h
      exact absurd h (by simp)
    rw [normalizeStep, if_neg hc]
    simp only [freeName, hfree, renameSync, (contains_eq_true_iff _ _).mpr hmem]
    rfl

/-- The entry `my : file.cson` is renamed to `my-file.cson`. -/
theorem normalizeStep_collapses_after_replacement_witness :
    hasNoForbidden "my : file.cson" = false ∧
    "my : file.cson" ∈ entriesOf spacedColonDirectory "/pkg/snippets" ∧
    nameTaken sampleEnv spacedColonDirectory "/pkg/snippets"
      (sanitizedName "my : file.cson") = false ∧
    normalizeStep sampleEnv spacedColonDirectory "/pkg/snippets" "my : file.cson"
      = some (Obj.set spacedColonDirectory "/pkg/snippets"
          (renameEntry (entriesOf spacedColonDirectory "/pkg/snippets") "my : file.cson"
            (sanitizedName "my : file.cson"))) ∧
    sanitizedName "my : file.cson" = "my-file.cson" :=
  ⟨by decide, by decide, by decide,
   (normalizeStep_collapses_after_replacement sampleEnv spacedColonDirectory
      "/pkg/snippets" "my : file.cson").2.2 (by decide) (by decide) (by decide),
   by decide⟩

/-- C18: on a directory with pairwise different names `normalizeFilenames` returns, and
run again on the file system it has left it returns that file system. -/
theorem normalizeFilenames_idempotent (env : Env)
    (hstem : ∀ n, hasNoForbidden n = true →
      env.basename n (env.extname n) ++ env.extname n = n)
    (hlower : ∀ s : String, s.length ≤ (env.toLowerCase s).length)
    (fs : FileSystem) (directoryPath : String)
    (hnd : (entriesOf fs directoryPath).Nodup) :
    ∃ fs1, normalizeFilenames env fs directoryPath = some fs1 ∧
      normalizeFilenames env fs1 directoryPath = some fs1 := by
  obtain ⟨fs1, h, _, _, hclean, _⟩ :=
    normalizeFilenames_spec env hstem hlower fs directoryPath hnd
  refine ⟨fs1, h, ?_⟩
  cases hdir : Obj.get fs1 directoryPath with
  | none => simp only [normalizeFilenames, hdir]
  | some children =>
    have hE : entriesOf fs1 directoryPath = children := by simp [entriesOf, hdir]
    simp only [normalizeFilenames, hdir]
    exact normalizeLoop_of_clean env directoryPath fs1 children (hE ▸ hclean)

/-- The directory with `Foo:Bar.cson`: the second run renames nothing. -/
theorem normalizeFilenames_idempotent_witness :
    (entriesOf colonDirectory "/pkg/grammars").Nodup ∧
    (∃ fs1, normalizeFilenames sampleEnv colonDirectory "/pkg/grammars" = some fs1 ∧
      normalizeFilenames sampleEnv fs1 "/pkg/grammars" = some fs1) ∧
    normalizeFilenames sampleEnv [("/pkg/grammars", ["Foo-Bar.cson"])] "/pkg/grammars"
      = some [("/pkg/grammars", ["Foo-Bar.cson"])] :=
  ⟨by decide,
   normalizeFilenames_idempotent sampleEnv sampleEnv_stem sampleEnv_lower
     colonDirectory "/pkg/grammars" (by decide),
   by decide⟩

/-- C19: with `A-B.cson` in the directory, the entry `a:b.cson` is renamed to
`a-b.cson`: only the candidate is lower-cased, not the names it is compared with, so
the two names of the directory are equal up to letter case. -/
theorem normalizeFilenames_case_collision :
    normalizeFilenames sampleEnv caseDirectory "/out/grammars"
      = some [("/out/grammars", ["A-B.cson", "a-b.cson"])] ∧
    sampleEnv.toLowerCase "A-B.cson" = sampleEnv.toLowerCase "a-b.cson" ∧
    "A-B.cson" ≠ "a-b.cson" ∧
    sampleEnv.toLowerCase "/out/grammars" = "/out/grammars" := by
  decide

/-- C20: with `x-y.cson` and `x-y-1.cson` taken, the entry `x:y.cson` is renamed to
`x-y-1-2.cson`, while `x-y-2.cson` is free: each candidate is built from the previous
candidate, not from the sanitized name. -/
theorem normalizeFilenames_suffix_accumulates :
    normalizeFilenames sampleEnv suffixDirectory "/out/snippets"
      = some [("/out/snippets", ["x-y.cson", "x-y-1.cson", "x-y-1-2.cson"])] ∧
    sanitizedName "x:y.cson" = "x-y.cson" ∧
    nameTaken sampleEnv suffixDirectory "/out/snippets" "x-y-2.cson" = false ∧
    nextName sampleEnv (nextName sampleEnv "x-y.cson" 1) 2 = "x-y-1-2.cson" := by
  decide


/-! ## Claims on `convertGrammars`

Of `toLowerCase` the theorems assume that it leaves the text `.cson` at the end of a
string as it is, so that lower-casing the file name and lower-casing its stem agree. -/

theorem exists_of_toBool {α : Type} (r : Except JsError α) (h : r.toBool = true) :
    ∃ value, r = .ok value := by
  cases r with
  | ok value => exact ⟨value, rfl⟩
  | error e => simp [Except.toBool] at h

/-- C21: when the syntaxes directory exists and its files are read without error,
`convertGrammars` writes, for every entry that is a regular file with a record that has
a key other than `uuid` and `keyEquivalent`, that record without these two top-level
keys to `grammars/<stem>.cson`, the stem being the lower-cased file name without its
extension; it writes nothing else, so a sub-directory yields nothing, and the value of
every other key of a written record is the one of the source. -/
theorem convertGrammars_writes_each_record (env : Env) (bundle : Bundle)
    (destinationPath source sourceSyntaxes : String)
    (hcson : ∀ s, env.toLowerCase (s ++ ".cson") = env.toLowerCase s ++ ".cson")
    (hdir : sourceDirectory env bundle source "syntaxes" "Syntaxes" = some sourceSyntaxes)
    (hread : ∀ child ∈ bundle.readdirSync sourceSyntaxes,
      bundle.isFileSync (env.join sourceSyntaxes child) = true →
      (readFileSync env bundle (env.join sourceSyntaxes child)).toBool = true) :
    convertGrammars env bundle destinationPath source
      = ⟨(bundle.readdirSync sourceSyntaxes).flatMap
            (expectedGrammarWrites env bundle sourceSyntaxes
              (env.join destinationPath "grammars"))
          ++ [Action.normalize (env.join destinationPath "grammars")], none⟩ ∧
    (∀ child, bundle.isFileSync (env.join sourceSyntaxes child) = false →
      expectedGrammarWrites env bundle sourceSyntaxes
        (env.join destinationPath "grammars") child = []) ∧
    (∀ (record : Obj Val) (key : String), key ≠ "uuid" → key ≠ "keyEquivalent" →
      Obj.get (filterObject record) key = Obj.get record key) ∧
    (∀ record : Obj Val, Obj.get (filterObject record) "uuid" = none ∧
      Obj.get (filterObject record) "keyEquivalent" = none) := by
  refine ⟨?_, ?_, ?_, ?_⟩
  · have hloop := convertGrammarsLoop_of_reads env bundle hcson sourceSyntaxes
      (env.join destinationPath "grammars") (bundle.readdirSync sourceSyntaxes)
      (fun child hc hf => exists_of_toBool _ (hread child hc hf))
    simp only [convertGrammars, hdir, hloop, andThen_ok]
  · exact fun child hf =>
      expectedGrammarWrites_of_not_file env bundle sourceSyntaxes _ child hf
  · intro record key h1 h2
    rw [get_filterObject, if_neg (by simp [h1, h2])]
  · intro record
    constructor <;> rw [get_filterObject] <;> simp

/-- The bundle with a grammar, a sub-directory, a text file and a record that has only a
`uuid`: one file is written, `grammars/ruby.cson`, without the `uuid`. -/
theorem convertGrammars_writes_each_record_witness :
    (∀ s, sampleEnv.toLowerCase (s ++ ".cson") = sampleEnv.toLowerCase s ++ ".cson") ∧
    sourceDirectory sampleEnv grammarBundle "/bundle" "syntaxes" "Syntaxes"
      = some "/bundle/Syntaxes" ∧
    (convertGrammars sampleEnv grammarBundle "/out/pkg" "/bundle"
      = ⟨(grammarBundle.readdirSync "/bundle/Syntaxes").flatMap
            (expectedGrammarWrites sampleEnv grammarBundle "/bundle/Syntaxes"
              (sampleEnv.join "/out/pkg" "grammars"))
          ++ [Action.normalize (sampleEnv.join "/out/pkg" "grammars")], none⟩) ∧
    convertGrammars sampleEnv grammarBundle "/out/pkg" "/bundle"
      = ⟨[Action.write "/out/pkg/grammars/ruby.cson"
            (Serialized.grammar
              [("name", Val.str "Ruby"), ("scopeName", Val.str "source.ruby")]),
          Action.normalize "/out/pkg/grammars"], none⟩ :=
  ⟨sampleEnv_cson, rfl,
   (convertGrammars_writes_each_record sampleEnv grammarBundle "/out/pkg" "/bundle"
      "/bundle/Syntaxes" sampleEnv_cson rfl (by decide)).1,
   rfl⟩


/-- C22, counterexample: `Ruby.tmLanguage` and `ruby.json` both yield a record, and both
are written to `grammars/ruby.cson`: the second write replaces the first. -/
theorem convertGrammars_same_stem_overwrites :
    convertGrammars sampleEnv sameStemBundle "/out/pkg" "/bundle"
      = ⟨[Action.write "/out/pkg/grammars/ruby.cson"
            (Serialized.grammar
              [("name", Val.str "Ruby"), ("scopeName", Val.str "source.ruby")]),
          Action.write "/out/pkg/grammars/ruby.cson"
            (Serialized.grammar [("name", Val.str "Ruby on Rails")]),
          Action.normalize "/out/pkg/grammars"], none⟩ ∧
    (grammarRecord sampleEnv sameStemBundle "/bundle/Syntaxes" "Ruby.tmLanguage").isSome
      = true ∧
    (grammarRecord sampleEnv sameStemBundle "/bundle/Syntaxes" "ruby.json").isSome = true ∧
    "Ruby.tmLanguage" ≠ "ruby.json" :=
  ⟨rfl, rfl, rfl, by decide⟩

/-- C22, amended: when the syntaxes directory exists and its files are read without
error, the paths written are, in order, those of the entries that yield a record, one
for each; when the lower-cased stems of these entries are pairwise different (and
joining different names to the destination gives different paths), the written paths
are pairwise different, so that no write replaces another. -/
theorem convertGrammars_distinct_stems (env : Env) (bundle : Bundle)
    (destinationPath source sourceSyntaxes : String)
    (hcson : ∀ s, env.toLowerCase (s ++ ".cson") = env.toLowerCase s ++ ".cson")
    (hdir : sourceDirectory env bundle source "syntaxes" "Syntaxes" = some sourceSyntaxes)
    (hread : ∀ child ∈ bundle.readdirSync sourceSyntaxes,
      bundle.isFileSync (env.join sourceSyntaxes child) = true →
      (readFileSync env bundle (env.join sourceSyntaxes child)).toBool = true) :
    writtenPaths (convertGrammars env bundle destinationPath source).actions
      = ((bundle.readdirSync sourceSyntaxes).filter
          (fun child => (grammarRecord env bundle sourceSyntaxes child).isSome)).map
          (fun child => env.join (env.join destinationPath "grammars")
            (grammarFileName env (env.join sourceSyntaxes child))) ∧
    (writtenPaths (convertGrammars env bundle destinationPath source).actions).length
      = ((bundle.readdirSync sourceSyntaxes).filter
          (fun child => (grammarRecord env bundle sourceSyntaxes child).isSome)).length ∧
    ((∀ a b, env.join (env.join destinationPath "grammars") a
          = env.join (env.join destinationPath "grammars") b → a = b) →
      (((bundle.readdirSync sourceSyntaxes).filter
          (fun child => (grammarRecord env bundle sourceSyntaxes child).isSome)).map
          (fun child => grammarFileName env (env.join sourceSyntaxes child))).Nodup →
      (writtenPaths (convertGrammars env bundle destinationPath source).actions).Nodup) := by
  have hloop := convertGrammarsLoop_of_reads env bundle hcson sourceSyntaxes
    (env.join destinationPath "grammars") (bundle.readdirSync sourceSyntaxes)
    (fun child hc hf => exists_of_toBool _ (hread child hc hf))
  have hpaths : writtenPaths (convertGrammars env bundle destinationPath source).actions
      = ((bundle.readdirSync sourceSyntaxes).filter
          (fun child => (grammarRecord env bundle sourceSyntaxes child).isSome)).map
          (fun child => env.join (env.join destinationPath "grammars")
            (grammarFileName env (env.join sourceSyntaxes child))) := by
    simp only [convertGrammars, hdir, hloop, andThen_ok, writtenPaths_append,
      writtenPaths_expectedGrammarWrites, writtenPaths, List.append_nil]
  refine ⟨hpaths, by rw [hpaths, List.length_map], ?_⟩
  intro hjoin hnd
  rw [hpaths]
  have := List.Nodup.map (f := fun name => env.join (env.join destinationPath "grammars") name)
    (fun a b h => hjoin a b h) hnd
  simpa [List.map_map] using this


/-- The bundle with `Ruby.tmLanguage` and `Rails.json`: two files are written, to two
paths. -/
theorem convertGrammars_distinct_stems_witness :
    sourceDirectory sampleEnv twoGrammarsBundle "/bundle" "syntaxes" "Syntaxes"
      = some "/bundle/syntaxes" ∧
    writtenPaths (convertGrammars sampleEnv twoGrammarsBundle "/out/pkg" "/bundle").actions
      = ["/out/pkg/grammars/ruby.cson", "/out/pkg/grammars/rails.cson"] ∧
    (writtenPaths
      (convertGrammars sampleEnv twoGrammarsBundle "/out/pkg" "/bundle").actions).Nodup :=
  ⟨rfl, rfl,
   (convertGrammars_distinct_stems sampleEnv twoGrammarsBundle "/out/pkg" "/bundle"
      "/bundle/syntaxes" sampleEnv_cson rfl (by decide)).2.2
      (sampleEnv_join_injective _) (by decide)⟩


/-! ## Claims on the errors of the converters -/

/-- C23: for a snippet file and a preferences file whose scope the matcher rejects, the
error is thrown again with a message that has the scope and the message of the matcher,
but `undefined` where the file is meant to be named: the path of the source file is not
in it. -/
theorem translation_error_message_without_path :
    convertSnippets strictEnv badScopeBundle "/out/pkg" "pkg" "/bundle"
      = ⟨[], some ⟨none, "In file undefined at \"(source.rb\": " ++
          "Expected a closing parenthesis but end of input found."⟩⟩ ∧
    convertPreferences strictEnv badScopeBundle "/out/pkg" "pkg" "/bundle"
      = ⟨[], some ⟨none, "In file undefined at \"(source.rb\": " ++
          "Expected a closing parenthesis but end of input found."⟩⟩ ∧
    containsText ("In file undefined at \"(source.rb\": " ++
        "Expected a closing parenthesis but end of input found.")
      "/bundle/snippets/bad.tmSnippet" = false ∧
    containsText ("In file undefined at \"(source.rb\": " ++
        "Expected a closing parenthesis but end of input found.")
      "bad.tm" = false ∧
    containsText ("In file undefined at \"(source.rb\": " ++
        "Expected a closing parenthesis but end of input found.")
      "(source.rb" = true :=
  ⟨rfl, rfl, by decide, by decide, by decide⟩


/-- C24: a run of `convertSnippets` or of `convertPreferences` that throws has had no
effect on the destination; and the run throws the error of the first file of the
listing, at whatever position, that cannot be read or whose scope cannot be
translated. -/
theorem failed_category_writes_nothing (env : Env) (bundle : Bundle)
    (destinationPath packageName source : String) :
    (∀ e, (convertSnippets env bundle destinationPath packageName source).error = some e →
      (convertSnippets env bundle destinationPath packageName source).actions = []) ∧
    (∀ e, (convertPreferences env bundle destinationPath packageName source).error = some e →
      (convertPreferences env bundle destinationPath packageName source).actions = []) ∧
    (∀ sourceSnippets pre child post st e,
      sourceDirectory env bundle source "snippets" "Snippets" = some sourceSnippets →
      bundle.readdirSync sourceSnippets = pre ++ child :: post →
      convertSnippetsLoop env bundle sourceSnippets ⟨[], none⟩ pre = .ok st →
      (readFileSync env bundle (env.join sourceSnippets child) = .error e ∨
        ∃ file, readFileSync env bundle (env.join sourceSnippets child) = .ok file ∧
          snippetStep env st child (file.map Parsed.snippet) = .error e) →
      convertSnippets env bundle destinationPath packageName source = ⟨[], some e⟩) ∧
    (∀ sourcePreferences pre child post group e,
      sourceDirectory env bundle source "preferences" "Preferences"
        = some sourcePreferences →
      bundle.readdirSync sourcePreferences = pre ++ child :: post →
      convertPreferencesLoop env bundle sourcePreferences [] pre = .ok group →
      (readFileSync env bundle (env.join sourcePreferences child) = .error e ∨
        ∃ file, readFileSync env bundle (env.join sourcePreferences child) = .ok file ∧
          preferenceStep env group (file.map Parsed.preference) = .error e) →
      convertPreferences env bundle destinationPath packageName source = ⟨[], some e⟩) := by
  refine ⟨fun e h => convertSnippets_actions_of_error env bundle _ _ _ e h,
    fun e h => convertPreferences_actions_of_error env bundle _ _ _ e h, ?_, ?_⟩
  · intro sourceSnippets pre child post st e hdir hlist hpre hbad
    have hloop := convertSnippetsLoop_fails env bundle sourceSnippets ⟨[], none⟩ st pre post
      child e hpre hbad
    simp only [convertSnippets, hdir, hlist, hloop]
  · intro sourcePreferences pre child post group e hdir hlist hpre hbad
    have hloop := convertPreferencesLoop_fails env bundle sourcePreferences [] group pre post
      child e hpre hbad
    simp only [convertPreferences, hdir, hlist, hloop]

/-- The bundle whose second snippet file cannot be parsed and whose second preferences
file has a scope that is rejected: both runs throw and write nothing, although the first
file of each directory is a good one. -/
theorem failed_category_writes_nothing_witness :
    convertSnippets strictEnv brokenBundle "/out/pkg" "pkg" "/bundle"
      = ⟨[], some ⟨none, "Unexpected end of file"⟩⟩ ∧
    convertPreferences strictEnv brokenBundle "/out/pkg" "pkg" "/bundle"
      = ⟨[], some ⟨none, "In file undefined at \"(source.rb\": " ++
          "Expected a closing parenthesis but end of input found."⟩⟩ ∧
    (convertSnippets strictEnv brokenBundle "/out/pkg" "pkg" "/bundle").actions = [] :=
  ⟨(failed_category_writes_nothing strictEnv brokenBundle "/out/pkg" "pkg" "/bundle").2.2.1
      "/bundle/snippets" ["a.tmSnippet"] "b.tmSnippet" ["c.tmSnippet"] _ _ rfl rfl rfl
      (Or.inl rfl),
   (failed_category_writes_nothing strictEnv brokenBundle "/out/pkg" "pkg" "/bundle").2.2.2
      "/bundle/preferences" ["a.tmPreferences"] "b.tmPreferences" [] _ _ rfl rfl rfl
      (Or.inr ⟨_, rfl, rfl⟩),
   (failed_category_writes_nothing strictEnv brokenBundle "/out/pkg" "pkg" "/bundle").1
      ⟨none, "Unexpected end of file"⟩ rfl⟩


/-- C25, counterexample: the second grammar of the listing cannot be parsed; the run
throws, and the first grammar has been written by then. -/
theorem convertGrammars_partial_output :
    convertGrammars sampleEnv brokenGrammarsBundle "/out/pkg" "/bundle"
      = ⟨[Action.write "/out/pkg/grammars/ruby.cson"
            (Serialized.grammar
              [("name", Val.str "Ruby"), ("scopeName", Val.str "source.ruby")])],
          some ⟨none, "Unexpected end of file"⟩⟩ :=
  rfl

/-- C25, amended: when a file of the syntaxes directory cannot be read, and the files
listed before it can, `convertGrammars` throws that error; the records of the files
listed before it have been written, nothing is written for the files after it and the
destination is not normalized.  The destination is as before when no file listed before
the bad one yields a record, as when the bad file comes first. -/
theorem convertGrammars_fails_after_writes (env : Env) (bundle : Bundle)
    (destinationPath source sourceSyntaxes : String) (pre post : List String)
    (child : String) (e : JsError)
    (hcson : ∀ s, env.toLowerCase (s ++ ".cson") = env.toLowerCase s ++ ".cson")
    (hdir : sourceDirectory env bundle source "syntaxes" "Syntaxes" = some sourceSyntaxes)
    (hlist : bundle.readdirSync sourceSyntaxes = pre ++ child :: post)
    (hpre : ∀ c ∈ pre, bundle.isFileSync (env.join sourceSyntaxes c) = true →
      (readFileSync env bundle (env.join sourceSyntaxes c)).toBool = true)
    (hfile : bundle.isFileSync (env.join sourceSyntaxes child) = true)
    (hbad : readFileSync env bundle (env.join sourceSyntaxes child) = .error e) :
    convertGrammars env bundle destinationPath source
      = ⟨pre.flatMap (expectedGrammarWrites env bundle sourceSyntaxes
            (env.join destinationPath "grammars")), some e⟩ ∧
    ((∀ c ∈ pre, grammarRecord env bundle sourceSyntaxes c = none) →
      convertGrammars env bundle destinationPath source = ⟨[], some e⟩) := by
  have hloop := convertGrammarsLoop_fails env bundle hcson sourceSyntaxes
    (env.join destinationPath "grammars") pre post child e
    (fun c hc hf => exists_of_toBool _ (hpre c hc hf)) hfile hbad
  have hrun : convertGrammars env bundle destinationPath source
      = ⟨pre.flatMap (expectedGrammarWrites env bundle sourceSyntaxes
            (env.join destinationPath "grammars")), some e⟩ := by
    simp only [convertGrammars, hdir, hlist, hloop, andThen_error]
  refine ⟨hrun, fun hnone => ?_⟩
  rw [hrun]
  have hnil : pre.flatMap (expectedGrammarWrites env bundle sourceSyntaxes
      (env.join destinationPath "grammars")) = [] := by
    rw [List.flatMap_eq_nil_iff]
    intro c hc
    simp only [expectedGrammarWrites, hnone c hc]
  rw [hnil]

/-- The bundle whose second grammar cannot be parsed: the error is thrown after the
first grammar is written. -/
theorem convertGrammars_fails_after_writes_witness :
    sourceDirectory sampleEnv brokenGrammarsBundle "/bundle" "syntaxes" "Syntaxes"
      = some "/bundle/syntaxes" ∧
    brokenGrammarsBundle.readdirSync "/bundle/syntaxes"
      = ["Ruby.tmLanguage"] ++ "Bad.tmLanguage" :: ["Rails.json"] ∧
    readFileSync sampleEnv brokenGrammarsBundle
        (sampleEnv.join "/bundle/syntaxes" "Bad.tmLanguage")
      = .error ⟨none, "Unexpected end of file"⟩ ∧
    convertGrammars sampleEnv brokenGrammarsBundle "/out/pkg" "/bundle"
      = ⟨["Ruby.tmLanguage"].flatMap
            (expectedGrammarWrites sampleEnv brokenGrammarsBundle "/bundle/syntaxes"
              (sampleEnv.join "/out/pkg" "grammars")),
          some ⟨none, "Unexpected end of file"⟩⟩ :=
  ⟨rfl, rfl, rfl,
   (convertGrammars_fails_after_writes sampleEnv brokenGrammarsBundle "/out/pkg" "/bundle"
      "/bundle/syntaxes" ["Ruby.tmLanguage"] ["Rails.json"] "Bad.tmLanguage"
      ⟨none, "Unexpected end of file"⟩ sampleEnv_cson rfl rfl (by decide) rfl rfl).1⟩


/-! ## Claims on `readFileSync` and on the files that yield no record -/

/-- C26: `readFileSync` calls the property-list parser for the six extensions of
`plistExtensions`, the CSON reader for `.json` and `.cson`, and returns nothing, without
error, for every other extension; a file with such an extension, at any place of the
listing, changes nothing in the run of the loop of `convertSnippets`, of
`convertPreferences` or of `convertGrammars`: no entry, no output file, no error. -/
theorem unrecognized_extension_yields_nothing (env : Env) (bundle : Bundle) :
    plistExtensions
      = [".plist", ".tmCommand", ".tmLanguage", ".tmMacro", ".tmPreferences", ".tmSnippet"] ∧
    (∀ filePath, env.extname filePath ∈ plistExtensions →
      readFileSync env bundle filePath = bundle.parseFileSync filePath) ∧
    (∀ filePath, env.extname filePath ∈ [".json", ".cson"] →
      readFileSync env bundle filePath = bundle.csonReadFileSync filePath) ∧
    (∀ filePath, env.extname filePath ∉ [".plist", ".tmCommand", ".tmLanguage", ".tmMacro",
        ".tmPreferences", ".tmSnippet", ".json", ".cson"] →
      readFileSync env bundle filePath = .ok none) ∧
    (∀ directoryPath st pre child post,
      env.extname (env.join directoryPath child) ∉ [".plist", ".tmCommand", ".tmLanguage",
        ".tmMacro", ".tmPreferences", ".tmSnippet", ".json", ".cson"] →
      convertSnippetsLoop env bundle directoryPath st (pre ++ child :: post)
        = convertSnippetsLoop env bundle directoryPath st (pre ++ post)) ∧
    (∀ directoryPath group pre child post,
      env.extname (env.join directoryPath child) ∉ [".plist", ".tmCommand", ".tmLanguage",
        ".tmMacro", ".tmPreferences", ".tmSnippet", ".json", ".cson"] →
      convertPreferencesLoop env bundle directoryPath group (pre ++ child :: post)
        = convertPreferencesLoop env bundle directoryPath group (pre ++ post)) ∧
    (∀ directoryPath destination pre child post,
      env.extname (env.join directoryPath child) ∉ [".plist", ".tmCommand", ".tmLanguage",
        ".tmMacro", ".tmPreferences", ".tmSnippet", ".json", ".cson"] →
      convertGrammarsLoop env bundle directoryPath destination (pre ++ child :: post)
        = convertGrammarsLoop env bundle directoryPath destination (pre ++ post)) := by
  refine ⟨rfl, ?_, ?_, fun filePath h => readFileSync_of_unrecognized env bundle filePath h,
    ?_, ?_, ?_⟩
  · intro filePath h
    simp only [readFileSync, (contains_eq_true_iff _ _).mpr h, if_true]
  · intro filePath h
    by_cases hp : plistExtensions.contains (env.extname filePath) = true
    · have hm := (contains_eq_true_iff _ _).mp hp
      exfalso
      simp only [plistExtensions, List.mem_cons, List.mem_singleton, List.not_mem_nil,
        or_false] at hm h
      rcases hm with hm | hm | hm | hm | hm | hm <;> rw [hm] at h <;>
        exact absurd h (by decide)
    · simp only [readFileSync, hp, (contains_eq_true_iff _ _).mpr h, if_true,
        Bool.false_eq_true, if_false]
  · intro directoryPath st pre child post h
    have hr := readFileSync_of_unrecognized env bundle _ h
    rw [convertSnippetsLoop_append, convertSnippetsLoop_append]
    cases convertSnippetsLoop env bundle directoryPath st pre with
    | error e => rfl
    | ok st1 => exact convertSnippetsLoop_cons_of_none env bundle directoryPath st1 child post hr
  · intro directoryPath group pre child post h
    have hr := readFileSync_of_unrecognized env bundle _ h
    rw [convertPreferencesLoop_append, convertPreferencesLoop_append]
    cases convertPreferencesLoop env bundle directoryPath group pre with
    | error e => rfl
    | ok group1 =>
      exact convertPreferencesLoop_cons_of_none env bundle directoryPath group1 child post hr
  · intro directoryPath destination pre child post h
    have hr := readFileSync_of_unrecognized env bundle _ h
    rw [convertGrammarsLoop_append, convertGrammarsLoop_append,
      convertGrammarsLoop_cons_of_none env bundle directoryPath destination child post hr]

/-- The file `notes.txt` of the syntaxes directory of the examples adds nothing to the
run of the loop. -/
theorem unrecognized_extension_yields_nothing_witness :
    sampleEnv.extname (sampleEnv.join "/bundle/Syntaxes" "notes.txt")
      ∉ [".plist", ".tmCommand", ".tmLanguage", ".tmMacro", ".tmPreferences", ".tmSnippet",
         ".json", ".cson"] ∧
    convertGrammarsLoop sampleEnv grammarBundle "/bundle/Syntaxes" "/out/pkg/grammars"
        (["Ruby.tmLanguage", "Legacy"] ++ "notes.txt" :: ["Empty.plist"])
      = convertGrammarsLoop sampleEnv grammarBundle "/bundle/Syntaxes" "/out/pkg/grammars"
        (["Ruby.tmLanguage", "Legacy"] ++ ["Empty.plist"]) ∧
    readFileSync sampleEnv grammarBundle "/bundle/Syntaxes/notes.txt" = .ok none :=
  ⟨by decide,
   (unrecognized_extension_yields_nothing sampleEnv grammarBundle).2.2.2.2.2.2
      "/bundle/Syntaxes" "/out/pkg/grammars" ["Ruby.tmLanguage", "Legacy"] "notes.txt"
      ["Empty.plist"] (by decide),
   rfl⟩


/-! ## Claims on `copyDirectories` -/

/-- C27: when the source directory of a category is absent in its lowercase and in its
capitalized form, the converter of the category has no effect and throws nothing,
`copyDirectories` is the run of the two other converters, and no object of the category
is written. -/
theorem absent_category_writes_nothing (env : Env) (bundle : Bundle)
    (destinationPath sourcePath : String) :
    (bundle.isDirectorySync (env.join (env.resolve sourcePath) "snippets") = false →
      bundle.isDirectorySync (env.join (env.resolve sourcePath) "Snippets") = false →
      (∀ packageName, convertSnippets env bundle destinationPath packageName
        (env.resolve sourcePath) = ⟨[], none⟩) ∧
      copyDirectories env bundle destinationPath sourcePath
        = (convertPreferences env bundle destinationPath
            (packageNameOf env bundle destinationPath (env.resolve sourcePath))
            (env.resolve sourcePath)).andThen
          (convertGrammars env bundle destinationPath (env.resolve sourcePath)) ∧
      ∀ filePath group, Action.write filePath (Serialized.snippets group)
        ∉ (copyDirectories env bundle destinationPath sourcePath).actions) ∧
    (bundle.isDirectorySync (env.join (env.resolve sourcePath) "preferences") = false →
      bundle.isDirectorySync (env.join (env.resolve sourcePath) "Preferences") = false →
      (∀ packageName, convertPreferences env bundle destinationPath packageName
        (env.resolve sourcePath) = ⟨[], none⟩) ∧
      copyDirectories env bundle destinationPath sourcePath
        = (convertSnippets env bundle destinationPath
            (packageNameOf env bundle destinationPath (env.resolve sourcePath))
            (env.resolve sourcePath)).andThen
          (convertGrammars env bundle destinationPath (env.resolve sourcePath)) ∧
      ∀ filePath group, Action.write filePath (Serialized.settings group)
        ∉ (copyDirectories env bundle destinationPath sourcePath).actions) ∧
    (bundle.isDirectorySync (env.join (env.resolve sourcePath) "syntaxes") = false →
      bundle.isDirectorySync (env.join (env.resolve sourcePath) "Syntaxes") = false →
      convertGrammars env bundle destinationPath (env.resolve sourcePath) = ⟨[], none⟩ ∧
      copyDirectories env bundle destinationPath sourcePath
        = (convertSnippets env bundle destinationPath
            (packageNameOf env bundle destinationPath (env.resolve sourcePath))
            (env.resolve sourcePath)).andThen
          (convertPreferences env bundle destinationPath
            (packageNameOf env bundle destinationPath (env.resolve sourcePath))
            (env.resolve sourcePath)) ∧
      ∀ filePath record, Action.write filePath (Serialized.grammar record)
        ∉ (copyDirectories env bundle destinationPath sourcePath).actions) := by
  refine ⟨?_, ?_, ?_⟩
  · intro h1 h2
    have hs : ∀ packageName, convertSnippets env bundle destinationPath packageName
        (env.resolve sourcePath) = ⟨[], none⟩ := fun packageName => by
      simp only [convertSnippets, sourceDirectory_of_absent env bundle _ _ _ h1 h2]
    have hc : copyDirectories env bundle destinationPath sourcePath
        = (convertPreferences env bundle destinationPath
            (packageNameOf env bundle destinationPath (env.resolve sourcePath))
            (env.resolve sourcePath)).andThen
          (convertGrammars env bundle destinationPath (env.resolve sourcePath)) := by
      simp only [copyDirectories, hs, andThen_nil]
    refine ⟨hs, hc, ?_⟩
    intro filePath group hmem
    rw [hc] at hmem
    rcases mem_andThen _ _ _ hmem with h | h
    · rcases mem_convertPreferences env bundle _ _ _ _ h with h | ⟨g, h⟩ <;> simp at h
    · rcases mem_convertGrammars env bundle _ _ _ h with h | ⟨n, r, h⟩ <;> simp at h
  · intro h1 h2
    have hp : ∀ packageName, convertPreferences env bundle destinationPath packageName
        (env.resolve sourcePath) = ⟨[], none⟩ := fun packageName => by
      simp only [convertPreferences, sourceDirectory_of_absent env bundle _ _ _ h1 h2]
    have hc : copyDirectories env bundle destinationPath sourcePath
        = (convertSnippets env bundle destinationPath
            (packageNameOf env bundle destinationPath (env.resolve sourcePath))
            (env.resolve sourcePath)).andThen
          (convertGrammars env bundle destinationPath (env.resolve sourcePath)) := by
      simp only [copyDirectories, hp, andThen_nil]
    refine ⟨hp, hc, ?_⟩
    intro filePath group hmem
    rw [hc] at hmem
    rcases mem_andThen _ _ _ hmem with h | h
    · rcases mem_convertSnippets env bundle _ _ _ _ h with h | ⟨g, h⟩ <;> simp at h
    · rcases mem_convertGrammars env bundle _ _ _ h with h | ⟨n, r, h⟩ <;> simp at h
  · intro h1 h2
    have hg : convertGrammars env bundle destinationPath (env.resolve sourcePath)
        = ⟨[], none⟩ := by
      simp only [convertGrammars, sourceDirectory_of_absent env bundle _ _ _ h1 h2]
    have hc : copyDirectories env bundle destinationPath sourcePath
        = (convertSnippets env bundle destinationPath
            (packageNameOf env bundle destinationPath (env.resolve sourcePath))
            (env.resolve sourcePath)).andThen
          (convertPreferences env bundle destinationPath
            (packageNameOf env bundle destinationPath (env.resolve sourcePath))
            (env.resolve sourcePath)) := by
      simp only [copyDirectories, hg, andThen_nil_right]
    refine ⟨hg, hc, ?_⟩
    intro filePath record hmem
    rw [hc] at hmem
    rcases mem_andThen _ _ _ hmem with h | h
    · rcases mem_convertSnippets env bundle _ _ _ _ h with h | ⟨g, h⟩ <;> simp at h
    · rcases mem_convertPreferences env bundle _ _ _ _ h with h | ⟨g, h⟩ <;> simp at h

/-- The bundle of the end-to-end example: one file is written,
`snippets/language-ruby.cson`, and no settings and no grammar. -/
theorem absent_category_writes_nothing_witness :
    copyDirectories sampleEnv snippetBundle "/out/language-ruby" "/bundle"
      = ⟨[Action.write "/out/language-ruby/snippets/language-ruby.cson"
            (Serialized.snippets
              [(".source.rb", [("def", ⟨"def", "def $\x7b1:name\x7d\\nend"⟩)])]),
          Action.normalize "/out/language-ruby/snippets"], none⟩ ∧
    (∀ filePath group, Action.write filePath (Serialized.settings group)
      ∉ (copyDirectories sampleEnv snippetBundle "/out/language-ruby" "/bundle").actions) ∧
    (∀ filePath record, Action.write filePath (Serialized.grammar record)
      ∉ (copyDirectories sampleEnv snippetBundle "/out/language-ruby" "/bundle").actions) :=
  ⟨rfl,
   ((absent_category_writes_nothing sampleEnv snippetBundle "/out/language-ruby"
      "/bundle").2.1 rfl rfl).2.2,
   ((absent_category_writes_nothing sampleEnv snippetBundle "/out/language-ruby"
      "/bundle").2.2 rfl rfl).2.2⟩


/-- C28: the package name is the `packageName` of `package.json` when the file is read,
parsed, and has the field; it is the base name of the resolved destination when the file
cannot be read, cannot be parsed, is parsed to `null`, or has no such field, and none of
these cases throws; every snippets file and every settings file that `copyDirectories`
writes is `<name>.cson` in the directory of its category. -/
theorem packageName_names_output_files (env : Env) (bundle : Bundle)
    (destinationPath sourcePath : String) :
    (∀ text parsed name,
      bundle.readFileSync (env.join (env.resolve sourcePath) "package.json") = .ok text →
      bundle.jsonParse text = .ok (some parsed) → parsed.packageName = some name →
      packageNameOf env bundle (resolvedDestination env destinationPath)
        (env.resolve sourcePath) = name) ∧
    (∀ e, bundle.readFileSync (env.join (env.resolve sourcePath) "package.json") = .error e →
      packageNameOf env bundle (resolvedDestination env destinationPath)
        (env.resolve sourcePath) = env.basename (env.resolve destinationPath) "") ∧
    (∀ text e,
      bundle.readFileSync (env.join (env.resolve sourcePath) "package.json") = .ok text →
      bundle.jsonParse text = .error e →
      packageNameOf env bundle (resolvedDestination env destinationPath)
        (env.resolve sourcePath) = env.basename (env.resolve destinationPath) "") ∧
    (∀ text,
      bundle.readFileSync (env.join (env.resolve sourcePath) "package.json") = .ok text →
      bundle.jsonParse text = .ok none →
      packageNameOf env bundle (resolvedDestination env destinationPath)
        (env.resolve sourcePath) = env.basename (env.resolve destinationPath) "") ∧
    (∀ text parsed,
      bundle.readFileSync (env.join (env.resolve sourcePath) "package.json") = .ok text →
      bundle.jsonParse text = .ok (some parsed) → parsed.packageName = none →
      packageNameOf env bundle (resolvedDestination env destinationPath)
        (env.resolve sourcePath) = env.basename (env.resolve destinationPath) "") ∧
    (∀ filePath group, Action.write filePath (Serialized.snippets group)
        ∈ (copyDirectories env bundle (resolvedDestination env destinationPath)
            sourcePath).actions →
      filePath = env.join (env.join (env.resolve destinationPath) "snippets")
        (packageNameOf env bundle (resolvedDestination env destinationPath)
          (env.resolve sourcePath) ++ ".cson")) ∧
    (∀ filePath group, Action.write filePath (Serialized.settings group)
        ∈ (copyDirectories env bundle (resolvedDestination env destinationPath)
            sourcePath).actions →
      filePath = env.join (env.join (env.resolve destinationPath) "settings")
        (packageNameOf env bundle (resolvedDestination env destinationPath)
          (env.resolve sourcePath) ++ ".cson")) := by
  refine ⟨?_, ?_, ?_, ?_, ?_, ?_, ?_⟩
  · intro text parsed name h1 h2 h3
    simp [packageNameOf, readPackageName, h1, h2, h3]
  · intro e h1
    simp [packageNameOf, readPackageName, h1, resolvedDestination]
  · intro text e h1 h2
    simp [packageNameOf, readPackageName, h1, h2, resolvedDestination]
  · intro text h1 h2
    simp [packageNameOf, readPackageName, h1, h2, resolvedDestination]
  · intro text parsed h1 h2 h3
    simp [packageNameOf, readPackageName, h1, h2, h3, resolvedDestination]
  · intro filePath group hmem
    simp only [copyDirectories] at hmem
    rcases mem_andThen _ _ _ hmem with h | h
    · rcases mem_convertSnippets env bundle _ _ _ _ h with h | ⟨g, h⟩
      · simp at h
      · simp only [Action.write.injEq, resolvedDestination] at h
        exact h.1
    · rcases mem_andThen _ _ _ h with h | h
      · rcases mem_convertPreferences env bundle _ _ _ _ h with h | ⟨g, h⟩ <;> simp at h
      · rcases mem_convertGrammars env bundle _ _ _ h with h | ⟨n, r, h⟩ <;> simp at h
  · intro filePath group hmem
    simp only [copyDirectories] at hmem
    rcases mem_andThen _ _ _ hmem with h | h
    · rcases mem_convertSnippets env bundle _ _ _ _ h with h | ⟨g, h⟩ <;> simp at h
    · rcases mem_andThen _ _ _ h with h | h
      · rcases mem_convertPreferences env bundle _ _ _ _ h with h | ⟨g, h⟩
        · simp at h
        · simp only [Action.write.injEq, resolvedDestination] at h
          exact h.1
      · rcases mem_convertGrammars env bundle _ _ _ h with h | ⟨n, r, h⟩ <;> simp at h

/-- The end-to-end example with a `package.json` that names the package
`ruby-snippets`, with one that cannot be parsed, and without one. -/
theorem packageName_names_output_files_witness :
    packageNameOf sampleEnv namedBundle (resolvedDestination sampleEnv "/out/language-ruby")
      (sampleEnv.resolve "/bundle") = "ruby-snippets" ∧
    packageNameOf sampleEnv malformedBundle
      (resolvedDestination sampleEnv "/out/language-ruby") (sampleEnv.resolve "/bundle")
      = sampleEnv.basename (sampleEnv.resolve "/out/language-ruby") "" ∧
    packageNameOf sampleEnv snippetBundle
      (resolvedDestination sampleEnv "/out/language-ruby") (sampleEnv.resolve "/bundle")
      = sampleEnv.basename (sampleEnv.resolve "/out/language-ruby") "" ∧
    sampleEnv.basename (sampleEnv.resolve "/out/language-ruby") "" = "language-ruby" ∧
    writtenPaths (copyDirectories sampleEnv namedBundle
        (resolvedDestination sampleEnv "/out/language-ruby") "/bundle").actions
      = ["/out/language-ruby/snippets/ruby-snippets.cson"] ∧
    copyDirectories sampleEnv malformedBundle
        (resolvedDestination sampleEnv "/out/language-ruby") "/bundle"
      = ⟨[Action.write "/out/language-ruby/snippets/language-ruby.cson"
            (Serialized.snippets
              [(".source.rb", [("def", ⟨"def", "def $\x7b1:name\x7d\\nend"⟩)])]),
          Action.normalize "/out/language-ruby/snippets"], none⟩ :=
  ⟨(packageName_names_output_files sampleEnv namedBundle "/out/language-ruby" "/bundle").1
      _ _ _ rfl rfl rfl,
   (packageName_names_output_files sampleEnv malformedBundle "/out/language-ruby"
      "/bundle").2.2.1 _ _ rfl rfl,
   (packageName_names_output_files sampleEnv snippetBundle "/out/language-ruby"
      "/bundle").2.1 _ rfl,
   rfl, rfl, rfl⟩


/-! ## Claim on `waitForTagToBeAvailable` -/

/-- C29: for every sequence of responses, `waitForTagToBeAvailable` ends: it makes at
least one and at most 5 requests, every request but the last is answered by a response
that does not list the tag with status 200, the last request is the fifth or is answered
by a response that lists the tag, and the callback is called once, without argument. -/
theorem waitForTag_at_most_five_requests (tag : String) (responses : Nat → TagsResponse)
    (fuel : Nat) (hfuel : 5 ≤ fuel) :
    ∃ run, waitForTagToBeAvailable tag responses fuel = some run ∧
      run.callbacks = [[]] ∧ 1 ≤ run.requests ∧ run.requests ≤ 5 ∧
      (∀ i, i + 1 < run.requests → listsTag tag (responses i) = false) ∧
      (run.requests = 5 ∨ listsTag tag (responses (run.requests - 1)) = true) := by
  obtain ⟨run, hrun, hcb, hlo, hhi, hnot, hlast⟩ :=
    requestTags_spec tag responses fuel 5 0 (by omega) hfuel
  refine ⟨run, hrun, hcb, by omega, by omega, fun i h => hnot i (Nat.zero_le _) h, ?_⟩
  by_cases h5 : run.requests = 5
  · exact Or.inl h5
  · exact Or.inr (hlast (by omega))

/-- The tag is listed by the third response: three requests, one call of the callback;
and when no response lists the tag: five requests, one call. -/
theorem waitForTag_at_most_five_requests_witness :
    (∃ run, waitForTagToBeAvailable "v1.0.1" lateTagResponses 5 = some run ∧
      run.callbacks = [[]] ∧ 1 ≤ run.requests ∧ run.requests ≤ 5 ∧
      (∀ i, i + 1 < run.requests → listsTag "v1.0.1" (lateTagResponses i) = false) ∧
      (run.requests = 5 ∨
        listsTag "v1.0.1" (lateTagResponses (run.requests - 1)) = true)) ∧
    waitForTagToBeAvailable "v1.0.1" lateTagResponses 5 = some ⟨3, [[]]⟩ ∧
    waitForTagToBeAvailable "v9.9.9" lateTagResponses 5 = some ⟨5, [[]]⟩ :=
  ⟨waitForTag_at_most_five_requests "v1.0.1" lateTagResponses 5 (Nat.le_refl 5), rfl, rfl⟩


/-! ## Claim on the end of the collision loop of `normalizeFilenames`

Of `toLowerCase` the theorem assumes that it keeps the length of a string. -/

/-- C30: the `while` loop of `normalizeFilenames` ends for every directory: the
candidates grow in length, so they are pairwise different, and the first candidate that
is not taken has a number that is at most the number of existing paths; the loop returns
it, whatever number of tests above that number it is allowed, and with the number of
tests that `normalizeStep` allows. -/
theorem collision_loop_terminates (env : Env)
    (hstem : ∀ n, hasNoForbidden n = true →
      env.basename n (env.extname n) ++ env.extname n = n)
    (hlen : ∀ s : String, (env.toLowerCase s).length = s.length)
    (fs : FileSystem) (directoryPath child : String) :
    ∃ k, k ≤ (existingPaths env fs directoryPath).length ∧
      (∀ i, i < k →
        nameTaken env fs directoryPath (candidate env (sanitizedName child) i) = true) ∧
      nameTaken env fs directoryPath (candidate env (sanitizedName child) k) = false ∧
      (∀ fuel, k < fuel →
        freeName env fs directoryPath fuel (sanitizedName child) 1
          = some (candidate env (sanitizedName child) k)) ∧
      freeName env fs directoryPath (longestName env fs directoryPath + 2)
          (sanitizedName child) 1
        = some (candidate env (sanitizedName child) k) ∧
      (∀ i j, i < j → (candidate env (sanitizedName child) i).length
        < (candidate env (sanitizedName child) j).length) ∧
      (∀ i j, i ≠ j →
        candidate env (sanitizedName child) i ≠ candidate env (sanitizedName child) j) := by
  have hclean := hasNoForbidden_sanitizedName child
  obtain ⟨k, hk, htaken, hfree⟩ :=
    exists_first_free env hstem hlen fs directoryPath (sanitizedName child) hclean
  have hrun : ∀ fuel, k < fuel →
      freeName env fs directoryPath fuel (sanitizedName child) 1
        = some (candidate env (sanitizedName child) k) := fun fuel hf =>
    freeName_candidate env fs directoryPath (sanitizedName child) fuel 0 k (Nat.zero_le k)
      (by omega) (fun i _ h => htaken i h) hfree
  have hgrow := length_candidate_lt env hstem (sanitizedName child) hclean
  refine ⟨k, hk, htaken, hfree, hrun, ?_, hgrow, ?_⟩
  · apply hrun
    by_cases hk0 : k = 0
    · omega
    · have h1 := length_le_of_nameTaken env (fun s => Nat.le_of_eq (hlen s).symm) fs
        directoryPath _ (htaken (k - 1) (by omega))
      have h2 := le_length_candidate env hstem (sanitizedName child) hclean (k - 1)
      omega
  · intro i j hij heq
    rcases Nat.lt_or_gt_of_ne hij with h | h
    · have := hgrow i j h
      rw [heq] at this
      omega
    · have := hgrow j i h
      rw [heq] at this
      omega

/-- The directory with `x-y.cson`, `x-y-1.cson` and `x:y.cson`: three existing paths, and
the third candidate, `x-y-1-2.cson`, is the first that is not taken. -/
theorem collision_loop_terminates_witness :
    (∃ k, k ≤ (existingPaths sampleEnv suffixDirectory "/out/snippets").length ∧
      (∀ i, i < k → nameTaken sampleEnv suffixDirectory "/out/snippets"
        (candidate sampleEnv (sanitizedName "x:y.cson") i) = true) ∧
      nameTaken sampleEnv suffixDirectory "/out/snippets"
        (candidate sampleEnv (sanitizedName "x:y.cson") k) = false ∧
      (∀ fuel, k < fuel →
        freeName sampleEnv suffixDirectory "/out/snippets" fuel (sanitizedName "x:y.cson") 1
          = some (candidate sampleEnv (sanitizedName "x:y.cson") k)) ∧
      freeName sampleEnv suffixDirectory "/out/snippets"
          (longestName sampleEnv suffixDirectory "/out/snippets" + 2)
          (sanitizedName "x:y.cson") 1
        = some (candidate sampleEnv (sanitizedName "x:y.cson") k) ∧
      (∀ i j, i < j → (candidate sampleEnv (sanitizedName "x:y.cson") i).length
        < (candidate sampleEnv (sanitizedName "x:y.cson") j).length) ∧
      (∀ i j, i ≠ j → candidate sampleEnv (sanitizedName "x:y.cson") i
        ≠ candidate sampleEnv (sanitizedName "x:y.cson") j)) ∧
    (existingPaths sampleEnv suffixDirectory "/out/snippets").length = 3 ∧
    candidate sampleEnv (sanitizedName "x:y.cson") 2 = "x-y-1-2.cson" ∧
    freeName sampleEnv suffixDirectory "/out/snippets" 3 (sanitizedName "x:y.cson") 1
      = some "x-y-1-2.cson" :=
  ⟨collision_loop_terminates sampleEnv sampleEnv_stem sampleEnv_lower_length
      suffixDirectory "/out/snippets" "x:y.cson",
   by decide, by decide, by decide⟩

end PackageConverter
